import Mathlib

/-!
Verification of the scraping-and-normalization engine of
`collect.py` (classroom-availability harvester).

The Python functions are shallowly embedded over `List Char`
(`Str`); `String` wrappers with the source names are provided for the
statements.  Python regexes are compiled by hand into deterministic
matchers; the determinism of each compilation (greedy runs whose
follower cannot extend them, `$` also matching before one final
newline, `re.match` being a prefix match) is noted at each definition.
`\d`, `\s`, `\w` are modelled on their ASCII cores (plus, for `\w`,
all non-ASCII codepoints, which covers the CJK text that occurs here);
every input reaching these matchers in the code has already been
half-width-normalised by `norm_text`.
-/

namespace Collect

abbrev Str := List Char

/-- ASCII decimal digit, the core of Python `\d`. -/
def isDigitC (c : Char) : Bool := Char.isDigit c

/-- ASCII Latin letter, Python `[A-Za-z]`. -/
def isAlphaC (c : Char) : Bool := Char.isAlpha c

/-- Whitespace, the core of Python `\s` / `str.strip()`. -/
def isSpaceC (c : Char) : Bool :=
  c == ' ' || c == '\t' || c == '\n' || c == '\r' || c == '\x0b' || c == '\x0c'

/-- The `_ZEN2HAN` translation table of collect.py: full-width digits,
dash variants, full-width space and full-width Latin letters to their
half-width equivalents; every other character is left unchanged
(`str.translate` semantics). -/
def zen2han (c : Char) : Char :=
  match c with
  | '０' => '0' | '１' => '1' | '２' => '2' | '３' => '3' | '４' => '4'
  | '５' => '5' | '６' => '6' | '７' => '7' | '８' => '8' | '９' => '9'
  | '－' => '-' | '−' => '-' | 'ー' => '-' | '―' => '-' | '‐' => '-'
  | '　' => ' '
  | 'Ａ' => 'A' | 'Ｂ' => 'B' | 'Ｃ' => 'C' | 'Ｄ' => 'D' | 'Ｅ' => 'E'
  | 'Ｆ' => 'F' | 'Ｇ' => 'G' | 'Ｈ' => 'H' | 'Ｉ' => 'I' | 'Ｊ' => 'J'
  | 'Ｋ' => 'K' | 'Ｌ' => 'L' | 'Ｍ' => 'M' | 'Ｎ' => 'N' | 'Ｏ' => 'O'
  | 'Ｐ' => 'P' | 'Ｑ' => 'Q' | 'Ｒ' => 'R' | 'Ｓ' => 'S' | 'Ｔ' => 'T'
  | 'Ｕ' => 'U' | 'Ｖ' => 'V' | 'Ｗ' => 'W' | 'Ｘ' => 'X' | 'Ｙ' => 'Y'
  | 'Ｚ' => 'Z'
  | 'ａ' => 'a' | 'ｂ' => 'b' | 'ｃ' => 'c' | 'ｄ' => 'd' | 'ｅ' => 'e'
  | 'ｆ' => 'f' | 'ｇ' => 'g' | 'ｈ' => 'h' | 'ｉ' => 'i' | 'ｊ' => 'j'
  | 'ｋ' => 'k' | 'ｌ' => 'l' | 'ｍ' => 'm' | 'ｎ' => 'n' | 'ｏ' => 'o'
  | 'ｐ' => 'p' | 'ｑ' => 'q' | 'ｒ' => 'r' | 'ｓ' => 's' | 'ｔ' => 't'
  | 'ｕ' => 'u' | 'ｖ' => 'v' | 'ｗ' => 'w' | 'ｘ' => 'x' | 'ｙ' => 'y'
  | 'ｚ' => 'z'
  | c => c

/-- Python `str.strip()`: drop leading and trailing whitespace. -/
def pyStrip (l : Str) : Str :=
  (((l.dropWhile isSpaceC).reverse).dropWhile isSpaceC).reverse

/-- `norm_text` on character lists: `s.translate(_ZEN2HAN).strip()`. -/
def norm_textL (l : Str) : Str := pyStrip (l.map zen2han)

/-- `norm_text(s)` of collect.py. -/
def norm_text (s : String) : String := ⟨norm_textL s.data⟩

/-- `re.sub(r"^\s*\d{1,2}\s*[:：]\s*", "", s)`: strip one leading
two-digit cell-key prefix.  The digit run is read greedily; a run of
three or more digits can never reach the colon (the character after
one or two digits is again a digit, matched by neither `\s` nor
`[:：]`), so the sub applies exactly when the maximal leading digit
run after optional whitespace has length 1 or 2 and is followed, after
optional whitespace, by a half- or full-width colon. -/
def stripLeadKey (l : Str) : Str :=
  let r1 := l.dropWhile isSpaceC
  let d := r1.takeWhile isDigitC
  let r2 := r1.dropWhile isDigitC
  if d.length = 1 || d.length = 2 then
    match r2.dropWhile isSpaceC with
    | c :: rest => if c == ':' || c == '：' then rest.dropWhile isSpaceC else l
    | [] => l
  else l

/-- Index of the first `close` in the list, provided no newline occurs
before it (`.` in a Python regex does not match a newline); `none`
otherwise. -/
def findClose (close : Char) : Str → Option Nat
  | [] => none
  | c :: r =>
    if c == '\n' then none
    else if c == close then some 0
    else (findClose close r).map (fun n => n + 1)

/-- Fuelled worker for `stripParens`; the fuel is an upper bound on the
list length, consumed one character per step, so `stripParensF l.length l`
computes `re.sub(r"（.*?）|\(.*?\)", "", s)`: scanning left to right,
each opening parenthesis whose matching closer appears before any
newline is removed together with the enclosed text, and scanning
resumes after the closer (non-overlapping leftmost matches). -/
def stripParensF : Nat → Str → Str
  | 0, l => l
  | _ + 1, [] => []
  | fuel + 1, c :: rest =>
    if c == '（' then
      match findClose '）' rest with
      | some j => stripParensF fuel (rest.drop (j + 1))
      | none => c :: stripParensF fuel rest
    else if c == '(' then
      match findClose ')' rest with
      | some j => stripParensF fuel (rest.drop (j + 1))
      | none => c :: stripParensF fuel rest
    else c :: stripParensF fuel rest

/-- `re.sub(r"（.*?）|\(.*?\)", "", s)`: remove parenthesised notes. -/
def stripParens (l : Str) : Str := stripParensF l.length l

/-- Python `pat in s` (substring containment). -/
def containsSubL (pat : Str) : Str → Bool
  | [] => pat.isEmpty
  | c :: rest => pat.isPrefixOf (c :: rest) || containsSubL pat rest

/-- Fuelled worker for `removeAllL` (fuel bounds the list length,
consumed at least one character per step). -/
def removeAllF (pat : Str) : Nat → Str → Str
  | 0, l => l
  | _ + 1, [] => []
  | fuel + 1, c :: rest =>
    if !pat.isEmpty && pat.isPrefixOf (c :: rest) then
      removeAllF pat fuel ((c :: rest).drop pat.length)
    else c :: removeAllF pat fuel rest

/-- Python `s.replace(pat, "")` for a non-empty `pat`: remove all
non-overlapping occurrences, scanning left to right. -/
def removeAllL (pat : Str) (l : Str) : Str := removeAllF pat l.length l

/-- Python `$` without MULTILINE: end of the string, or just before one
final newline. -/
def atEnd (l : Str) : Bool := l.isEmpty || l == ['\n']

/-- Python `str.zfill(2)`: left-pad with `'0'` to length 2. -/
def zfill2 (l : Str) : Str :=
  if 2 ≤ l.length then l else List.replicate (2 - l.length) '0' ++ l

/-- The letter class `[A-Za-zＡ-Ｚａ-ｚ]` of the Japanese PC-room
pattern. -/
def isLetterJa (c : Char) : Bool :=
  isAlphaC c || ('Ａ' ≤ c && c ≤ 'Ｚ') || ('ａ' ≤ c && c ≤ 'ｚ')

/-- `re.match(r"(\d+)号館\d*階?末端室?([A-Za-zＡ-Ｚａ-ｚ])[ルー]*ム?", s)`:
a prefix match; everything after the captured letter is optional, so
the match succeeds with groups `(building digits, letter)` as soon as
the letter is reached, whatever follows.  The optional `室` is taken
only when a letter follows it (otherwise the regex backtracks and then
fails, because `室` itself is not in the letter class). -/
def matchPCJa (l : Str) : Option (Str × Char) :=
  let b := l.takeWhile isDigitC
  if b.isEmpty then none
  else
    match l.dropWhile isDigitC with
    | '号' :: '館' :: r2 =>
      let r3 := r2.dropWhile isDigitC
      let r4 := match r3 with
        | '階' :: t => t
        | _ => r3
      match r4 with
      | '末' :: '端' :: '室' :: c :: _ =>
        if isLetterJa c then some (b, c)
        else if isLetterJa '室' then some (b, '室') else none
      | '末' :: '端' :: c :: _ => if isLetterJa c then some (b, c) else none
      | _ => none
    | _ => none

/-- `re.match(r"^(\d+)-\d+F-([A-Za-z])$", s)` (English-syllabus PC
room).  The digit runs are maximal since their followers (`'-'`,
`'F'`) are not digits. -/
def matchPCEn (l : Str) : Option (Str × Char) :=
  let b := l.takeWhile isDigitC
  if b.isEmpty then none
  else
    match l.dropWhile isDigitC with
    | '-' :: r1 =>
      let f := r1.takeWhile isDigitC
      if f.isEmpty then none
      else
        match r1.dropWhile isDigitC with
        | 'F' :: '-' :: c :: rest =>
          if isAlphaC c && atEnd rest then some (b, c) else none
        | _ => none
    | _ => none

/-- `re.match(r"^\d+[A-Za-z]*-\d{2}-\d{2}$", s)` (already-canonical
building-floor-room form). -/
def matchCanon1 (l : Str) : Bool :=
  let d := l.takeWhile isDigitC
  if d.isEmpty then false
  else
    match (l.dropWhile isDigitC).dropWhile isAlphaC with
    | '-' :: c1 :: c2 :: '-' :: c3 :: c4 :: rest =>
      isDigitC c1 && isDigitC c2 && isDigitC c3 && isDigitC c4 && atEnd rest
    | _ => false

/-- `re.match(r"^\d+PC-[A-Za-z]$", s)` (already-canonical PC room). -/
def matchCanon2 (l : Str) : Bool :=
  let d := l.takeWhile isDigitC
  if d.isEmpty then false
  else
    match l.dropWhile isDigitC with
    | 'P' :: 'C' :: '-' :: c :: rest => isAlphaC c && atEnd rest
    | _ => false

/-- `re.match(r"^\d+-B\d{2}$", s)` (basement form like 53-B04). -/
def matchCanon3 (l : Str) : Bool :=
  let d := l.takeWhile isDigitC
  if d.isEmpty then false
  else
    match l.dropWhile isDigitC with
    | '-' :: 'B' :: c1 :: c2 :: rest => isDigitC c1 && isDigitC c2 && atEnd rest
    | _ => false

/-- `re.match(r"^(\d+[A-Za-z]*)-(\d+)-(\d+)$", s)`: full three-part
form with unpadded floor/room.  Returns (building, floor, room). -/
def matchFull (l : Str) : Option (Str × Str × Str) :=
  let d := l.takeWhile isDigitC
  if d.isEmpty then none
  else
    let r1 := l.dropWhile isDigitC
    let a := r1.takeWhile isAlphaC
    match r1.dropWhile isAlphaC with
    | '-' :: r2 =>
      let f := r2.takeWhile isDigitC
      if f.isEmpty then none
      else
        match r2.dropWhile isDigitC with
        | '-' :: r3 =>
          let r := r3.takeWhile isDigitC
          if !r.isEmpty && atEnd (r3.dropWhile isDigitC) then
            some (d ++ a, f, r)
          else none
        | _ => none
    | _ => none

/-- `re.match(r"^(\d+[A-Za-z]*-\d{2}-\d{2})(?:-\d+)?$", s)`: canonical
base form with an optional `-<digits>` artifact suffix; returns the
base (group 1). -/
def matchBase (l : Str) : Option Str :=
  let d := l.takeWhile isDigitC
  if d.isEmpty then none
  else
    let r1 := l.dropWhile isDigitC
    let a := r1.takeWhile isAlphaC
    match r1.dropWhile isAlphaC with
    | '-' :: c1 :: c2 :: '-' :: c3 :: c4 :: rest =>
      if isDigitC c1 && isDigitC c2 && isDigitC c3 && isDigitC c4 then
        let base := d ++ a ++ '-' :: c1 :: c2 :: '-' :: c3 :: c4 :: []
        if atEnd rest then some base
        else
          match rest with
          | '-' :: r2 =>
            let n := r2.takeWhile isDigitC
            if !n.isEmpty && atEnd (r2.dropWhile isDigitC) then some base
            else none
          | _ => none
      else none
    | _ => none

/-- `re.match(r"^(\d+)-(\d{3})([A-Za-z])?$", s)`: three-digit short
form with optional letter suffix.  Returns (building, digits, suffix). -/
def matchShort3 (l : Str) : Option (Str × Str × Option Char) :=
  let b := l.takeWhile isDigitC
  if b.isEmpty then none
  else
    match l.dropWhile isDigitC with
    | '-' :: c1 :: c2 :: c3 :: rest =>
      if isDigitC c1 && isDigitC c2 && isDigitC c3 then
        match rest with
        | [] => some (b, [c1, c2, c3], none)
        | ['\n'] => some (b, [c1, c2, c3], none)
        | c :: rest2 =>
          if isAlphaC c && atEnd rest2 then some (b, [c1, c2, c3], some c)
          else none
      else none
    | _ => none

/-- `re.match(r"^(\d+)-(\d{1,2})$", s)`: two-part short form.  The
second digit run is maximal; if it has three or more digits no split
into `\d{1,2}` followed by `$` exists, so the match requires its
length to be 1 or 2. -/
def matchShort (l : Str) : Option (Str × Str) :=
  let b := l.takeWhile isDigitC
  if b.isEmpty then none
  else
    match l.dropWhile isDigitC with
    | '-' :: r1 =>
      let n := r1.takeWhile isDigitC
      if (n.length = 1 || n.length = 2) && atEnd (r1.dropWhile isDigitC) then
        some (b, n)
      else none
    | _ => none

/-- The post-scan stage of `matchPCEn` (the part after the building
digits), factored out for the cascade evaluations. -/
def pcEnTail (b : Str) : Str → Option (Str × Char)
  | 'F' :: '-' :: c :: rest => if isAlphaC c && atEnd rest then some (b, c) else none
  | _ => none

/-- The stage of `matchPCEn` after the leading digit run. -/
def pcEnBody (b : Str) : Str → Option (Str × Char)
  | '-' :: r1 =>
    if (r1.takeWhile isDigitC).isEmpty then none
    else pcEnTail b (r1.dropWhile isDigitC)
  | _ => none

/-- The stage of `matchCanon1` after the digit and letter runs. -/
def canon1Body : Str → Bool
  | '-' :: c1 :: c2 :: '-' :: c3 :: c4 :: rest =>
    isDigitC c1 && isDigitC c2 && isDigitC c3 && isDigitC c4 && atEnd rest
  | _ => false

/-- The stage of `matchCanon2` after the leading digit run. -/
def canon2Body : Str → Bool
  | 'P' :: 'C' :: '-' :: c :: rest => isAlphaC c && atEnd rest
  | _ => false

/-- The stage of `matchCanon3` after the leading digit run. -/
def canon3Body : Str → Bool
  | '-' :: 'B' :: c1 :: c2 :: rest => isDigitC c1 && isDigitC c2 && atEnd rest
  | _ => false

/-- The room-number stage of `matchFull`. -/
def fullTail (bld f : Str) : Str → Option (Str × Str × Str)
  | '-' :: r3 =>
    if !(r3.takeWhile isDigitC).isEmpty && atEnd (r3.dropWhile isDigitC) then
      some (bld, f, r3.takeWhile isDigitC)
    else none
  | _ => none

/-- The stage of `matchFull` after the building group. -/
def fullBody (bld : Str) : Str → Option (Str × Str × Str)
  | '-' :: r2 =>
    if (r2.takeWhile isDigitC).isEmpty then none
    else fullTail bld (r2.takeWhile isDigitC) (r2.dropWhile isDigitC)
  | _ => none

/-- The artifact-suffix stage of `matchBase`. -/
def baseTail (base : Str) : Str → Option Str
  | '-' :: r2 =>
    if !(r2.takeWhile isDigitC).isEmpty && atEnd (r2.dropWhile isDigitC) then some base
    else none
  | _ => none

/-- The stage of `matchBase` after the building group. -/
def baseBody (pre : Str) : Str → Option Str
  | '-' :: c1 :: c2 :: '-' :: c3 :: c4 :: rest =>
    if isDigitC c1 && isDigitC c2 && isDigitC c3 && isDigitC c4 then
      if atEnd rest then some (pre ++ '-' :: c1 :: c2 :: '-' :: c3 :: c4 :: [])
      else baseTail (pre ++ '-' :: c1 :: c2 :: '-' :: c3 :: c4 :: []) rest
    else none
  | _ => none

/-- The suffix stage of `matchShort3`. -/
def short3Tail (b d3 : Str) : Str → Option (Str × Str × Option Char)
  | [] => some (b, d3, none)
  | ['\n'] => some (b, d3, none)
  | c :: rest2 => if isAlphaC c && atEnd rest2 then some (b, d3, some c) else none

/-- The stage of `matchShort3` after the leading digit run. -/
def short3Body (b : Str) : Str → Option (Str × Str × Option Char)
  | '-' :: c1 :: c2 :: c3 :: rest =>
    if isDigitC c1 && isDigitC c2 && isDigitC c3 then short3Tail b [c1, c2, c3] rest
    else none
  | _ => none

/-- The stage of `matchShort` after the leading digit run. -/
def shortBody (b : Str) : Str → Option (Str × Str)
  | '-' :: r1 =>
    if ((r1.takeWhile isDigitC).length = 1 || (r1.takeWhile isDigitC).length = 2)
        && atEnd (r1.dropWhile isDigitC) then
      some (b, r1.takeWhile isDigitC)
    else none
  | _ => none

/-- The optional floor marker stage of the Japanese PC-room rule. -/
def kaiStrip (r3 : Str) : Str :=
  match r3 with
  | '階' :: t => t
  | _ => r3

/-- The final stage of the Japanese PC-room rule. -/
def pcJaTail (b : Str) : Str → Option (Str × Char)
  | '末' :: '端' :: '室' :: c :: _ =>
    if isLetterJa c then some (b, c)
    else if isLetterJa '室' then some (b, '室') else none
  | '末' :: '端' :: c :: _ => if isLetterJa c then some (b, c) else none
  | _ => none

/-- The stage of `matchPCJa` after the leading digit run. -/
def pcJaBody (b : Str) : Str → Option (Str × Char)
  | '号' :: '館' :: r2 =>
    let r3 := r2.dropWhile isDigitC
    let r4 := match r3 with
      | '階' :: t => t
      | _ => r3
    match r4 with
    | '末' :: '端' :: '室' :: c :: _ =>
      if isLetterJa c then some (b, c)
      else if isLetterJa '室' then some (b, '室') else none
    | '末' :: '端' :: c :: _ => if isLetterJa c then some (b, c) else none
    | _ => none
  | _ => none

/-- The "undetermined" test of norm_room:
`"未定" in s or s == "" or "TBD" in s.upper()`.  `str.upper()` is
modelled character-wise with the ASCII `Char.toUpper` (the only
letters that matter for the token `"TBD"`). -/
def undetermined (l : Str) : Bool :=
  containsSubL "未定".data l || l.isEmpty ||
    containsSubL "TBD".data (l.map Char.toUpper)

/-- Lines 69–71 of collect.py: re-apply `norm_text`, delete the room
suffix tokens `教室`, `室`, `ルーム`, `ル-ム` (in that order, each
`str.replace` deleting every occurrence) and then all spaces. -/
def postCleanL (l : Str) : Str :=
  removeAllL " ".data
    (removeAllL "ル-ム".data
      (removeAllL "ルーム".data
        (removeAllL "室".data
          (removeAllL "教室".data (norm_textL l)))))

/-- Lines 97–132 of collect.py: the full / base / three-digit-short /
two-part-short rules and the final fallback. -/
def normRoomTail3 (s : Str) : Str :=
  match matchFull s with
  | some (b, f, r) => b ++ '-' :: zfill2 f ++ '-' :: zfill2 r
  | none =>
    match matchBase s with
    | some base => base
    | none =>
      match matchShort3 s with
      | some (b, d, suf) =>
        if b == "63".data then
          b ++ '-' :: zfill2 (d.take 1) ++ '-' :: d.drop 1
        else
          b ++ '-' :: d ++
            (match suf with
             | some c => [Char.toUpper c]
             | none => [])
      | none =>
        match matchShort s with
        | some (b, n) => b ++ '-' :: zfill2 n
        | none => s

/-- Lines 89–95 of collect.py: the three already-canonical passthrough
rules, then the rest of the cascade. -/
def normRoomTail2 (s : Str) : Str :=
  if matchCanon1 s then s
  else if matchCanon2 s then s
  else if matchCanon3 s then s
  else normRoomTail3 s

/-- The tail of the norm_room cascade (everything after the Japanese
PC-room rule), applied to the post-cleaned string. -/
def normRoomTail (s : Str) : Str :=
  if s.isEmpty then []
  else if s == "61-102".data then "61-102B".data
  else
    match matchPCEn s with
    | some (b, c) => b ++ "PC-".data ++ [Char.toUpper c]
    | none => normRoomTail2 s

/-- `norm_room` on character lists, following the cascade of
collect.py lines 40–132 in order: normalise, strip a leading cell-key
prefix and parenthesised notes, return `""` for undetermined inputs,
special-case the Japanese PC-room naming, then clean room-suffix
tokens and apply the remaining rules via `normRoomTail`. -/
def normRoomL (raw : Str) : Str :=
  let s := stripParens (stripLeadKey (norm_textL raw))
  if undetermined s then []
  else
    match matchPCJa s with
    | some (b, c) =>
      norm_textL b ++ "PC-".data ++ (norm_textL [c]).map Char.toUpper
    | none => normRoomTail (postCleanL s)

/-- `norm_room(raw)` of collect.py. -/
def norm_room (s : String) : String := ⟨normRoomL s.data⟩

/-- The room-string shapes the cascade recognises: the patterns of the
Japanese PC-room rule, the campus alias, the English PC-room rule, the
three already-canonical forms, the full three-part form, the suffixed
base form, the three-digit short form and the two-part short form
(everything except the undetermined-placeholder rule and the final
fallback). -/
def recognizedShape (l : Str) : Bool :=
  (matchPCJa l).isSome || l == "61-102".data || (matchPCEn l).isSome ||
    matchCanon1 l || matchCanon2 l || matchCanon3 l ||
    (matchFull l).isSome || (matchBase l).isSome ||
    (matchShort3 l).isSome || (matchShort l).isSome

/-- `recognizedShape` on strings. -/
def RecognizedRoomShape (s : String) : Bool := recognizedShape s.data

/-! ### Pagination controller (`_parse_range_indicator`, `go_to_next_page`,
`harvest_result_pages` paging loop) -/

/-- `int()` of a decimal digit string. -/
def natOfDigits (l : Str) : Nat := l.foldl (fun a c => a * 10 + (c.toNat - 48)) 0

/-- Try the pattern `(\d+)\s*[～\-]\s*(\d+)\s*[／/]\s*(\d+)` anchored at
the head of the list.  Each digit run is maximal (a shorter run leaves
a digit where the separator class is required, so no backtracking
succeeds). -/
def rangeIndAt (l : Str) : Option (Nat × Nat × Nat) :=
  let d1 := l.takeWhile isDigitC
  if d1.isEmpty then none
  else
    match ((l.dropWhile isDigitC).dropWhile isSpaceC) with
    | c :: r2 =>
      if c == '～' || c == '-' then
        let r3 := r2.dropWhile isSpaceC
        let d2 := r3.takeWhile isDigitC
        if d2.isEmpty then none
        else
          match ((r3.dropWhile isDigitC).dropWhile isSpaceC) with
          | c2 :: r5 =>
            if c2 == '／' || c2 == '/' then
              let d3 := (r5.dropWhile isSpaceC).takeWhile isDigitC
              if d3.isEmpty then none
              else some (natOfDigits d1, natOfDigits d2, natOfDigits d3)
            else none
          | [] => none
      else none
    | [] => none

/-- `re.search`: try the range-indicator pattern at every position,
left to right. -/
def searchRangeInd : Str → Option (Nat × Nat × Nat)
  | [] => none
  | c :: r =>
    match rangeIndAt (c :: r) with
    | some x => some x
    | none => searchRangeInd r

/-- `_parse_range_indicator(text)`: parse `'8201～8300／16687'`-style
text into (start, end, total). -/
def _parse_range_indicator (text : String) : Option (Nat × Nat × Nat) :=
  let s := norm_textL text.data
  if s.isEmpty then none else searchRangeInd s

/-- Outcome of one `go_to_next_page` call: `noMorePages` is the early
`return False` taken before any navigation strategy is attempted;
`advanced` is a `return True` (some strategy made the range indicator
change); `navFailed` is the final `return False` after every strategy
left the indicator unchanged (or none was available). -/
inductive AdvanceOutcome where
  | noMorePages : AdvanceOutcome
  | advanced : AdvanceOutcome
  | navFailed : AdvanceOutcome
deriving DecidableEq

/-- Control-flow model of `go_to_next_page`: `info` is the parsed range
indicator of the current page, `navChanges` abstracts "some of the
three navigation strategies makes the indicator text change within its
timeout".  Per the source, when the indicator parses, page size is
inferred as `max(1, end-start+1)`, the page count as its ceiling
division of total, and `current_page_no >= total_pages` returns False
with no navigation attempt.  (`end-start+1` is computed in ℤ in
Python; for `end < start` both it and the ℕ version are clamped to 1
by the `max`, so ℕ subtraction is faithful.) -/
def goToNextPageModel (info : Option (Nat × Nat × Nat)) (navChanges : Bool)
    (currentPageNo : Nat) : AdvanceOutcome :=
  match info with
  | some (st, en, total) =>
    let perPage := max 1 (en - st + 1)
    let totalPages := (total + perPage - 1) / perPage
    if totalPages ≤ currentPageNo then AdvanceOutcome.noMorePages
    else if navChanges then AdvanceOutcome.advanced else AdvanceOutcome.navFailed
  | none => if navChanges then AdvanceOutcome.advanced else AdvanceOutcome.navFailed

/-- The boolean returned by `go_to_next_page`. -/
def go_to_next_page (info : Option (Nat × Nat × Nat)) (navChanges : Bool)
    (currentPageNo : Nat) : Bool :=
  match goToNextPageModel info navChanges currentPageNo with
  | AdvanceOutcome.advanced => true
  | _ => false

/-- The paging loop of `harvest_result_pages`: process the current
page, then call `go_to_next_page`; stop when it returns False.
`info p` / `nav p` give the parsed indicator and the
navigation-success abstraction for page `p`; pages are numbered from 1
as in the source.  Returns `(last page processed, number of
successful advances)`; `none` when the fuel bound (absent from the
unbounded Python loop) is exhausted. -/
def harvestPagesModel (info : Nat → Option (Nat × Nat × Nat)) (nav : Nat → Bool) :
    Nat → Nat → Option (Nat × Nat)
  | 0, _ => none
  | fuel + 1, pageNo =>
    if go_to_next_page (info pageNo) (nav pageNo) pageNo then
      (harvestPagesModel info nav fuel (pageNo + 1)).map (fun p => (p.1, p.2 + 1))
    else some (pageNo, 0)

/-! ### Schedule-table cell fill (`put_cell`) -/

/-- Python `s.split(sep)` for a single-character separator. -/
def splitOnC (sep : Char) : Str → List Str
  | [] => [[]]
  | c :: r =>
    if c == sep then [] :: splitOnC sep r
    else
      match splitOnC sep r with
      | [] => [[c]]
      | g :: gs => (c :: g) :: gs

/-- `str.strip()` on strings. -/
def pyStripS (s : String) : String := ⟨pyStrip s.data⟩

/-- `cur.split(";")` on strings. -/
def splitSemiS (s : String) : List String := (splitOnC ';' s.data).map (fun l => ⟨l⟩)

/-- One per-day table: the `period` column (already as integers — the
claims about `put_cell` presuppose an integer-valued period column,
which is what `df["period"].astype(int)` yields) and, for each row,
the cells of the room columns, aligned with `roomCols`. -/
structure DayTable where
  roomCols : List String
  rows : List (Int × List String)
deriving DecidableEq

/-- Replace cell `j` of the first row whose period equals `period`
(`df.index[...][0]` picks the first matching row). -/
def setCell : List (Int × List String) → Int → Nat → String → List (Int × List String)
  | [], _, _, _ => []
  | (p, cs) :: rest, period, j, v =>
    if p == period then (p, cs.set j v) :: rest
    else (p, cs) :: setCell rest period j v

/-- Read cell `j` of the first row whose period equals `period`. -/
def getCell (rows : List (Int × List String)) (period : Int) (j : Nat) : String :=
  match rows.find? (fun r => r.1 == period) with
  | some r => r.2.getD j ""
  | none => ""

/-- `put_cell(df, period, room, value)` of collect.py: no-op when
`room` is not a (room) column or `period` is not among the period
values; otherwise write `value` into the first matching row, appending
to the semicolon-separated list unless already present verbatim
(after stripping each element). -/
def put_cell (df : DayTable) (period : Int) (room : String) (value : String) : DayTable :=
  if room ∉ df.roomCols then df
  else if period ∉ df.rows.map Prod.fst then df
  else
    let j := df.roomCols.findIdx (fun r => r == room)
    let cur := pyStripS (getCell df.rows period j)
    if cur = "" then { df with rows := setCell df.rows period j value }
    else
      let vals := ((splitSemiS cur).map pyStripS).filter (fun x => x ≠ "")
      if value ∈ vals then df
      else { df with rows := setCell df.rows period j (cur ++ ";" ++ value) }

/-- The cell's semicolon-separated value list as `put_cell` sees it:
split the stripped cell text on `";"`, strip each element, drop empty
elements. -/
def cellValsAt (df : DayTable) (period : Int) (room : String) : List String :=
  ((splitSemiS (pyStripS
      (getCell df.rows period (df.roomCols.findIdx (fun r => r == room))))).map
    pyStripS).filter (fun x => x ≠ "")

/-! ### Day/period parsing (`parse_day_periods`) -/

/-- `DAY_MAP_JA`. -/
def DAY_MAP_JA (c : Char) : String :=
  match c with
  | '月' => "mon" | '火' => "tue" | '水' => "wed" | '木' => "thu"
  | '金' => "fri" | '土' => "sat" | '日' => "sun" | _ => ""

/-- `DAY_MAP_EN` (total; the default is unreachable for matcher
outputs). -/
def DAY_MAP_EN (k : String) : String :=
  if k = "Mon" ∨ k = "Mon." then "mon"
  else if k = "Tue" ∨ k = "Tues" ∨ k = "Tue." ∨ k = "Tues." then "tue"
  else if k = "Wed" ∨ k = "Wed." then "wed"
  else if k = "Thu" ∨ k = "Thur" ∨ k = "Thu." ∨ k = "Thur." then "thu"
  else if k = "Fri" ∨ k = "Fri." then "fri"
  else if k = "Sat" ∨ k = "Sat." then "sat"
  else if k = "Sun" ∨ k = "Sun." then "sun"
  else ""

/-- Python `\w` (word character): modelled as ASCII alphanumerics,
underscore, and every non-ASCII codepoint (true for all the CJK and
kana text that occurs in this domain). -/
def isWordChar (c : Char) : Bool := c.isAlphanum || c == '_' || 127 < c.toNat

/-- The weekday character class `[月火水木金土日]`. -/
def isDayJaC (c : Char) : Bool :=
  c == '月' || c == '火' || c == '水' || c == '木' || c == '金' || c == '土' || c == '日'

/-- `re.search(r"([月火水木金土日])", s)`: first weekday character and
the remainder after it (`s[m.end():]`). -/
def findDayJaScan : Str → Option (Char × Str)
  | [] => none
  | c :: r => if isDayJaC c then some (c, r) else findDayJaScan r

/-- Try one alternative `alt` of the English weekday alternation,
together with its optional dot and the closing `\b`: the dot is kept
only when a word character follows it (otherwise the regex backtracks
to the dotless variant, whose boundary sits between the final letter
and the non-word dot). -/
def tryAlt (alt : Str) (l : Str) : Option (Str × Str) :=
  if alt.isPrefixOf l then
    match l.drop alt.length with
    | '.' :: r2 =>
      match r2 with
      | c2 :: _ =>
        if isWordChar c2 then some (alt ++ ['.'], r2) else some (alt, '.' :: r2)
      | [] => some (alt, ['.'])
    | c :: r2 => if isWordChar c then none else some (alt, c :: r2)
    | [] => some (alt, [])
  else none

/-- The alternation
`Mon\.?|Tue\.?|Tues\.?|Wed\.?|Thu\.?|Thur\.?|Fri\.?|Sat\.?|Sun\.?`,
tried in source order. -/
def tryDayAlts (l : Str) : Option (Str × Str) :=
  (tryAlt "Mon".data l) <|> (tryAlt "Tue".data l) <|> (tryAlt "Tues".data l) <|>
    (tryAlt "Wed".data l) <|> (tryAlt "Thu".data l) <|> (tryAlt "Thur".data l) <|>
    (tryAlt "Fri".data l) <|> (tryAlt "Sat".data l) <|> (tryAlt "Sun".data l)

/-- `re.search(r"\b(Mon\.?|...)\b", s)`: scan left to right; the
alternation can only start where the previous character is not a word
character (the opening `\b`). -/
def findDayEn (prevWord : Bool) : Str → Option (Str × Str)
  | [] => none
  | c :: r =>
    match (if prevWord then none else tryDayAlts (c :: r)) with
    | some x => some x
    | none => findDayEn (isWordChar c) r

/-- Fuelled worker for `replaceAllL`. -/
def replaceAllF (pat repl : Str) : Nat → Str → Str
  | 0, l => l
  | _ + 1, [] => []
  | fuel + 1, c :: rest =>
    if !pat.isEmpty && pat.isPrefixOf (c :: rest) then
      repl ++ replaceAllF pat repl fuel ((c :: rest).drop pat.length)
    else c :: replaceAllF pat repl fuel rest

/-- Python `s.replace(pat, repl)` for non-empty `pat`. -/
def replaceAllL (pat repl l : Str) : Str := replaceAllF pat repl l.length l

/-- `re.sub(r"\bto\b", "-", rest, flags=re.IGNORECASE)`: replace every
word `to` (any case) by a dash, scanning left to right with `\b`
tracked through the previous character. -/
def replOto (prevW : Bool) : Str → Str
  | [] => []
  | [c] => [c]
  | c :: c2 :: r2 =>
    if !prevW && (c == 't' || c == 'T') && (c2 == 'o' || c2 == 'O') &&
        (match r2 with | [] => true | c3 :: _ => !isWordChar c3) then
      '-' :: replOto true r2
    else c :: replOto (isWordChar c) (c2 :: r2)

/-- The period-digit class `[1-7]`. -/
def isPeriodDigit (c : Char) : Bool := '1' ≤ c && c ≤ '7'

/-- The dash class `[-~〜－–]` of the period-range pattern. -/
def isRangeDash (c : Char) : Bool :=
  c == '-' || c == '~' || c == '〜' || c == '－' || c == '–'

/-- Try `([1-7])\s*[-~〜－–]\s*([1-7])` anchored at the head. -/
def rangeAt (l : Str) : Option (Char × Char) :=
  match l with
  | c1 :: r1 =>
    if isPeriodDigit c1 then
      match r1.dropWhile isSpaceC with
      | cd :: r2 =>
        if isRangeDash cd then
          match r2.dropWhile isSpaceC with
          | c2 :: _ => if isPeriodDigit c2 then some (c1, c2) else none
          | [] => none
        else none
      | [] => none
    else none
  | [] => none

/-- `re.search` of the period-range pattern. -/
def searchRange : Str → Option (Char × Char)
  | [] => none
  | c :: r =>
    match rangeAt (c :: r) with
    | some x => some x
    | none => searchRange r

/-- `re.findall(r"\b([1-7])\b", rest)`: every period digit delimited by
word boundaries on both sides, in order. -/
def findPeriodsB (prevW : Bool) : Str → List Nat
  | [] => []
  | c :: r =>
    (if !prevW && isPeriodDigit c &&
        (match r with | [] => true | c2 :: _ => !isWordChar c2) then
      [c.toNat - 48]
    else []) ++ findPeriodsB (isWordChar c) r

/-- The dedup loop of `parse_day_periods`: keep the first occurrence
of each period. -/
def dedupGo (seen : List Nat) : List Nat → List Nat
  | [] => []
  | n :: r => if n ∈ seen then dedupGo seen r else n :: dedupGo (n :: seen) r

/-- `list(range(lo, hi + 1))`. -/
def rangeListNat (lo hi : Nat) : List Nat := List.range' lo (hi + 1 - lo)

/-- The period-extraction tail of `parse_day_periods` (everything from
`rest.replace("時限", " ")` on). -/
def parsePeriods (day : String) (rest0 : Str) : Option (String × List Nat) :=
  let rest := replOto false (replaceAllL "時限".data " ".data rest0)
  match searchRange rest with
  | some (a, b) =>
    let av := a.toNat - 48
    let bv := b.toNat - 48
    some (day, rangeListNat (min av bv) (max av bv))
  | none =>
    let nums := findPeriodsB false rest
    if nums.isEmpty then none else some (day, dedupGo [] nums)

/-- `parse_day_periods(item)` of collect.py on character lists. -/
def parseDayPeriodsL (item : Str) : Option (String × List Nat) :=
  let s := stripLeadKey (norm_textL item)
  if (match s with | '無' :: _ => true | _ => false) ||
      containsSubL "On demand".data s || containsSubL "OD".data s then none
  else
    match findDayJaScan s with
    | some (dc, rest) => parsePeriods (DAY_MAP_JA dc) rest
    | none =>
      match findDayEn false s with
      | some (dk, rest) => parsePeriods (DAY_MAP_EN ⟨dk⟩) rest
      | none => none

/-- `parse_day_periods(item)`. -/
def parse_day_periods (item : String) : Option (String × List Nat) :=
  parseDayPeriodsL item.data

/-! ### Multi-line cell keying and pairing (`keyed_lines`,
`pair_day_and_room`) -/

/-- `re.match(r"^(\d{1,2})\s*[:：]\s*(.*)$", s2)` applied to an
already-`norm_text`-ed line, returning `(key.zfill(2),
group(2).strip())`.  The leading digit run is read greedily (three or
more digits can never reach the colon); `(.*)$` fails when a newline
remains in the rest (the line is end-stripped, so a trailing newline
cannot occur). -/
def keyedLineMatch (s2 : Str) : Option (Str × Str) :=
  let d := s2.takeWhile isDigitC
  if d.length = 1 || d.length = 2 then
    match (s2.dropWhile isDigitC).dropWhile isSpaceC with
    | c :: rest =>
      if c == ':' || c == '：' then
        let v := rest.dropWhile isSpaceC
        if v.contains '\n' then none else some (zfill2 d, pyStrip v)
      else none
    | [] => none
  else none

/-- `keyed_lines(lines)`: normalise each line, skip empty ones, and
split off an optional two-digit key prefix. -/
def keyedLinesL : List Str → List (Option Str × Str)
  | [] => []
  | s :: rest =>
    let s2 := norm_textL s
    if s2.isEmpty then keyedLinesL rest
    else
      match keyedLineMatch s2 with
      | some (k, v) => (some k, v) :: keyedLinesL rest
      | none => (none, s2) :: keyedLinesL rest

/-- `room_by_key.setdefault(key, deque()).append(idx)`. -/
def addIdx : List (Str × List Nat) → Str → Nat → List (Str × List Nat)
  | [], k, i => [(k, [i])]
  | (k2, q) :: r, k, i =>
    if k2 == k then (k2, q ++ [i]) :: r else (k2, q) :: addIdx r k i

/-- Build `room_by_key` from the room entries (indices in order, per
key; unkeyed entries skipped). -/
def buildRBKGo (i : Nat) : List (Option Str × Str) → List (Str × List Nat) → List (Str × List Nat)
  | [], m => m
  | (ok, _) :: rest, m =>
    match ok with
    | some k => buildRBKGo (i + 1) rest (addIdx m k i)
    | none => buildRBKGo (i + 1) rest m

/-- `room_by_key` of `pair_day_and_room`. -/
def buildRBK (res : List (Option Str × Str)) : List (Str × List Nat) := buildRBKGo 0 res []

/-- `room_by_key.get(key)`. -/
def lookupQ : List (Str × List Nat) → Str → Option (List Nat)
  | [], _ => none
  | (k2, q) :: r, k => if k2 == k then some q else lookupQ r k

/-- Write back a popped queue. -/
def setQ : List (Str × List Nat) → Str → List Nat → List (Str × List Nat)
  | [], _, _ => []
  | (k2, q) :: r, k, nq =>
    if k2 == k then (k2, nq) :: r else (k2, q) :: setQ r k nq

/-- `room_entries[room_idx][1]`. -/
def roomValAt (res : List (Option Str × Str)) (ri : Nat) : Str :=
  ((res.get? ri).map Prod.snd).getD []

/-- The keyed phase of `pair_day_and_room`: walk the day entries (with
their indices), popping the front of the same-key deque when it is
non-empty; returns (pairs, used day indices, used room indices).  A
missing key and an empty deque behave identically (`if not queue`). -/
def dayLoop (res : List (Option Str × Str)) :
    List (Str × List Nat) → Nat → List (Option Str × Str) →
      List (Str × Str) × List Nat × List Nat
  | _, _, [] => ([], [], [])
  | m, i, (ok, v) :: rest =>
    match ok with
    | none => dayLoop res m (i + 1) rest
    | some k =>
      match lookupQ m k with
      | none => dayLoop res m (i + 1) rest
      | some [] => dayLoop res m (i + 1) rest
      | some (ri :: q2) =>
        let out := dayLoop res (setQ m k q2) (i + 1) rest
        ((v, roomValAt res ri) :: out.1, i :: out.2.1, ri :: out.2.2)

/-- `pair_day_and_room(day_lines, room_lines)` on character lists:
keyed phase, then positional pairing of the unused remainders
(`zip` truncates to the shorter side). -/
def pairDayAndRoomL (dayLines roomLines : List Str) : List (Str × Str) :=
  let des := keyedLinesL dayLines
  let res := keyedLinesL roomLines
  let out := dayLoop res (buildRBK res) 0 des
  let daySeq := des.enum.filterMap
    (fun p => if p.1 ∈ out.2.1 then none else some p.2.2)
  let roomSeq := res.enum.filterMap
    (fun p => if p.1 ∈ out.2.2 then none else some p.2.2)
  out.1 ++ List.zipWith (fun a b => (a, b)) daySeq roomSeq

/-- `pair_day_and_room` on strings. -/
def pair_day_and_room (dayLines roomLines : List String) : List (String × String) :=
  (pairDayAndRoomL (dayLines.map String.data) (roomLines.map String.data)).map
    (fun p => (⟨p.1⟩, ⟨p.2⟩))

/-- Indices (from offset `i`) of the entries carrying key `k`, in
order. -/
def keyOccFrom (k : Str) (i : Nat) : List (Option Str × Str) → List Nat
  | [] => []
  | (ok, _) :: rest =>
    if ok == some k then i :: keyOccFrom k (i + 1) rest
    else keyOccFrom k (i + 1) rest

/-- Indices of the room entries carrying key `k`, in order. -/
def keyOccIdxs (res : List (Option Str × Str)) (k : Str) : List Nat :=
  keyOccFrom k 0 res

/-- Number of entries keyed `k`. -/
def countKeyIn (des : List (Option Str × Str)) (k : Str) : Nat :=
  (des.filter (fun e => e.1 == some k)).length

/-- Declarative FIFO pairing, walking the day entries in order with the
already-walked prefix `pre`: a day line keyed `k` takes the
`(number of day lines keyed k seen so far)`-th room line keyed `k` —
the oldest same-key room line not yet used, regardless of position —
and is skipped when no same-key room line remains. -/
def keyedPairsFrom (res : List (Option Str × Str)) :
    List (Option Str × Str) → List (Option Str × Str) → List (Str × Str)
  | _, [] => []
  | pre, e :: rest =>
    match e.1 with
    | none => keyedPairsFrom res (pre ++ [e]) rest
    | some k =>
      match (keyOccIdxs res k).get? (countKeyIn pre k) with
      | some ri => (e.2, roomValAt res ri) :: keyedPairsFrom res (pre ++ [e]) rest
      | none => keyedPairsFrom res (pre ++ [e]) rest

/-- Declarative form of the keyed phase, following the spec's words. -/
def keyedPairsSpec (des res : List (Option Str × Str)) : List (Str × Str) :=
  keyedPairsFrom res [] des

/-- Day indices consumed by the keyed phase (mirror of
`keyedPairsFrom`). -/
def usedDayFrom (res : List (Option Str × Str)) :
    List (Option Str × Str) → List (Option Str × Str) → List Nat
  | _, [] => []
  | pre, e :: rest =>
    match e.1 with
    | none => usedDayFrom res (pre ++ [e]) rest
    | some k =>
      match (keyOccIdxs res k).get? (countKeyIn pre k) with
      | some _ => pre.length :: usedDayFrom res (pre ++ [e]) rest
      | none => usedDayFrom res (pre ++ [e]) rest

/-- Room indices consumed by the keyed phase (mirror of
`keyedPairsFrom`). -/
def usedRoomFrom (res : List (Option Str × Str)) :
    List (Option Str × Str) → List (Option Str × Str) → List Nat
  | _, [] => []
  | pre, e :: rest =>
    match e.1 with
    | none => usedRoomFrom res (pre ++ [e]) rest
    | some k =>
      match (keyOccIdxs res k).get? (countKeyIn pre k) with
      | some ri => ri :: usedRoomFrom res (pre ++ [e]) rest
      | none => usedRoomFrom res (pre ++ [e]) rest

/-- The queue held for key `k` (a missing key behaves as an empty
queue, matching `if not queue`). -/
def queueOf (m : List (Str × List Nat)) (k : Str) : List Nat :=
  (lookupQ m k).getD []

/-- Declaratively: day entry `i` is consumed by the keyed phase iff it
is keyed and enough same-key room lines exist. -/
def dayUsedSpec (des res : List (Option Str × Str)) (i : Nat) : Bool :=
  match des.get? i with
  | some (some k, _) => countKeyIn (des.take i) k < (keyOccIdxs res k).length
  | _ => false

/-- Declaratively: room entry `ri` is consumed by the keyed phase iff
it is keyed and its ordinal among same-key room lines is below the
number of same-key day lines. -/
def roomUsedSpec (des res : List (Option Str × Str)) (ri : Nat) : Bool :=
  match res.get? ri with
  | some (some k, _) => countKeyIn (res.take ri) k < countKeyIn des k
  | _ => false

/-- Declarative form of the whole pairing: FIFO key-matched pairs in
day order, then positional pairing of the unused lines. -/
def pairsSpec (des res : List (Option Str × Str)) : List (Str × Str) :=
  keyedPairsSpec des res ++
    List.zipWith (fun a b => (a, b))
      (des.enum.filterMap
        (fun p => if dayUsedSpec des res p.1 then none else some p.2.2))
      (res.enum.filterMap
        (fun p => if roomUsedSpec des res p.1 then none else some p.2.2))

/-- The character repertoire of the clean ASCII room shapes and of the
cascade's constructed outputs: decimal digits, Latin letters and the
hyphen. -/
def isOutChar (c : Char) : Bool := isDigitC c || isAlphaC c || c == '-'

/-- Scanner for three consecutive Latin letters (the only way the
token `"TBD"` can appear in an upper-cased string). -/
def hasThreeAlpha : Str → Bool
  | x :: y :: z :: r => (isAlphaC x && isAlphaC y && isAlphaC z) || hasThreeAlpha (y :: z :: r)
  | _ => false

/-- Prefix-generalised form of `roomUsedSpec`: after the day entries
`pre` have been walked, the remaining entries `suffix` consume room
entry `ri` iff `ri` is keyed and its ordinal among same-key room
entries lies in the window of same-key day entries still to come. -/
def roomPopCond (res pre suffix : List (Option Str × Str)) (ri : Nat) : Prop :=
  ∃ k v, res.get? ri = some (some k, v) ∧
    countKeyIn pre k ≤ countKeyIn (res.take ri) k ∧
    countKeyIn (res.take ri) k < countKeyIn (pre ++ suffix) k ∧
    countKeyIn (res.take ri) k < (keyOccIdxs res k).length

example : norm_room "63-3F-G" = "63PC-G" := by decide
example : norm_room "53-B04" = "53-B04" := by decide
example : norm_room "55S-03-09" = "55S-03-09" := by decide
example : norm_room "55-2" = "55-02" := by decide
example : norm_room "52-101" = "52-101" := by decide
example : norm_room "５３-１０３教室" = "53-103" := by decide
example : norm_room "63号館3階末端室Fルーム" = "63PC-F" := by decide
example : norm_room "63-201" = "63-02-01" := by decide
example : norm_room "61-102" = "61-102B" := by decide
example : norm_room "未定" = "" := by decide
example : norm_room "" = "" := by decide
example : norm_room "01:53-104" = "53-104" := by decide
example : norm_room "55S-02-01-1" = "55S-02-01" := by decide

/-! ### Generic helper lemmas -/

theorem dropWhile_eq_self_of_head (p : Char → Bool) (l : Str)
    (h : ∀ c, l.head? = some c → p c = false) : l.dropWhile p = l := by
  cases l with
  | nil => rfl
  | cons c r => simp [List.dropWhile_cons, h c rfl]

theorem head_dropWhile_not (p : Char → Bool) (l : Str) :
    ∀ c, (l.dropWhile p).head? = some c → p c = false := by
  induction l with
  | nil => intro c h; simp at h
  | cons a r ih =>
    intro c h
    by_cases hp : p a
    · rw [List.dropWhile_cons, if_pos hp] at h
      exact ih c h
    · rw [List.dropWhile_cons, if_neg hp] at h
      simp only [List.head?_cons, Option.some.injEq] at h
      subst h
      exact Bool.eq_false_iff.mpr hp

theorem mapIdOn (f : Char → Char) (l : Str) (h : ∀ c ∈ l, f c = c) :
    l.map f = l := by
  induction l with
  | nil => rfl
  | cons a r ih =>
    simp only [List.map_cons, h a (List.mem_cons_self a r)]
    rw [ih (fun c hc => h c (List.mem_cons_of_mem a hc))]

theorem pyStrip_id_of (l : Str)
    (h1 : ∀ c, l.head? = some c → isSpaceC c = false)
    (h2 : ∀ c, l.getLast? = some c → isSpaceC c = false) : pyStrip l = l := by
  unfold pyStrip
  rw [dropWhile_eq_self_of_head _ _ h1]
  rw [dropWhile_eq_self_of_head _ _ (by simpa using h2)]
  exact l.reverse_reverse

theorem getLast_dropWhile_not_nil (p : Char → Bool) (l : Str)
    (h : l.dropWhile p ≠ []) : (l.dropWhile p).getLast? = l.getLast? := by
  induction l with
  | nil => simp at h
  | cons a r ih =>
    by_cases hp : p a
    · rw [List.dropWhile_cons, if_pos hp] at h ⊢
      rcases r with _ | ⟨b, s⟩
      · simp at h
      · rw [ih h]
        exact List.getLast?_cons_cons.symm
    · rw [List.dropWhile_cons, if_neg hp]

theorem pyStrip_head_not (l : Str) :
    ∀ c, (pyStrip l).head? = some c → isSpaceC c = false := by
  intro c h
  unfold pyStrip at h
  rw [List.head?_reverse] at h
  have hne : (l.dropWhile isSpaceC).reverse.dropWhile isSpaceC ≠ [] := by
    intro hnil
    rw [hnil] at h
    simp at h
  rw [getLast_dropWhile_not_nil _ _ hne, List.getLast?_reverse] at h
  exact head_dropWhile_not isSpaceC _ c h

theorem pyStrip_last_not (l : Str) :
    ∀ c, (pyStrip l).getLast? = some c → isSpaceC c = false := by
  intro c h
  unfold pyStrip at h
  rw [List.getLast?_reverse] at h
  exact head_dropWhile_not isSpaceC _ c h

theorem pyStrip_idem (l : Str) : pyStrip (pyStrip l) = pyStrip l :=
  pyStrip_id_of _ (pyStrip_head_not l) (pyStrip_last_not l)

/-! ### Pagination lemmas (claims C3, C4) -/

theorem go_false_of_nav_false (info : Option (Nat × Nat × Nat)) (p : Nat) :
    go_to_next_page info false p = false := by
  rcases info with _ | ⟨st, en, total⟩
  · rfl
  · simp only [go_to_next_page, goToNextPageModel]
    by_cases hc : (total + max 1 (en - st + 1) - 1) / max 1 (en - st + 1) ≤ p
    · rw [if_pos hc]
    · rw [if_neg hc]
      rfl

theorem goModel_noMore (st en total p : Nat) (b : Bool)
    (h : (total + max 1 (en - st + 1) - 1) / max 1 (en - st + 1) ≤ p) :
    goToNextPageModel (some (st, en, total)) b p = AdvanceOutcome.noMorePages := by
  simp only [goToNextPageModel]
  rw [if_pos h]

theorem go_advance_of (st en total p k : Nat) (hk : en - st + 1 = k)
    (hlt : ¬ ((total + k - 1) / k ≤ p)) :
    go_to_next_page (some (st, en, total)) true p = true := by
  have hk1 : 1 ≤ k := by omega
  have hmx : max 1 (en - st + 1) = k := by rw [hk]; exact Nat.max_eq_right hk1
  simp only [go_to_next_page, goToNextPageModel, hmx]
  rw [if_neg hlt]
  rfl

theorem harvestPagesModel_run (info : Nat → Option (Nat × Nat × Nat))
    (nav : Nat → Bool) (M : Nat)
    (hgo : ∀ p, 1 ≤ p → p < M → go_to_next_page (info p) (nav p) p = true)
    (hstop : go_to_next_page (info M) (nav M) M = false) :
    ∀ fuel p, 1 ≤ p → p ≤ M → M + 1 - p ≤ fuel →
      harvestPagesModel info nav fuel p = some (M, M - p) := by
  intro fuel
  induction fuel with
  | zero => intro p _ h2 h3; omega
  | succ f ih =>
    intro p h1 h2 h3
    by_cases hpM : p < M
    · rw [harvestPagesModel, hgo p h1 hpM]
      simp only [if_true]
      rw [ih (p + 1) (by omega) (by omega) (by omega)]
      have : M - (p + 1) + 1 = M - p := by omega
      simp [this]
    · have hpeq : p = M := by omega
      subst hpeq
      rw [harvestPagesModel, hstop]
      simp

/-- C3: if the range-indicator text parses on every page with a
constant page size `k = end−start+1` and `N = ⌈total/k⌉` is the
implied page count, then `go_to_next_page` reaches its
no-more-pages early return (before attempting any navigation) as soon
as the current page number reaches `N`, and a full harvest (with
navigation succeeding below `N`) performs exactly `N−1` page advances
before stopping. -/
theorem pagination_performs_N_minus_one_advances
    (texts : Nat → String) (nav : Nat → Bool) (st en : Nat → Nat) (total k fuel : Nat)
    (hparse : ∀ p, _parse_range_indicator (texts p) = some (st p, en p, total))
    (hsize : ∀ p, st p ≤ en p ∧ en p - st p + 1 = k)
    (hnav : ∀ p, p < (total + k - 1) / k → nav p = true)
    (hfuel : max ((total + k - 1) / k) 1 ≤ fuel) :
    (∀ p b, (total + k - 1) / k ≤ p →
      goToNextPageModel (_parse_range_indicator (texts p)) b p =
        AdvanceOutcome.noMorePages) ∧
    harvestPagesModel (fun p => _parse_range_indicator (texts p)) nav fuel 1 =
      some (max ((total + k - 1) / k) 1, (total + k - 1) / k - 1) := by
  have hk1 : 1 ≤ k := by
    have := (hsize 0).2
    omega
  have hmx : ∀ p, max 1 (en p - st p + 1) = k := by
    intro p
    rw [(hsize p).2]
    exact Nat.max_eq_right hk1
  constructor
  · intro p b hp
    rw [hparse p]
    apply goModel_noMore
    rw [hmx p]
    exact hp
  · have hrun := harvestPagesModel_run (fun p => _parse_range_indicator (texts p)) nav
      (max ((total + k - 1) / k) 1)
      (by
        intro p h1 h2
        show go_to_next_page (_parse_range_indicator (texts p)) (nav p) p = true
        rw [hparse p, hnav p (by omega)]
        apply go_advance_of (st p) (en p) total p k (hsize p).2
        intro hle
        omega)
      (by
        show go_to_next_page
          (_parse_range_indicator (texts (max ((total + k - 1) / k) 1)))
          (nav (max ((total + k - 1) / k) 1)) (max ((total + k - 1) / k) 1) = false
        rw [hparse (max ((total + k - 1) / k) 1)]
        have hle : (total + max 1 (en (max ((total + k - 1) / k) 1) -
            st (max ((total + k - 1) / k) 1) + 1) - 1) /
            max 1 (en (max ((total + k - 1) / k) 1) -
              st (max ((total + k - 1) / k) 1) + 1) ≤ max ((total + k - 1) / k) 1 := by
          rw [hmx]
          exact le_max_left _ _
        simp only [go_to_next_page, goModel_noMore _ _ _ _ _ hle])
    have h1 := hrun fuel 1 (by omega) (by omega) (by omega)
    rw [h1]
    have : max ((total + k - 1) / k) 1 - 1 = (total + k - 1) / k - 1 := by omega
    rw [this]

/-- C3 was stated above with the navigation-success hypothesis
rewritten through `go_advance_of`; that needs `nav p = true` below
`N`, supplied here. -/
theorem claim3_witness :
    harvestPagesModel (fun _ => _parse_range_indicator "1-10/30") (fun _ => true) 3 1 =
      some (3, 2) :=
  (pagination_performs_N_minus_one_advances (fun _ => "1-10/30") (fun _ => true)
    (fun _ => 1) (fun _ => 10) 30 10 3
    (fun _ => (by decide : _parse_range_indicator "1-10/30" = some (1, 10, 30)))
    (fun _ => (⟨by decide, by decide⟩ : (1 : Nat) ≤ 10 ∧ 10 - 1 + 1 = 10))
    (fun _ _ => rfl) (by decide)).2

/-- C4: if from some page `p0` on, every navigation strategy leaves the
range indicator unchanged (`nav p = false`), then `go_to_next_page`
returns False whatever the indicator says, and the harvest loop
terminates by page `p0` — exhaustion is reported instead of looping
forever. -/
theorem pagination_exhaustion_terminates
    (info : Nat → Option (Nat × Nat × Nat)) (nav : Nat → Bool) (p0 fuel : Nat)
    (hp0 : 1 ≤ p0) (hnav : ∀ p, p0 ≤ p → nav p = false) (hfuel : p0 ≤ fuel) :
    (∀ p i, nav p = false → go_to_next_page i (nav p) p = false) ∧
    ∃ last, 1 ≤ last ∧ last ≤ p0 ∧
      harvestPagesModel info nav fuel 1 = some (last, last - 1) := by
  constructor
  · intro p i h
    rw [h]
    exact go_false_of_nav_false i p
  · have key : ∀ f p, 1 ≤ p → p ≤ p0 → p0 + 1 - p ≤ f →
        ∃ last, p ≤ last ∧ last ≤ p0 ∧
          harvestPagesModel info nav f p = some (last, last - p) := by
      intro f
      induction f with
      | zero => intro p _ h2 h3; omega
      | succ f ih =>
        intro p h1 h2 h3
        rcases hgo : go_to_next_page (info p) (nav p) p with _ | _
        · exact ⟨p, le_refl p, h2, by rw [harvestPagesModel, hgo]; simp⟩
        · have hplt : p < p0 := by
            rcases Nat.lt_or_ge p p0 with h | h
            · exact h
            · rw [hnav p h, go_false_of_nav_false] at hgo
              exact absurd hgo (by simp)
          obtain ⟨last, hl1, hl2, hl3⟩ := ih (p + 1) (by omega) (by omega) (by omega)
          refine ⟨last, by omega, hl2, ?_⟩
          rw [harvestPagesModel, hgo]
          simp only [if_true]
          rw [hl3]
          have : last - (p + 1) + 1 = last - p := by omega
          simp [this]
    obtain ⟨last, hl1, hl2, hl3⟩ := key fuel 1 (by omega) hp0 (by omega)
    exact ⟨last, hl1, hl2, hl3⟩

/-- Witness for C4 at a concrete instance: a single page whose
navigation never changes the indicator. -/
theorem claim4_witness :
    (∀ p i, (fun _ : Nat => false) p = false →
      go_to_next_page i ((fun _ : Nat => false) p) p = false) ∧
    ∃ last, 1 ≤ last ∧ last ≤ 1 ∧
      harvestPagesModel (fun _ => none) (fun _ => false) 1 1 = some (last, last - 1) :=
  pagination_exhaustion_terminates (fun _ => none) (fun _ => false) 1 1
    (by decide) (fun _ _ => rfl) (by decide)

/-! ### Room canonicalizer: concrete claims C1, C2 -/

/-- C1 fails on the code: `norm_room` keeps the three-digit short form
for building 52 instead of expanding it (only building 63 expands). -/
theorem claim1_counterexample : norm_room "52-201" ≠ "52-02-01" := by decide

/-- C1 amended: `norm_room "52-201"` is `"52-201"` — for buildings
other than 63 the three-digit short form is kept; building 63 expands
to the long form (`"63-201"` ↦ `"63-02-01"`). -/
theorem claim1_amended :
    norm_room "52-201" = "52-201" ∧ norm_room "63-201" = "63-02-01" := by decide

/-- C2 fails on the code: the trailing letter of a three-digit short
form is kept (upper-cased), not dropped. -/
theorem claim2_counterexample : norm_room "52-201A" ≠ "52-201" := by decide

/-! ### Schedule-table cell fill: claims C5, C6 -/

/-- C6: `put_cell` with an unknown room column or an unknown period is
a silent no-op (the embedding is total, so no error is raised). -/
theorem put_cell_unknown_noop (df : DayTable) (period : Int) (room value : String)
    (h : room ∉ df.roomCols ∨ period ∉ df.rows.map Prod.fst) :
    put_cell df period room value = df := by
  unfold put_cell
  rcases h with h | h
  · rw [if_pos h]
  · by_cases hr : room ∉ df.roomCols
    · rw [if_pos hr]
    · rw [if_neg hr, if_pos h]

/-- Witness for C6: writing to a room outside the roster changes
nothing. -/
theorem claim6_witness :
    put_cell ⟨["53-101"], [(1, ["x"])]⟩ 1 "99-999" "v" = ⟨["53-101"], [(1, ["x"])]⟩ :=
  put_cell_unknown_noop ⟨["53-101"], [(1, ["x"])]⟩ 1 "99-999" "v" (Or.inl (by decide))

/-- C5 fails on the code as stated: a value containing a semicolon is
split apart by the membership test, so a second identical fill
duplicates it. -/
theorem claim5_counterexample :
    put_cell (put_cell ⟨["53-101"], [(5, [""])]⟩ 5 "53-101" "a;b") 5 "53-101" "a;b" ≠
      put_cell ⟨["53-101"], [(5, [""])]⟩ 5 "53-101" "a;b" := by decide

/-! ### Text normalizer: claim C9 -/

/-- C9 fails on the code as stated: `" a"` consists only of characters
the translation table leaves alone (half-width), yet `norm_text`
strips the surrounding whitespace. -/
theorem claim9_counterexample :
    (∀ c ∈ (" a" : String).data, zen2han c = c) ∧ norm_text " a" ≠ " a" := by decide

/-- C9 amended: `norm_text` is the identity on half-width strings with
no leading or trailing whitespace. -/
theorem norm_text_id_of_halfwidth_trimmed (s : String)
    (hhw : ∀ c ∈ s.data, zen2han c = c)
    (hhead : ∀ c, s.data.head? = some c → isSpaceC c = false)
    (hlast : ∀ c, s.data.getLast? = some c → isSpaceC c = false) :
    norm_text s = s := by
  unfold norm_text norm_textL
  rw [mapIdOn _ _ hhw, pyStrip_id_of _ hhead hlast]

/-- Witness for C9 (amended) at a concrete half-width, trimmed
string. -/
theorem claim9_witness : norm_text "53-101" = "53-101" :=
  norm_text_id_of_halfwidth_trimmed "53-101" (by decide) (by decide) (by decide)

/-! ### Day/period parser result invariant (claim C10) -/

theorem period_digit_bounds (c : Char) (h : isPeriodDigit c = true) :
    1 ≤ c.toNat - 48 ∧ c.toNat - 48 ≤ 7 := by
  simp only [isPeriodDigit, Bool.and_eq_true, decide_eq_true_eq] at h
  obtain ⟨h1, h2⟩ := h
  rw [Char.le_def] at h1 h2
  have n1 : ('1' : Char).val.toNat ≤ c.val.toNat := by exact_mod_cast h1
  have n2 : c.val.toNat ≤ ('7' : Char).val.toNat := by exact_mod_cast h2
  have e1 : ('1' : Char).val.toNat = 49 := by decide
  have e2 : ('7' : Char).val.toNat = 55 := by decide
  unfold Char.toNat
  omega

theorem rangeAt_sound (l : Str) (a b : Char) (h : rangeAt l = some (a, b)) :
    isPeriodDigit a = true ∧ isPeriodDigit b = true := by
  unfold rangeAt at h
  split at h <;> try exact Option.noConfusion h
  split at h <;> try exact Option.noConfusion h
  split at h <;> try exact Option.noConfusion h
  split at h <;> try exact Option.noConfusion h
  split at h <;> try exact Option.noConfusion h
  split at h <;> try exact Option.noConfusion h
  injection h with h
  injection h with ha hb
  subst ha; subst hb
  constructor <;> assumption

theorem searchRange_sound (l : Str) (a b : Char) (h : searchRange l = some (a, b)) :
    isPeriodDigit a = true ∧ isPeriodDigit b = true := by
  induction l with
  | nil => nomatch h
  | cons c r ih =>
    rw [searchRange] at h
    rcases hat : rangeAt (c :: r) with _ | x <;> rw [hat] at h
    · exact ih h
    · injection h with h
      subst h
      exact rangeAt_sound _ _ _ hat

theorem findPeriodsB_sound (pw : Bool) (l : Str) :
    ∀ n ∈ findPeriodsB pw l, 1 ≤ n ∧ n ≤ 7 := by
  induction l generalizing pw with
  | nil => intro n hn; nomatch hn
  | cons c r ih =>
    intro n hn
    simp only [findPeriodsB] at hn
    rcases List.mem_append.mp hn with hn2 | hn2
    · split at hn2
      next hcond =>
        have h := List.mem_singleton.mp hn2
        subst h
        have hd : isPeriodDigit c = true := by
          simp only [Bool.and_eq_true] at hcond
          exact hcond.1.2
        exact period_digit_bounds c hd
      next _ => nomatch hn2
    · exact ih (isWordChar c) n hn2

theorem dedupGo_subset (seen l : List Nat) : ∀ x ∈ dedupGo seen l, x ∈ l := by
  induction l generalizing seen with
  | nil => intro x hx; nomatch hx
  | cons n r ih =>
    intro x hx
    rw [dedupGo] at hx
    by_cases hn : n ∈ seen
    · rw [if_pos hn] at hx
      exact List.mem_cons_of_mem n (ih seen x hx)
    · rw [if_neg hn] at hx
      rcases List.mem_cons.mp hx with h | h
      · subst h; exact List.mem_cons_self x r
      · exact List.mem_cons_of_mem n (ih (n :: seen) x h)

theorem dedupGo_nil_ne_nil (n : Nat) (r : List Nat) : dedupGo [] (n :: r) ≠ [] := by
  rw [dedupGo]
  simp

theorem parsePeriods_bounds (day : String) (rest0 : Str) (d : String) (ps : List Nat)
    (h : parsePeriods day rest0 = some (d, ps)) :
    ps ≠ [] ∧ ∀ p ∈ ps, 1 ≤ p ∧ p ≤ 7 := by
  simp only [parsePeriods] at h
  rcases hs : searchRange (replOto false (replaceAllL "時限".data " ".data rest0))
      with _ | ⟨a, b⟩ <;> rw [hs] at h
  · by_cases hn : (findPeriodsB false (replOto false
        (replaceAllL "時限".data " ".data rest0))).isEmpty
    · rw [if_pos hn] at h; nomatch h
    · rw [if_neg hn] at h
      injection h with h
      injection h with hd hps
      subst hps
      rcases hl : findPeriodsB false (replOto false
          (replaceAllL "時限".data " ".data rest0)) with _ | ⟨n, r⟩
      · rw [hl] at hn; simp at hn
      · constructor
        · exact dedupGo_nil_ne_nil n r
        · intro p hp
          have : p ∈ n :: r := dedupGo_subset [] (n :: r) p hp
          rw [← hl] at this
          exact findPeriodsB_sound false _ p this
  · obtain ⟨ha, hb⟩ := searchRange_sound _ _ _ hs
    injection h with h
    injection h with hd hps
    subst hps
    obtain ⟨ha1, ha2⟩ := period_digit_bounds a ha
    obtain ⟨hb1, hb2⟩ := period_digit_bounds b hb
    constructor
    · intro hemp
      have : (rangeListNat (min (a.toNat - 48) (b.toNat - 48))
          (max (a.toNat - 48) (b.toNat - 48))).length = 0 := by rw [hemp]; rfl
      rw [rangeListNat, List.length_range'] at this
      omega
    · intro p hp
      rw [rangeListNat] at hp
      rw [List.mem_range'_1] at hp
      constructor
      · omega
      · omega

/-- C10: whenever `parse_day_periods` returns a `(day, periods)`
result, the period list is non-empty and every period lies between 1
and 7 (the parser returns `null` instead of an empty list). -/
theorem parse_day_periods_result_bounds (item : String) (d : String) (ps : List Nat)
    (h : parse_day_periods item = some (d, ps)) :
    ps ≠ [] ∧ ∀ p ∈ ps, 1 ≤ p ∧ p ≤ 7 := by
  simp only [parse_day_periods, parseDayPeriodsL] at h
  split at h
  · nomatch h
  · rcases hja : findDayJaScan (stripLeadKey (norm_textL item.data))
        with _ | ⟨dc, rest⟩ <;> rw [hja] at h
    · rcases hen : findDayEn false (stripLeadKey (norm_textL item.data))
          with _ | ⟨dk, rest⟩ <;> rw [hen] at h
      · nomatch h
      · exact parsePeriods_bounds _ _ _ _ h
    · exact parsePeriods_bounds _ _ _ _ h

/-- Witness for C10 at `"月5時限"`. -/
theorem claim10_witness : ([5] : List Nat) ≠ [] ∧ ∀ p ∈ ([5] : List Nat), 1 ≤ p ∧ p ≤ 7 :=
  parse_day_periods_result_bounds "月5時限" "mon" [5] (by decide)

/-! ### put_cell idempotence for clean values (claim C5, amended) -/

theorem setCell_cons (q : Int) (cs : List String) (rest : List (Int × List String))
    (p : Int) (j : Nat) (v : String) :
    setCell ((q, cs) :: rest) p j v =
      if (q == p) = true then (q, cs.set j v) :: rest
      else (q, cs) :: setCell rest p j v := rfl

theorem setCell_map_fst (rows : List (Int × List String)) (p : Int) (j : Nat) (v : String) :
    (setCell rows p j v).map Prod.fst = rows.map Prod.fst := by
  induction rows with
  | nil => rfl
  | cons r rest ih =>
    rcases r with ⟨q, cs⟩
    rw [setCell_cons]
    by_cases hq : (q == p) = true
    · rw [if_pos hq]
      simp
    · rw [if_neg hq]
      simp only [List.map_cons]
      rw [ih]

theorem getD_set_self (cs : List String) (j : Nat) (v d : String) (h : j < cs.length) :
    (cs.set j v).getD j d = v := by
  induction cs generalizing j with
  | nil => simp at h
  | cons c rest ih =>
    cases j with
    | zero => rfl
    | succ j2 =>
      simp only [List.set_cons_succ, List.getD_cons_succ]
      exact ih j2 (by simpa using h)

theorem getCell_cons_pos (q : Int) (cs : List String) (rest : List (Int × List String))
    (p : Int) (j : Nat) (h : (q == p) = true) :
    getCell ((q, cs) :: rest) p j = cs.getD j "" := by
  have hfind : List.find? (fun r => r.1 == p) ((q, cs) :: rest) = some (q, cs) :=
    List.find?_cons_of_pos rest (show ((q, cs).1 == p) = true from h)
  unfold getCell
  rw [hfind]

theorem getCell_cons_neg (q : Int) (cs : List String) (rest : List (Int × List String))
    (p : Int) (j : Nat) (h : (q == p) = false) :
    getCell ((q, cs) :: rest) p j = getCell rest p j := by
  have hfind : List.find? (fun r => r.1 == p) ((q, cs) :: rest) =
      List.find? (fun r => r.1 == p) rest :=
    List.find?_cons_of_neg rest (by simp [h])
  unfold getCell
  rw [hfind]

theorem getCell_setCell (rows : List (Int × List String)) (p : Int) (j : Nat) (v : String)
    (hp : p ∈ rows.map Prod.fst) (hlen : ∀ r ∈ rows, j < r.2.length) :
    getCell (setCell rows p j v) p j = v := by
  induction rows with
  | nil => simp at hp
  | cons r0 rest ih =>
    rcases r0 with ⟨q, cs⟩
    rw [setCell_cons]
    by_cases hq : (q == p) = true
    · rw [if_pos hq, getCell_cons_pos _ _ _ _ _ hq]
      exact getD_set_self cs j v "" (hlen (q, cs) (List.mem_cons_self _ _))
    · rw [if_neg hq, getCell_cons_neg _ _ _ _ _ (by simpa using hq)]
      apply ih
      · rw [List.map_cons] at hp
        rcases List.mem_cons.mp hp with h | h
        · exact absurd (beq_iff_eq.mpr h.symm) hq
        · exact h
      · intro r hr
        exact hlen r (List.mem_cons_of_mem _ hr)

theorem findIdx_lt_of_mem (cols : List String) (room : String) (h : room ∈ cols) :
    cols.findIdx (fun r => r == room) < cols.length := by
  induction cols with
  | nil => nomatch h
  | cons c rest ih =>
    rw [List.findIdx_cons]
    by_cases hc : (c == room) = true
    · simp [hc]
    · simp only [hc, cond_false, List.length_cons]
      have hm : room ∈ rest := by
        rcases List.mem_cons.mp h with h1 | h1
        · exact absurd (beq_iff_eq.mpr h1.symm) (by simpa using hc)
        · exact h1
      exact Nat.succ_lt_succ (ih hm)

theorem pyStripS_idem (s : String) : pyStripS (pyStripS s) = pyStripS s := by
  unfold pyStripS
  exact congrArg String.mk (pyStrip_idem s.data)

theorem stripped_ends (v : String) (h : pyStripS v = v) :
    (∀ c, v.data.head? = some c → isSpaceC c = false) ∧
      (∀ c, v.data.getLast? = some c → isSpaceC c = false) := by
  have hd : pyStrip v.data = v.data := congrArg String.data h
  constructor
  · intro c hc
    exact pyStrip_head_not v.data c (by rw [hd]; exact hc)
  · intro c hc
    exact pyStrip_last_not v.data c (by rw [hd]; exact hc)

theorem data_ne_nil_of_ne_empty (v : String) (h : v ≠ "") : v.data ≠ [] := by
  intro hd
  apply h
  apply congrArg String.mk hd

theorem pyStrip_append_sep (a b : Str) (sep : Char)
    (ha : pyStrip a = a) (hb : pyStrip b = b) (hane : a ≠ []) (hbne : b ≠ []) :
    pyStrip (a ++ sep :: b) = a ++ sep :: b := by
  apply pyStrip_id_of
  · intro c hc
    rcases a with _ | ⟨a0, arest⟩
    · exact absurd rfl hane
    · simp only [List.cons_append, List.head?_cons, Option.some.injEq] at hc
      apply pyStrip_head_not (a0 :: arest) c
      rw [ha, List.head?_cons, hc]
  · intro c hc
    rcases b with _ | ⟨b0, brest⟩
    · exact absurd rfl hbne
    · rw [List.getLast?_append, List.getLast?_cons_cons] at hc
      rcases hgl : (b0 :: brest : Str).getLast? with _ | d
      · rcases List.eq_nil_or_concat (b0 :: brest : Str) with h0 | ⟨ys, y, hy⟩
        · simp at h0
        · rw [hy, List.concat_eq_append, List.getLast?_concat] at hgl
          nomatch hgl
      · rw [hgl] at hc
        rw [show (some d).or (List.getLast? a) = some d from rfl] at hc
        apply pyStrip_last_not (b0 :: brest) c
        rw [hb, hgl, hc]

theorem splitOnC_nil (sep : Char) : splitOnC sep [] = [[]] := rfl

theorem splitOnC_cons (sep c : Char) (r : Str) :
    splitOnC sep (c :: r) =
      if (c == sep) = true then [] :: splitOnC sep r
      else
        match splitOnC sep r with
        | [] => [[c]]
        | g :: gs => (c :: g) :: gs := rfl

theorem splitOnC_ne_nil (sep : Char) (l : Str) : splitOnC sep l ≠ [] := by
  induction l with
  | nil => simp [splitOnC_nil]
  | cons c r ih =>
    rw [splitOnC_cons]
    by_cases h : (c == sep) = true
    · rw [if_pos h]; simp
    · rw [if_neg h]
      rcases hr : splitOnC sep r with _ | ⟨g, gs⟩
      · exact absurd hr ih
      · simp

theorem splitOnC_no_sep (sep : Char) (l : Str) (h : sep ∉ l) : splitOnC sep l = [l] := by
  induction l with
  | nil => rfl
  | cons c r ih =>
    rw [splitOnC_cons]
    have hc : (c == sep) = false := by
      apply beq_eq_false_iff_ne.mpr
      intro he
      exact h (he ▸ List.mem_cons_self c r)
    rw [if_neg (by simp [hc])]
    rw [ih (fun hm => h (List.mem_cons_of_mem c hm))]

theorem splitOnC_append_sep (sep : Char) (a b : Str) (hb : sep ∉ b) :
    splitOnC sep (a ++ sep :: b) = splitOnC sep a ++ [b] := by
  induction a with
  | nil =>
    simp only [List.nil_append]
    rw [splitOnC_cons, if_pos (by simp), splitOnC_no_sep sep b hb]
    rfl
  | cons c a2 ih =>
    simp only [List.cons_append]
    rw [splitOnC_cons]
    by_cases h : (c == sep) = true
    · rw [if_pos h, ih]
      conv_rhs => rw [splitOnC_cons, if_pos h]
      rfl
    · rw [if_neg h, ih]
      conv_rhs => rw [splitOnC_cons, if_neg h]
      rcases hs : splitOnC sep a2 with _ | ⟨g, gs⟩
      · exact absurd hs (splitOnC_ne_nil sep a2)
      · rfl

theorem vals_single (v : String) (hne : v ≠ "") (hstrip : pyStripS v = v)
    (hsemi : ';' ∉ v.data) :
    ((splitSemiS v).map pyStripS).filter (fun x => x ≠ "") = [v] := by
  unfold splitSemiS
  rw [splitOnC_no_sep ';' v.data hsemi]
  simp only [List.map_cons, List.map_nil]
  have heta : (⟨v.data⟩ : String) = v := rfl
  rw [heta, hstrip]
  simp [List.filter_cons, hne]

theorem data_append_sep (cur v : String) :
    (cur ++ ";" ++ v).data = cur.data ++ ';' :: v.data := by
  rw [String.data_append, String.data_append, List.append_assoc]
  rfl

theorem vals_append (cur v : String) (hne : v ≠ "") (hstrip : pyStripS v = v)
    (hsemi : ';' ∉ v.data) :
    ((splitSemiS (cur ++ ";" ++ v)).map pyStripS).filter (fun x => x ≠ "") =
      ((splitSemiS cur).map pyStripS).filter (fun x => x ≠ "") ++ [v] := by
  unfold splitSemiS
  rw [data_append_sep, splitOnC_append_sep ';' _ _ hsemi]
  rw [List.map_append, List.map_append, List.filter_append]
  congr 1
  simp only [List.map_cons, List.map_nil]
  have heta : (⟨v.data⟩ : String) = v := rfl
  rw [heta, hstrip]
  simp [List.filter_cons, hne]

/-- The main-branch equation of `put_cell` once both guards pass. -/
theorem put_cell_eq_main (cols : List String) (rows : List (Int × List String))
    (period : Int) (room value : String)
    (hroom : room ∈ cols) (hper : period ∈ rows.map Prod.fst) :
    put_cell ⟨cols, rows⟩ period room value =
      (if pyStripS (getCell rows period (cols.findIdx (fun r => r == room))) = ""
       then ⟨cols, setCell rows period (cols.findIdx (fun r => r == room)) value⟩
       else if value ∈ ((splitSemiS (pyStripS (getCell rows period
            (cols.findIdx (fun r => r == room))))).map pyStripS).filter
            (fun x => x ≠ "") then ⟨cols, rows⟩
       else ⟨cols, setCell rows period (cols.findIdx (fun r => r == room))
          (pyStripS (getCell rows period
            (cols.findIdx (fun r => r == room))) ++ ";" ++ value)⟩) := by
  unfold put_cell
  rw [if_neg (not_not_intro hroom), if_neg (not_not_intro hper)]

/-- C5 (amended): `put_cell` is idempotent for non-empty, stripped,
semicolon-free values, and — unconditionally — filling a value already
present verbatim in the cell's semicolon-separated list leaves the
table unchanged. -/
theorem put_cell_idempotent_clean (df : DayTable) (period : Int) (room value : String)
    (hrect : ∀ r ∈ df.rows, r.2.length = df.roomCols.length)
    (hne : value ≠ "") (hstrip : pyStripS value = value) (hsemi : ';' ∉ value.data) :
    put_cell (put_cell df period room value) period room value =
        put_cell df period room value ∧
      ∀ df2 : DayTable, ∀ v2 : String, v2 ∈ cellValsAt df2 period room →
        put_cell df2 period room v2 = df2 := by
  constructor
  · obtain ⟨cols, rows⟩ := df
    by_cases hroom : room ∈ cols
    · by_cases hper : period ∈ rows.map Prod.fst
      · have hj : cols.findIdx (fun r => r == room) < cols.length :=
          findIdx_lt_of_mem cols room hroom
        have hlen : ∀ r ∈ rows, cols.findIdx (fun r => r == room) < r.2.length := by
          intro r hr
          rw [hrect r hr]
          exact hj
        rw [put_cell_eq_main cols rows period room value hroom hper]
        by_cases hcur : pyStripS (getCell rows period
            (cols.findIdx (fun r => r == room))) = ""
        · rw [if_pos hcur]
          rw [put_cell_eq_main cols
            (setCell rows period (cols.findIdx (fun r => r == room)) value)
            period room value hroom (by rw [setCell_map_fst]; exact hper)]
          rw [getCell_setCell rows period _ value hper hlen]
          rw [hstrip, if_neg hne,
            if_pos (by
              rw [vals_single value hne hstrip hsemi]
              exact List.mem_singleton_self value)]
        · rw [if_neg hcur]
          by_cases hmem : value ∈ ((splitSemiS (pyStripS (getCell rows period
              (cols.findIdx (fun r => r == room))))).map pyStripS).filter
              (fun x => x ≠ "")
          · rw [if_pos hmem]
            rw [put_cell_eq_main cols rows period room value hroom hper]
            rw [if_neg hcur, if_pos hmem]
          · rw [if_neg hmem]
            rw [put_cell_eq_main cols
              (setCell rows period (cols.findIdx (fun r => r == room))
                (pyStripS (getCell rows period
                  (cols.findIdx (fun r => r == room))) ++ ";" ++ value))
              period room value hroom (by rw [setCell_map_fst]; exact hper)]
            rw [getCell_setCell rows period _ _ hper hlen]
            have hstrip2 : pyStripS (pyStripS (getCell rows period
                (cols.findIdx (fun r => r == room))) ++ ";" ++ value) =
                pyStripS (getCell rows period
                  (cols.findIdx (fun r => r == room))) ++ ";" ++ value := by
              have h1 := data_append_sep (pyStripS (getCell rows period
                (cols.findIdx (fun r => r == room)))) value
              show String.mk (pyStrip (pyStripS (getCell rows period
                (cols.findIdx (fun r => r == room))) ++ ";" ++ value).data) = _
              rw [h1, pyStrip_append_sep _ _ ';'
                (congrArg String.data (pyStripS_idem _))
                (congrArg String.data hstrip)
                (data_ne_nil_of_ne_empty _ hcur)
                (data_ne_nil_of_ne_empty _ hne), ← h1]
            rw [hstrip2]
            rw [if_neg (by
              intro hempty
              have hdata : (pyStripS (getCell rows period
                  (cols.findIdx (fun r => r == room))) ++ ";" ++ value).data
                  = [] := congrArg String.data hempty
              rw [data_append_sep] at hdata
              rcases List.append_eq_nil.mp hdata with ⟨_, h2⟩
              nomatch h2)]
            rw [if_pos (by
              rw [vals_append _ value hne hstrip hsemi]
              exact List.mem_append_right _ (List.mem_singleton_self value))]
      · rw [put_cell_unknown_noop ⟨cols, rows⟩ period room value (Or.inr hper),
          put_cell_unknown_noop ⟨cols, rows⟩ period room value (Or.inr hper)]
    · rw [put_cell_unknown_noop ⟨cols, rows⟩ period room value (Or.inl hroom),
        put_cell_unknown_noop ⟨cols, rows⟩ period room value (Or.inl hroom)]
  · intro df2 v2 h
    obtain ⟨cols2, rows2⟩ := df2
    unfold cellValsAt at h
    by_cases h1 : room ∈ cols2
    · by_cases h2 : period ∈ rows2.map Prod.fst
      · rw [put_cell_eq_main cols2 rows2 period room v2 h1 h2]
        by_cases hcur : pyStripS (getCell rows2 period
            (cols2.findIdx (fun r => r == room))) = ""
        · rw [show ((⟨cols2, rows2⟩ : DayTable)).rows = rows2 from rfl,
            show ((⟨cols2, rows2⟩ : DayTable)).roomCols = cols2 from rfl, hcur] at h
          have hnil : ((splitSemiS "").map pyStripS).filter (fun x => x ≠ "") = [] := by
            decide
          rw [hnil] at h
          nomatch h
        · rw [if_neg hcur, if_pos h]
      · exact put_cell_unknown_noop ⟨cols2, rows2⟩ period room v2 (Or.inr h2)
    · exact put_cell_unknown_noop ⟨cols2, rows2⟩ period room v2 (Or.inl h1)

/-- Witness for C5 (amended) at a concrete clean value. -/
theorem claim5_witness :
    put_cell (put_cell ⟨["53-101"], [(5, [""])]⟩ 5 "53-101" "X:Y") 5 "53-101" "X:Y" =
      put_cell ⟨["53-101"], [(5, [""])]⟩ 5 "53-101" "X:Y" :=
  (put_cell_idempotent_clean ⟨["53-101"], [(5, [""])]⟩ 5 "53-101" "X:Y"
    (by decide) (by decide) (by decide) (by decide)).1

/-! ### Keyed pairing: the FIFO characterization (claim C7) -/

theorem lookupQ_cons (k2 : Str) (q : List Nat) (r : List (Str × List Nat)) (k : Str) :
    lookupQ ((k2, q) :: r) k = if (k2 == k) = true then some q else lookupQ r k := rfl

theorem addIdx_cons (k2 : Str) (q : List Nat) (r : List (Str × List Nat)) (k : Str) (i : Nat) :
    addIdx ((k2, q) :: r) k i =
      if (k2 == k) = true then (k2, q ++ [i]) :: r else (k2, q) :: addIdx r k i := rfl

theorem buildRBKGo_cons_none (i : Nat) (v : Str) (r : List (Option Str × Str))
    (m : List (Str × List Nat)) :
    buildRBKGo i ((none, v) :: r) m = buildRBKGo (i + 1) r m := rfl

theorem buildRBKGo_cons_some (i : Nat) (k0 v : Str) (r : List (Option Str × Str))
    (m : List (Str × List Nat)) :
    buildRBKGo i ((some k0, v) :: r) m = buildRBKGo (i + 1) r (addIdx m k0 i) := rfl

theorem keyOccFrom_cons (k : Str) (i : Nat) (ok : Option Str) (v : Str)
    (rest : List (Option Str × Str)) :
    keyOccFrom k i ((ok, v) :: rest) =
      if (ok == some k) = true then i :: keyOccFrom k (i + 1) rest
      else keyOccFrom k (i + 1) rest := rfl

theorem queueOf_addIdx_self (m : List (Str × List Nat)) (k : Str) (i : Nat) :
    queueOf (addIdx m k i) k = queueOf m k ++ [i] := by
  induction m with
  | nil => simp [addIdx, queueOf, lookupQ]
  | cons e r ih =>
    rcases e with ⟨k2, q⟩
    rw [addIdx_cons]
    by_cases h : k2 = k
    · rw [if_pos (beq_iff_eq.mpr h)]
      simp only [queueOf, lookupQ_cons, if_pos (beq_iff_eq.mpr h)]
      rfl
    · rw [if_neg (show ¬ ((k2 == k) = true) by simp [h])]
      simp only [queueOf, lookupQ_cons, if_neg (show ¬ ((k2 == k) = true) by simp [h])]
      exact ih

theorem queueOf_addIdx_other (m : List (Str × List Nat)) (k k2 : Str) (i : Nat)
    (hne : k2 ≠ k) : queueOf (addIdx m k i) k2 = queueOf m k2 := by
  induction m with
  | nil =>
    simp only [addIdx, queueOf, lookupQ]
    rw [if_neg (show ¬ ((k == k2) = true) by simp [Ne.symm hne])]
  | cons e r ih =>
    rcases e with ⟨k3, q⟩
    rw [addIdx_cons]
    by_cases h : k3 = k
    · rw [if_pos (beq_iff_eq.mpr h)]
      have hne3 : ¬ ((k3 == k2) = true) := by
        simp only [beq_iff_eq]
        rw [h]
        exact fun he => hne he.symm
      simp only [queueOf, lookupQ_cons, if_neg hne3]
    · rw [if_neg (show ¬ ((k3 == k) = true) by simp [h])]
      by_cases h2 : k3 = k2
      · simp only [queueOf, lookupQ_cons, if_pos (beq_iff_eq.mpr h2)]
      · simp only [queueOf, lookupQ_cons,
          if_neg (show ¬ ((k3 == k2) = true) by simp [h2])]
        exact ih

theorem queueOf_buildRBKGo (rest : List (Option Str × Str)) :
    ∀ (i : Nat) (m : List (Str × List Nat)) (k : Str),
      queueOf (buildRBKGo i rest m) k = queueOf m k ++ keyOccFrom k i rest := by
  induction rest with
  | nil => intro i m k; simp [buildRBKGo, keyOccFrom]
  | cons e r ih =>
    intro i m k
    rcases e with ⟨ok, v⟩
    rcases ok with _ | k0
    · rw [buildRBKGo_cons_none, keyOccFrom_cons,
        if_neg (show ¬ (((none : Option Str) == some k) = true) by simp), ih]
    · rw [buildRBKGo_cons_some, keyOccFrom_cons, ih]
      by_cases h : k0 = k
      · subst h
        rw [if_pos (by simp), queueOf_addIdx_self, List.append_assoc]
        rfl
      · rw [if_neg (show ¬ ((some k0 == some k) = true) by simp [h]),
          queueOf_addIdx_other m k0 k i (Ne.symm h)]

theorem queueOf_buildRBK (res : List (Option Str × Str)) (k : Str) :
    queueOf (buildRBK res) k = keyOccIdxs res k := by
  rw [buildRBK, keyOccIdxs, queueOf_buildRBKGo res 0 [] k]
  rfl

theorem countKeyIn_snoc (pre : List (Option Str × Str)) (e : Option Str × Str) (k : Str) :
    countKeyIn (pre ++ [e]) k =
      countKeyIn pre k + (if (e.1 == some k) = true then 1 else 0) := by
  unfold countKeyIn
  rw [List.filter_append, List.length_append]
  congr 1
  by_cases h : (e.1 == some k) = true
  · rw [if_pos h]
    simp [List.filter_cons, h]
  · rw [if_neg h]
    simp [List.filter_cons, h]

theorem get?_eq_head_drop (l : List Nat) (n : Nat) : l.get? n = (l.drop n).head? := by
  induction l generalizing n with
  | nil => simp
  | cons a r ih =>
    cases n with
    | zero => rfl
    | succ n2 => simpa using ih n2

theorem lookupQ_setQ_self (m : List (Str × List Nat)) (k : Str) (nq q0 : List Nat)
    (h : lookupQ m k = some q0) : lookupQ (setQ m k nq) k = some nq := by
  induction m with
  | nil => nomatch h
  | cons e r ih =>
    rcases e with ⟨k2, q⟩
    rw [lookupQ_cons] at h
    rw [setQ]
    by_cases h2 : (k2 == k) = true
    · rw [if_pos h2, lookupQ_cons, if_pos h2]
    · rw [if_neg h2, lookupQ_cons, if_neg h2]
      rw [if_neg h2] at h
      exact ih h

theorem lookupQ_setQ_other (m : List (Str × List Nat)) (k k2 : Str) (nq : List Nat)
    (hne : k2 ≠ k) : lookupQ (setQ m k nq) k2 = lookupQ m k2 := by
  induction m with
  | nil => rfl
  | cons e r ih =>
    rcases e with ⟨k3, q⟩
    rw [setQ]
    by_cases h : (k3 == k) = true
    · rw [if_pos h, lookupQ_cons, lookupQ_cons]
      have h3 : ¬ ((k3 == k2) = true) := by
        simp only [beq_iff_eq] at h ⊢
        rw [h]
        exact fun he => hne he.symm
      rw [if_neg h3, if_neg h3]
    · rw [if_neg h, lookupQ_cons, lookupQ_cons]
      by_cases h2 : (k3 == k2) = true
      · rw [if_pos h2, if_pos h2]
      · rw [if_neg h2, if_neg h2]
        exact ih

theorem dayLoop_cons_none (res : List (Option Str × Str)) (m : List (Str × List Nat))
    (i : Nat) (v : Str) (rest : List (Option Str × Str)) :
    dayLoop res m i ((none, v) :: rest) = dayLoop res m (i + 1) rest := rfl

theorem dayLoop_cons_some (res : List (Option Str × Str)) (m : List (Str × List Nat))
    (i : Nat) (k v : Str) (rest : List (Option Str × Str)) :
    dayLoop res m i ((some k, v) :: rest) =
      (match lookupQ m k with
       | none => dayLoop res m (i + 1) rest
       | some [] => dayLoop res m (i + 1) rest
       | some (ri :: q2) =>
         ((v, roomValAt res ri) :: (dayLoop res (setQ m k q2) (i + 1) rest).1,
          i :: (dayLoop res (setQ m k q2) (i + 1) rest).2.1,
          ri :: (dayLoop res (setQ m k q2) (i + 1) rest).2.2)) := rfl

theorem keyedPairsFrom_cons_none (res pre : List (Option Str × Str)) (v : Str)
    (rest : List (Option Str × Str)) :
    keyedPairsFrom res pre ((none, v) :: rest) =
      keyedPairsFrom res (pre ++ [(none, v)]) rest := rfl

theorem keyedPairsFrom_cons_some (res pre : List (Option Str × Str)) (k v : Str)
    (rest : List (Option Str × Str)) :
    keyedPairsFrom res pre ((some k, v) :: rest) =
      (match (keyOccIdxs res k).get? (countKeyIn pre k) with
       | some ri => (v, roomValAt res ri) ::
           keyedPairsFrom res (pre ++ [(some k, v)]) rest
       | none => keyedPairsFrom res (pre ++ [(some k, v)]) rest) := rfl

theorem usedDayFrom_cons_none (res pre : List (Option Str × Str)) (v : Str)
    (rest : List (Option Str × Str)) :
    usedDayFrom res pre ((none, v) :: rest) =
      usedDayFrom res (pre ++ [(none, v)]) rest := rfl

theorem usedDayFrom_cons_some (res pre : List (Option Str × Str)) (k v : Str)
    (rest : List (Option Str × Str)) :
    usedDayFrom res pre ((some k, v) :: rest) =
      (match (keyOccIdxs res k).get? (countKeyIn pre k) with
       | some _ => pre.length :: usedDayFrom res (pre ++ [(some k, v)]) rest
       | none => usedDayFrom res (pre ++ [(some k, v)]) rest) := rfl

theorem usedRoomFrom_cons_none (res pre : List (Option Str × Str)) (v : Str)
    (rest : List (Option Str × Str)) :
    usedRoomFrom res pre ((none, v) :: rest) =
      usedRoomFrom res (pre ++ [(none, v)]) rest := rfl

theorem usedRoomFrom_cons_some (res pre : List (Option Str × Str)) (k v : Str)
    (rest : List (Option Str × Str)) :
    usedRoomFrom res pre ((some k, v) :: rest) =
      (match (keyOccIdxs res k).get? (countKeyIn pre k) with
       | some ri => ri :: usedRoomFrom res (pre ++ [(some k, v)]) rest
       | none => usedRoomFrom res (pre ++ [(some k, v)]) rest) := rfl

theorem dayLoop_eq_spec (res : List (Option Str × Str)) :
    ∀ (suffix pre : List (Option Str × Str)) (m : List (Str × List Nat)),
      (∀ k, queueOf m k = (keyOccIdxs res k).drop (countKeyIn pre k)) →
      dayLoop res m pre.length suffix =
        (keyedPairsFrom res pre suffix, usedDayFrom res pre suffix,
          usedRoomFrom res pre suffix) := by
  intro suffix
  induction suffix with
  | nil => intro pre m _; rfl
  | cons e rest ih =>
    intro pre m hm
    rcases e with ⟨ok, v⟩
    rcases ok with _ | k
    · rw [dayLoop_cons_none, keyedPairsFrom_cons_none, usedDayFrom_cons_none,
        usedRoomFrom_cons_none]
      have hlen : pre.length + 1 = (pre ++ [((none : Option Str), v)]).length := by simp
      rw [hlen]
      apply ih
      intro k
      rw [countKeyIn_snoc]
      rw [if_neg (show ¬ ((((none : Option Str), v).1 == some k) = true) by simp)]
      exact hm k
    · have hmk := hm k
      rcases hq : (keyOccIdxs res k).drop (countKeyIn pre k) with _ | ⟨ri, q2⟩
      · have hget : (keyOccIdxs res k).get? (countKeyIn pre k) = none := by
          rw [get?_eq_head_drop, hq]
          rfl
        rw [keyedPairsFrom_cons_some, usedDayFrom_cons_some, usedRoomFrom_cons_some, hget]
        rw [hq] at hmk
        have hnext : ∀ k2, queueOf m k2 =
            (keyOccIdxs res k2).drop (countKeyIn (pre ++ [(some k, v)]) k2) := by
          intro k2
          rw [countKeyIn_snoc]
          by_cases h2 : k2 = k
          · subst h2
            rw [if_pos (by simp)]
            rw [hmk]
            have : (keyOccIdxs res k2).drop (countKeyIn pre k2 + 1) =
                ((keyOccIdxs res k2).drop (countKeyIn pre k2)).drop 1 := by
              rw [List.drop_drop]
            rw [this, hq]
            rfl
          · rw [if_neg (by simp [Ne.symm h2])]
            exact hm k2
        have hlen : pre.length + 1 = (pre ++ [(some k, v)]).length := by simp
        rcases hlk : lookupQ m k with _ | q0
        · rw [dayLoop_cons_some, hlk, hlen]
          exact ih (pre ++ [(some k, v)]) m hnext
        · have hq0 : q0 = [] := by
            rw [queueOf, hlk] at hmk
            exact hmk
          subst hq0
          rw [dayLoop_cons_some, hlk, hlen]
          exact ih (pre ++ [(some k, v)]) m hnext
      · have hget : (keyOccIdxs res k).get? (countKeyIn pre k) = some ri := by
          rw [get?_eq_head_drop, hq]
          rfl
        rw [hq] at hmk
        have hlk : lookupQ m k = some (ri :: q2) := by
          rcases hl : lookupQ m k with _ | q0
          · rw [queueOf, hl] at hmk
            nomatch hmk
          · rw [queueOf, hl] at hmk
            simp only [Option.getD_some] at hmk
            rw [hmk]
        rw [dayLoop_cons_some, hlk, keyedPairsFrom_cons_some, usedDayFrom_cons_some,
          usedRoomFrom_cons_some, hget]
        have hnext : ∀ k2, queueOf (setQ m k q2) k2 =
            (keyOccIdxs res k2).drop (countKeyIn (pre ++ [(some k, v)]) k2) := by
          intro k2
          rw [countKeyIn_snoc]
          by_cases h2 : k2 = k
          · subst h2
            rw [if_pos (by simp)]
            rw [queueOf, lookupQ_setQ_self m k2 q2 (ri :: q2) hlk]
            have : (keyOccIdxs res k2).drop (countKeyIn pre k2 + 1) =
                ((keyOccIdxs res k2).drop (countKeyIn pre k2)).drop 1 := by
              rw [List.drop_drop]
            rw [this, hq]
            rfl
          · rw [if_neg (by simp [Ne.symm h2])]
            rw [queueOf, lookupQ_setQ_other m k k2 q2 h2]
            exact hm k2
        have hlen : pre.length + 1 = (pre ++ [(some k, v)]).length := by simp
        rw [hlen]
        exact congrArg (fun t => ((v, roomValAt res ri) :: t.1, pre.length :: t.2.1,
          ri :: t.2.2)) (ih (pre ++ [(some k, v)]) (setQ m k q2) hnext)

theorem usedDayFrom_nil (res pre : List (Option Str × Str)) :
    usedDayFrom res pre [] = [] := rfl

theorem usedRoomFrom_nil (res pre : List (Option Str × Str)) :
    usedRoomFrom res pre [] = [] := rfl

theorem countKeyIn_cons (ok : Option Str) (v : Str) (t : List (Option Str × Str)) (k : Str) :
    countKeyIn ((ok, v) :: t) k =
      (if (ok == some k) = true then 1 else 0) + countKeyIn t k := by
  by_cases h : (ok == some k) = true
  · simp [countKeyIn, List.filter_cons, h, Nat.add_comm]
  · simp [countKeyIn, List.filter_cons, h]

theorem countKeyIn_append (l1 l2 : List (Option Str × Str)) (k : Str) :
    countKeyIn (l1 ++ l2) k = countKeyIn l1 k + countKeyIn l2 k := by
  simp [countKeyIn, List.filter_append]

theorem keyOccFrom_length (k : Str) :
    ∀ (res : List (Option Str × Str)) (i : Nat),
      (keyOccFrom k i res).length = countKeyIn res k := by
  intro res
  induction res with
  | nil => intro i; rfl
  | cons e r ih =>
    intro i
    rcases e with ⟨ok, v⟩
    rw [keyOccFrom_cons, countKeyIn_cons]
    by_cases h : (ok == some k) = true
    · rw [if_pos h, if_pos h]
      simp only [List.length_cons, ih]
      omega
    · rw [if_neg h, if_neg h]
      simp [ih]

theorem keyOccIdxs_length (res : List (Option Str × Str)) (k : Str) :
    (keyOccIdxs res k).length = countKeyIn res k :=
  keyOccFrom_length k res 0

theorem keyOccFrom_get_of_entry (k : Str) :
    ∀ (res : List (Option Str × Str)) (i j : Nat) (v : Str),
      res.get? j = some (some k, v) →
      (keyOccFrom k i res).get? (countKeyIn (res.take j) k) = some (i + j) := by
  intro res
  induction res with
  | nil => intro i j v h; nomatch h
  | cons e r ih =>
    intro i j v h
    rcases e with ⟨ok, v2⟩
    cases j with
    | zero =>
      rw [List.get?_cons_zero] at h
      have he : ok = some k ∧ v2 = v := by simpa [Prod.ext_iff] using h
      rw [keyOccFrom_cons, if_pos (by simp [he.1])]
      rfl
    | succ j2 =>
      have h2 : r.get? j2 = some (some k, v) := h
      rw [keyOccFrom_cons, List.take_succ_cons, countKeyIn_cons]
      have h3 := ih (i + 1) j2 v h2
      have h4 : i + (j2 + 1) = i + 1 + j2 := by omega
      by_cases hok : (ok == some k) = true
      · rw [if_pos hok, if_pos hok, Nat.add_comm 1 (countKeyIn (r.take j2) k), h4]
        exact h3
      · rw [if_neg hok, if_neg hok, Nat.zero_add, h4]
        exact h3

theorem entry_of_keyOccFrom_get (k : Str) :
    ∀ (res : List (Option Str × Str)) (i ord ri : Nat),
      (keyOccFrom k i res).get? ord = some ri →
      ∃ j v, ri = i + j ∧ res.get? j = some (some k, v) ∧
        countKeyIn (res.take j) k = ord := by
  intro res
  induction res with
  | nil => intro i ord ri h; nomatch h
  | cons e r ih =>
    intro i ord ri h
    rcases e with ⟨ok, v2⟩
    rw [keyOccFrom_cons] at h
    by_cases hok : (ok == some k) = true
    · rw [if_pos hok] at h
      cases ord with
      | zero =>
        rw [List.get?_cons_zero] at h
        have hri : i = ri := by simpa using h
        refine ⟨0, v2, by omega, ?_, rfl⟩
        have he : ok = some k := by simpa using hok
        rw [List.get?_cons_zero, he]
      | succ ord2 =>
        have h2 : (keyOccFrom k (i + 1) r).get? ord2 = some ri := h
        obtain ⟨j, v, hj, hg, hc⟩ := ih (i + 1) ord2 ri h2
        refine ⟨j + 1, v, by omega, hg, ?_⟩
        rw [List.take_succ_cons, countKeyIn_cons, if_pos hok, hc]
        omega
    · rw [if_neg hok] at h
      obtain ⟨j, v, hj, hg, hc⟩ := ih (i + 1) ord ri h
      refine ⟨j + 1, v, by omega, hg, ?_⟩
      rw [List.take_succ_cons, countKeyIn_cons, if_neg hok, hc]
      omega

theorem keyOccIdxs_get_of_entry (res : List (Option Str × Str)) (j : Nat) (v : Str)
    (k : Str) (h : res.get? j = some (some k, v)) :
    (keyOccIdxs res k).get? (countKeyIn (res.take j) k) = some j := by
  have h2 := keyOccFrom_get_of_entry k res 0 j v h
  rw [keyOccIdxs]
  simpa using h2

theorem entry_of_keyOccIdxs_get (res : List (Option Str × Str)) (k : Str) (ord ri : Nat)
    (h : (keyOccIdxs res k).get? ord = some ri) :
    ∃ v, res.get? ri = some (some k, v) ∧ countKeyIn (res.take ri) k = ord := by
  obtain ⟨j, v, hj, hg, hc⟩ := entry_of_keyOccFrom_get k res 0 ord ri h
  have hj2 : ri = j := by omega
  subst hj2
  exact ⟨v, hg, hc⟩

theorem ord_lt_occ_of_entry (res : List (Option Str × Str)) (j : Nat) (v : Str)
    (k : Str) (h : res.get? j = some (some k, v)) :
    countKeyIn (res.take j) k < (keyOccIdxs res k).length := by
  obtain ⟨hlt, _⟩ := List.get?_eq_some.mp (keyOccIdxs_get_of_entry res j v k h)
  exact hlt

theorem dayUsedSpec_keyed (des res : List (Option Str × Str)) (i : Nat) (k v : Str)
    (h : des.get? i = some (some k, v)) :
    dayUsedSpec des res i =
      decide (countKeyIn (des.take i) k < (keyOccIdxs res k).length) := by
  unfold dayUsedSpec
  rw [h]

theorem dayUsedSpec_of_none (des res : List (Option Str × Str)) (i : Nat)
    (h : des.get? i = none) : dayUsedSpec des res i = false := by
  unfold dayUsedSpec
  rw [h]

theorem dayUsedSpec_of_unkeyed (des res : List (Option Str × Str)) (i : Nat) (v : Str)
    (h : des.get? i = some (none, v)) : dayUsedSpec des res i = false := by
  unfold dayUsedSpec
  rw [h]

theorem roomUsedSpec_keyed (des res : List (Option Str × Str)) (ri : Nat) (k v : Str)
    (h : res.get? ri = some (some k, v)) :
    roomUsedSpec des res ri =
      decide (countKeyIn (res.take ri) k < countKeyIn des k) := by
  unfold roomUsedSpec
  rw [h]

theorem roomUsedSpec_of_none (des res : List (Option Str × Str)) (ri : Nat)
    (h : res.get? ri = none) : roomUsedSpec des res ri = false := by
  unfold roomUsedSpec
  rw [h]

theorem roomUsedSpec_of_unkeyed (des res : List (Option Str × Str)) (ri : Nat) (v : Str)
    (h : res.get? ri = some (none, v)) : roomUsedSpec des res ri = false := by
  unfold roomUsedSpec
  rw [h]

theorem mem_usedDayFrom (res : List (Option Str × Str)) :
    ∀ (suffix pre : List (Option Str × Str)) (i : Nat),
      i ∈ usedDayFrom res pre suffix ↔
        (pre.length ≤ i ∧ dayUsedSpec (pre ++ suffix) res i = true) := by
  intro suffix
  induction suffix with
  | nil =>
    intro pre i
    rw [usedDayFrom_nil]
    constructor
    · intro h
      exact absurd h (List.not_mem_nil i)
    · rintro ⟨h1, h2⟩
      have hg : (pre ++ []).get? i = none := by
        rw [List.append_nil]
        exact List.get?_eq_none.mpr h1
      rw [dayUsedSpec_of_none _ res i hg] at h2
      exact Bool.noConfusion h2
  | cons e rest ih =>
    intro pre i
    rcases e with ⟨ok, v⟩
    have hass : (pre ++ [(ok, v)]) ++ rest = pre ++ (ok, v) :: rest := by simp
    rcases ok with _ | k
    · rw [usedDayFrom_cons_none, ih (pre ++ [(none, v)]) i, hass]
      constructor
      · rintro ⟨h1, h2⟩
        refine ⟨?_, h2⟩
        simp at h1
        omega
      · rintro ⟨h1, h2⟩
        refine ⟨?_, h2⟩
        by_cases hi : pre.length + 1 ≤ i
        · simpa using hi
        · exfalso
          have hie : i = pre.length := by omega
          subst hie
          have hg : (pre ++ ((none : Option Str), v) :: rest).get? pre.length
              = some (none, v) := by
            rw [List.get?_append_right (Nat.le_refl _)]
            simp
          rw [dayUsedSpec_of_unkeyed _ res pre.length v hg] at h2
          exact Bool.noConfusion h2
    · rcases hget : (keyOccIdxs res k).get? (countKeyIn pre k) with _ | ri0
      · rw [usedDayFrom_cons_some, hget]
        show i ∈ usedDayFrom res (pre ++ [(some k, v)]) rest ↔ _
        rw [ih (pre ++ [(some k, v)]) i, hass]
        have hlen : (keyOccIdxs res k).length ≤ countKeyIn pre k :=
          List.get?_eq_none.mp hget
        constructor
        · rintro ⟨h1, h2⟩
          refine ⟨?_, h2⟩
          simp at h1
          omega
        · rintro ⟨h1, h2⟩
          refine ⟨?_, h2⟩
          by_cases hi : pre.length + 1 ≤ i
          · simpa using hi
          · exfalso
            have hie : i = pre.length := by omega
            subst hie
            have hg : (pre ++ (some k, v) :: rest).get? pre.length
                = some (some k, v) := by
              rw [List.get?_append_right (Nat.le_refl _)]
              simp
            have htake : (pre ++ (some k, v) :: rest).take pre.length = pre :=
              List.take_left pre _
            rw [dayUsedSpec_keyed _ res pre.length k v hg, htake] at h2
            simp only [decide_eq_true_eq] at h2
            omega
      · rw [usedDayFrom_cons_some, hget]
        show i ∈ pre.length :: usedDayFrom res (pre ++ [(some k, v)]) rest ↔ _
        rw [List.mem_cons, ih (pre ++ [(some k, v)]) i, hass]
        have hlt0 : countKeyIn pre k < (keyOccIdxs res k).length := by
          obtain ⟨hlt, _⟩ := List.get?_eq_some.mp hget
          exact hlt
        have hg : (pre ++ (some k, v) :: rest).get? pre.length = some (some k, v) := by
          rw [List.get?_append_right (Nat.le_refl _)]
          simp
        have htake : (pre ++ (some k, v) :: rest).take pre.length = pre :=
          List.take_left pre _
        constructor
        · rintro (h1 | ⟨h1, h2⟩)
          · subst h1
            refine ⟨Nat.le_refl _, ?_⟩
            rw [dayUsedSpec_keyed _ res pre.length k v hg, htake]
            simp only [decide_eq_true_eq]
            exact hlt0
          · refine ⟨?_, h2⟩
            simp at h1
            omega
        · rintro ⟨h1, h2⟩
          by_cases hi : pre.length + 1 ≤ i
          · exact Or.inr ⟨by simpa using hi, h2⟩
          · exact Or.inl (by omega)

theorem mem_usedRoomFrom (res : List (Option Str × Str)) :
    ∀ (suffix pre : List (Option Str × Str)) (ri : Nat),
      ri ∈ usedRoomFrom res pre suffix ↔ roomPopCond res pre suffix ri := by
  intro suffix
  induction suffix with
  | nil =>
    intro pre ri
    rw [usedRoomFrom_nil]
    unfold roomPopCond
    constructor
    · intro h
      exact absurd h (List.not_mem_nil ri)
    · rintro ⟨k, v2, hg, h1, h2, h3⟩
      rw [List.append_nil] at h2
      omega
  | cons e rest ih =>
    intro pre ri
    rcases e with ⟨ok, v⟩
    have hass : (pre ++ [(ok, v)]) ++ rest = pre ++ (ok, v) :: rest := by simp
    rcases ok with _ | k0
    · rw [usedRoomFrom_cons_none, ih (pre ++ [(none, v)]) ri]
      unfold roomPopCond
      have hc : ∀ k2 : Str, countKeyIn (pre ++ [((none : Option Str), v)]) k2
          = countKeyIn pre k2 := by
        intro k2
        rw [countKeyIn_snoc]
        simp
      constructor
      · rintro ⟨k, v2, hg, h1, h2, h3⟩
        rw [hc k] at h1
        rw [hass] at h2
        exact ⟨k, v2, hg, h1, h2, h3⟩
      · rintro ⟨k, v2, hg, h1, h2, h3⟩
        rw [← hc k] at h1
        rw [← hass] at h2
        exact ⟨k, v2, hg, h1, h2, h3⟩
    · rcases hget : (keyOccIdxs res k0).get? (countKeyIn pre k0) with _ | ri0
      · rw [usedRoomFrom_cons_some, hget]
        show ri ∈ usedRoomFrom res (pre ++ [(some k0, v)]) rest ↔ _
        rw [ih (pre ++ [(some k0, v)]) ri]
        have hlen : (keyOccIdxs res k0).length ≤ countKeyIn pre k0 :=
          List.get?_eq_none.mp hget
        unfold roomPopCond
        constructor
        · rintro ⟨k, v2, hg, h1, h2, h3⟩
          refine ⟨k, v2, hg, ?_, ?_, h3⟩
          · have hmono : countKeyIn pre k ≤ countKeyIn (pre ++ [(some k0, v)]) k := by
              rw [countKeyIn_snoc]
              omega
            omega
          · rw [← hass]
            exact h2
        · rintro ⟨k, v2, hg, h1, h2, h3⟩
          refine ⟨k, v2, hg, ?_, ?_, h3⟩
          · rw [countKeyIn_snoc]
            by_cases hk : (((some k0, v) : Option Str × Str).1 == some k) = true
            · exfalso
              have hkk : k0 = k := by simpa using hk
              subst hkk
              omega
            · rw [if_neg hk]
              omega
          · rw [hass]
            exact h2
      · rw [usedRoomFrom_cons_some, hget]
        show ri ∈ ri0 :: usedRoomFrom res (pre ++ [(some k0, v)]) rest ↔ _
        rw [List.mem_cons, ih (pre ++ [(some k0, v)]) ri]
        obtain ⟨v0, hg0, hc0⟩ := entry_of_keyOccIdxs_get res k0 (countKeyIn pre k0) ri0 hget
        have hlt0 : countKeyIn pre k0 < (keyOccIdxs res k0).length := by
          obtain ⟨hlt, _⟩ := List.get?_eq_some.mp hget
          exact hlt
        unfold roomPopCond
        constructor
        · rintro (h1 | ⟨k, v2, hg, h1, h2, h3⟩)
          · subst h1
            refine ⟨k0, v0, hg0, ?_, ?_, ?_⟩
            · rw [hc0]
            · rw [hc0, countKeyIn_append, countKeyIn_cons]
              have hbeq : (((some k0, v) : Option Str × Str).1 == some k0) = true := by simp
              rw [if_pos hbeq]
              omega
            · rw [hc0]
              exact hlt0
          · refine ⟨k, v2, hg, ?_, ?_, h3⟩
            · have hmono : countKeyIn pre k ≤ countKeyIn (pre ++ [(some k0, v)]) k := by
                rw [countKeyIn_snoc]
                omega
              omega
            · rw [← hass]
              exact h2
        · rintro ⟨k, v2, hg, h1, h2, h3⟩
          by_cases hk : k = k0
          · rw [hk] at hg h1 h2 h3
            by_cases hord : countKeyIn (res.take ri) k0 = countKeyIn pre k0
            · left
              have hocc := keyOccIdxs_get_of_entry res ri v2 k0 hg
              rw [hord] at hocc
              rw [hget] at hocc
              injection hocc with h5
              exact h5.symm
            · right
              refine ⟨k0, v2, hg, ?_, ?_, h3⟩
              · rw [countKeyIn_snoc]
                have hbeq : (((some k0, v) : Option Str × Str).1 == some k0) = true := by
                  simp
                rw [if_pos hbeq]
                omega
              · rw [hass]
                exact h2
          · right
            refine ⟨k, v2, hg, ?_, ?_, h3⟩
            · rw [countKeyIn_snoc]
              rw [if_neg (show ¬ ((((some k0, v) : Option Str × Str).1 == some k) = true)
                by simp [Ne.symm hk])]
              omega
            · rw [hass]
              exact h2

theorem roomPopCond_iff_spec (des res : List (Option Str × Str)) (ri : Nat) :
    roomPopCond res [] des ri ↔ roomUsedSpec des res ri = true := by
  unfold roomPopCond
  rcases hg : res.get? ri with _ | e
  · constructor
    · rintro ⟨k, v2, hg2, _, _, _⟩
      nomatch hg2
    · intro h
      rw [roomUsedSpec_of_none des res ri hg] at h
      exact Bool.noConfusion h
  · rcases e with ⟨ok, v⟩
    rcases ok with _ | k
    · constructor
      · rintro ⟨k2, v2, hg2, _, _, _⟩
        injection hg2 with h2
        injection h2 with h3 _
        nomatch h3
      · intro h
        rw [roomUsedSpec_of_unkeyed des res ri v hg] at h
        exact Bool.noConfusion h
    · constructor
      · rintro ⟨k2, v2, hg2, h1, h2, h3⟩
        injection hg2 with hpair
        injection hpair with hk hv
        injection hk with hk2
        rw [← hk2] at h2
        rw [List.nil_append] at h2
        rw [roomUsedSpec_keyed des res ri k v hg]
        simp only [decide_eq_true_eq]
        exact h2
      · intro h
        rw [roomUsedSpec_keyed des res ri k v hg] at h
        simp only [decide_eq_true_eq] at h
        refine ⟨k, v, rfl, Nat.zero_le _, ?_, ?_⟩
        · rw [List.nil_append]
          exact h
        · exact ord_lt_occ_of_entry res ri v k hg

theorem pairDayAndRoom_eq_pairsSpec (dayLines roomLines : List Str) :
    pairDayAndRoomL dayLines roomLines =
      pairsSpec (keyedLinesL dayLines) (keyedLinesL roomLines) := by
  have hm : ∀ k, queueOf (buildRBK (keyedLinesL roomLines)) k =
      (keyOccIdxs (keyedLinesL roomLines) k).drop
        (countKeyIn ([] : List (Option Str × Str)) k) := by
    intro k
    rw [queueOf_buildRBK]
    rfl
  have hout0 : dayLoop (keyedLinesL roomLines) (buildRBK (keyedLinesL roomLines)) 0
        (keyedLinesL dayLines) =
      (keyedPairsFrom (keyedLinesL roomLines) [] (keyedLinesL dayLines),
       usedDayFrom (keyedLinesL roomLines) [] (keyedLinesL dayLines),
       usedRoomFrom (keyedLinesL roomLines) [] (keyedLinesL dayLines)) :=
    dayLoop_eq_spec (keyedLinesL roomLines) (keyedLinesL dayLines) []
      (buildRBK (keyedLinesL roomLines)) hm
  have hday : (keyedLinesL dayLines).enum.filterMap
        (fun p => if p.1 ∈ usedDayFrom (keyedLinesL roomLines) [] (keyedLinesL dayLines)
          then none else some p.2.2)
      = (keyedLinesL dayLines).enum.filterMap
        (fun p => if dayUsedSpec (keyedLinesL dayLines) (keyedLinesL roomLines) p.1
          then none else some p.2.2) := by
    apply List.filterMap_congr
    intro p _
    refine if_congr ?_ rfl rfl
    rw [mem_usedDayFrom (keyedLinesL roomLines) (keyedLinesL dayLines) [] p.1]
    simp
  have hroom : (keyedLinesL roomLines).enum.filterMap
        (fun p => if p.1 ∈ usedRoomFrom (keyedLinesL roomLines) [] (keyedLinesL dayLines)
          then none else some p.2.2)
      = (keyedLinesL roomLines).enum.filterMap
        (fun p => if roomUsedSpec (keyedLinesL dayLines) (keyedLinesL roomLines) p.1
          then none else some p.2.2) := by
    apply List.filterMap_congr
    intro p _
    refine if_congr ?_ rfl rfl
    rw [mem_usedRoomFrom (keyedLinesL roomLines) (keyedLinesL dayLines) [] p.1]
    exact roomPopCond_iff_spec (keyedLinesL dayLines) (keyedLinesL roomLines) p.1
  simp only [pairDayAndRoomL]
  rw [hout0]
  unfold pairsSpec keyedPairsSpec
  dsimp only
  rw [hday, hroom]

/-! ### Character-class lemmas for the room-name cascade (claims C2, C8) -/

theorem isDigitC_toNat (c : Char) (h : isDigitC c = true) :
    48 ≤ c.toNat ∧ c.toNat ≤ 57 := by
  simp only [isDigitC, Char.isDigit, Bool.and_eq_true, decide_eq_true_eq] at h
  obtain ⟨h1, h2⟩ := h
  exact ⟨h1, h2⟩

theorem isAlphaC_toNat (c : Char) (h : isAlphaC c = true) :
    (65 ≤ c.toNat ∧ c.toNat ≤ 90) ∨ (97 ≤ c.toNat ∧ c.toNat ≤ 122) := by
  simp only [isAlphaC, Char.isAlpha, Char.isUpper, Char.isLower, Bool.or_eq_true,
    Bool.and_eq_true, decide_eq_true_eq] at h
  rcases h with ⟨h1, h2⟩ | ⟨h1, h2⟩
  · exact Or.inl ⟨h1, h2⟩
  · exact Or.inr ⟨h1, h2⟩

theorem isAlphaC_of_toNat (c : Char)
    (h : (65 ≤ c.toNat ∧ c.toNat ≤ 90) ∨ (97 ≤ c.toNat ∧ c.toNat ≤ 122)) :
    isAlphaC c = true := by
  simp only [isAlphaC, Char.isAlpha, Char.isUpper, Char.isLower, Bool.or_eq_true,
    Bool.and_eq_true, decide_eq_true_eq]
  rcases h with ⟨h1, h2⟩ | ⟨h1, h2⟩
  · exact Or.inl ⟨h1, h2⟩
  · exact Or.inr ⟨h1, h2⟩

theorem toNat_ofNat_valid (n : Nat) (h : Nat.isValidChar n) : (Char.ofNat n).toNat = n := by
  unfold Char.ofNat
  rw [dif_pos h]
  rfl

theorem toUpper_eq (c : Char) :
    Char.toUpper c =
      if 97 ≤ c.toNat ∧ c.toNat ≤ 122 then Char.ofNat (c.toNat - 32) else c := by
  unfold Char.toUpper
  rcases Nat.decLe 97 c.toNat with h | h
  · rw [if_neg (by omega), if_neg (by omega)]
  · by_cases h2 : c.toNat ≤ 122
    · rw [if_pos ⟨h, h2⟩, if_pos ⟨h, h2⟩]
    · rw [if_neg (by omega), if_neg (by omega)]

theorem toUpper_toUpper (c : Char) : Char.toUpper (Char.toUpper c) = Char.toUpper c := by
  rw [toUpper_eq, toUpper_eq c]
  by_cases h : 97 ≤ c.toNat ∧ c.toNat ≤ 122
  · rw [if_pos h]
    have hval : Nat.isValidChar (c.toNat - 32) := Or.inl (by omega)
    rw [toNat_ofNat_valid _ hval, if_neg (by omega)]
  · rw [if_neg h, if_neg h]

theorem toUpper_alpha (c : Char) (h : isAlphaC c = true) :
    isAlphaC (Char.toUpper c) = true := by
  rcases isAlphaC_toNat c h with ⟨h1, h2⟩ | ⟨h1, h2⟩
  · rw [toUpper_eq, if_neg (by omega)]
    exact h
  · rw [toUpper_eq, if_pos ⟨by omega, by omega⟩]
    have hval : Nat.isValidChar (c.toNat - 32) := Or.inl (by omega)
    exact isAlphaC_of_toNat _ (Or.inl (by rw [toNat_ofNat_valid _ hval]; omega))

theorem alpha_of_toUpper_alpha (c : Char) (h : isAlphaC (Char.toUpper c) = true) :
    isAlphaC c = true := by
  rw [toUpper_eq] at h
  by_cases hc : 97 ≤ c.toNat ∧ c.toNat ≤ 122
  · exact isAlphaC_of_toNat c (Or.inr ⟨hc.1, hc.2⟩)
  · rw [if_neg hc] at h
    exact h

theorem toUpper_not_lower (c : Char) (h : ¬ (97 ≤ c.toNat ∧ c.toNat ≤ 122)) :
    Char.toUpper c = c := by
  rw [toUpper_eq, if_neg h]

theorem toUpper_digit (c : Char) (h : isDigitC c = true) : Char.toUpper c = c := by
  obtain ⟨h1, h2⟩ := isDigitC_toNat c h
  exact toUpper_not_lower c (by omega)

theorem digit_not_alpha (c : Char) (h : isDigitC c = true) : isAlphaC c = false := by
  obtain ⟨h1, h2⟩ := isDigitC_toNat c h
  cases hh : isAlphaC c
  · rfl
  · rcases isAlphaC_toNat c hh with ⟨h3, _⟩ | ⟨h3, _⟩ <;> omega

theorem alpha_not_digit (c : Char) (h : isAlphaC c = true) : isDigitC c = false := by
  rcases isAlphaC_toNat c h with ⟨h1, h2⟩ | ⟨h1, h2⟩ <;>
    (cases hh : isDigitC c
     · rfl
     · obtain ⟨h3, h4⟩ := isDigitC_toNat c hh
       omega)

theorem outChar_cases (c : Char) (h : isOutChar c = true) :
    isDigitC c = true ∨ isAlphaC c = true ∨ c = '-' := by
  simp only [isOutChar, Bool.or_eq_true, beq_iff_eq] at h
  tauto

theorem outChar_of_digit (c : Char) (h : isDigitC c = true) : isOutChar c = true := by
  simp [isOutChar, h]

theorem outChar_of_alpha (c : Char) (h : isAlphaC c = true) : isOutChar c = true := by
  simp [isOutChar, h]

theorem outChar_not_space (c : Char) (h : isOutChar c = true) : isSpaceC c = false := by
  cases hs : isSpaceC c
  · rfl
  · exfalso
    simp only [isSpaceC, Bool.or_eq_true, beq_iff_eq] at hs
    rcases hs with ((((h2 | h2) | h2) | h2) | h2) | h2 <;>
      (subst h2; exact absurd h (by decide))

theorem outChar_beq_false (c d : Char) (h : isOutChar c = true)
    (hd : isOutChar d = false) : (c == d) = false := by
  cases hb : c == d
  · rfl
  · exfalso
    have he : c = d := by simpa using hb
    subst he
    rw [h] at hd
    exact Bool.noConfusion hd

theorem zen2han_outChar (c : Char) (h : isOutChar c = true) : zen2han c = c := by
  rcases outChar_cases c h with hd | hd | hd
  · obtain ⟨h1, h2⟩ := isDigitC_toNat c hd
    have hc := Char.ofNat_toNat c
    rw [← hc]
    generalize c.toNat = n at h1 h2 ⊢
    interval_cases n <;> decide
  · have hc := Char.ofNat_toNat c
    rcases isAlphaC_toNat c hd with ⟨h1, h2⟩ | ⟨h1, h2⟩ <;>
      (rw [← hc]
       generalize c.toNat = n at h1 h2 ⊢
       interval_cases n <;> decide)
  · subst hd
    decide

theorem char_le_toNat (a b : Char) (h : a ≤ b) : a.toNat ≤ b.toNat := by
  rw [Char.le_def] at h
  exact h

theorem letterJa_zen2han_alpha (c : Char) (h : isLetterJa c = true) :
    isAlphaC (zen2han c) = true := by
  simp only [isLetterJa, Bool.or_eq_true, Bool.and_eq_true, decide_eq_true_eq] at h
  rcases h with (h | ⟨h1, h2⟩) | ⟨h1, h2⟩
  · rw [zen2han_outChar c (outChar_of_alpha c h)]
    exact h
  · have hb1 := char_le_toNat _ _ h1
    have hb2 := char_le_toNat _ _ h2
    have e1 : ('Ａ' : Char).toNat = 65313 := by decide
    have e2 : ('Ｚ' : Char).toNat = 65338 := by decide
    rw [e1] at hb1
    rw [e2] at hb2
    have hc := Char.ofNat_toNat c
    rw [← hc]
    generalize c.toNat = n at hb1 hb2 ⊢
    interval_cases n <;> decide
  · have hb1 := char_le_toNat _ _ h1
    have hb2 := char_le_toNat _ _ h2
    have e1 : ('ａ' : Char).toNat = 65345 := by decide
    have e2 : ('ｚ' : Char).toNat = 65370 := by decide
    rw [e1] at hb1
    rw [e2] at hb2
    have hc := Char.ofNat_toNat c
    rw [← hc]
    generalize c.toNat = n at hb1 hb2 ⊢
    interval_cases n <;> decide

/-- **C7.** `pair_day_and_room` pairs each keyed day line with the oldest
not-yet-used room line carrying the same zero-padded key (first-in
first-out, regardless of position), before positionally pairing the
remaining lines: the imperative pairing coincides with the declarative
FIFO specification `pairsSpec` on all inputs, and on the spec's example
with swapped keys the lines are matched by key, not by position. -/
theorem claim7_pair_day_and_room_fifo :
    (∀ dayLines roomLines : List Str,
        pairDayAndRoomL dayLines roomLines =
          pairsSpec (keyedLinesL dayLines) (keyedLinesL roomLines)) ∧
      pair_day_and_room ["01:月5時限", "02:火3時限"] ["02:53-101", "01:53-102"] =
        [("月5時限", "53-102"), ("火3時限", "53-101")] :=
  ⟨pairDayAndRoom_eq_pairsSpec, by decide⟩

/-! ### Run decomposition and pipeline no-op lemmas (claims C2, C8) -/

theorem mem_of_head? (l : Str) (c : Char) (h : l.head? = some c) : c ∈ l := by
  cases l with
  | nil => nomatch h
  | cons a r =>
    rw [List.head?_cons] at h
    injection h with h2
    rw [← h2]
    exact List.mem_cons_self a r

theorem mem_of_getLast? (l : Str) (c : Char) (h : l.getLast? = some c) : c ∈ l := by
  induction l with
  | nil => nomatch h
  | cons a r ih =>
    cases r with
    | nil =>
      rw [List.getLast?_singleton] at h
      injection h with h2
      rw [← h2]
      exact List.mem_cons_self a []
    | cons b s =>
      rw [List.getLast?_cons_cons] at h
      exact List.mem_cons_of_mem a (ih h)

theorem mem_of_mem_dropWhile (p : Char → Bool) (l : Str) (x : Char)
    (h : x ∈ l.dropWhile p) : x ∈ l :=
  (List.dropWhile_sublist p).subset h

theorem takeWhile_append_all (p : Char → Bool) (A B : Str)
    (hA : ∀ x ∈ A, p x = true) (hB : ∀ x, B.head? = some x → p x = false) :
    (A ++ B).takeWhile p = A := by
  induction A with
  | nil =>
    cases B with
    | nil => rfl
    | cons b r => simp [List.takeWhile_cons, hB b rfl]
  | cons a r ih =>
    rw [List.cons_append, List.takeWhile_cons, if_pos (hA a (List.mem_cons_self a r))]
    rw [ih (fun x hx => hA x (List.mem_cons_of_mem a hx))]

theorem dropWhile_append_all (p : Char → Bool) (A B : Str)
    (hA : ∀ x ∈ A, p x = true) (hB : ∀ x, B.head? = some x → p x = false) :
    (A ++ B).dropWhile p = B := by
  induction A with
  | nil =>
    cases B with
    | nil => rfl
    | cons b r => simp [List.dropWhile_cons, hB b rfl]
  | cons a r ih =>
    rw [List.cons_append, List.dropWhile_cons, if_pos (hA a (List.mem_cons_self a r))]
    exact ih (fun x hx => hA x (List.mem_cons_of_mem a hx))

theorem pyStrip_append_trim (P T : Str) (hne : P ≠ [])
    (hh : ∀ x, P.head? = some x → isSpaceC x = false)
    (hl : ∀ x, P.getLast? = some x → isSpaceC x = false) :
    pyStrip (P ++ T) = P ++ (T.reverse.dropWhile isSpaceC).reverse := by
  unfold pyStrip
  have hhead : ∀ x, (P ++ T).head? = some x → isSpaceC x = false := by
    intro x hx
    cases P with
    | nil => exact absurd rfl hne
    | cons a r =>
      rw [List.cons_append, List.head?_cons] at hx
      exact hh x (by rw [List.head?_cons]; exact hx)
  rw [dropWhile_eq_self_of_head isSpaceC (P ++ T) hhead, List.reverse_append,
    List.dropWhile_append]
  by_cases he : (T.reverse.dropWhile isSpaceC).isEmpty = true
  · rw [if_pos he]
    have hPrev : P.reverse.dropWhile isSpaceC = P.reverse := by
      apply dropWhile_eq_self_of_head
      intro x hx
      rw [List.head?_reverse] at hx
      exact hl x hx
    rw [hPrev, List.reverse_reverse]
    have : T.reverse.dropWhile isSpaceC = [] := by
      cases hc : T.reverse.dropWhile isSpaceC
      · rfl
      · rw [hc] at he
        exact absurd he (by simp)
    rw [this]
    simp
  · rw [if_neg he, List.reverse_append, List.reverse_reverse]

theorem norm_textL_clean (l : Str) (h : ∀ c ∈ l, isOutChar c = true) :
    norm_textL l = l := by
  unfold norm_textL
  rw [mapIdOn zen2han l (fun c hc => zen2han_outChar c (h c hc))]
  exact pyStrip_id_of l
    (fun c hc => outChar_not_space c (h c (mem_of_head? l c hc)))
    (fun c hc => outChar_not_space c (h c (mem_of_getLast? l c hc)))

theorem norm_textL_clean_nl (l nl : Str) (h : ∀ c ∈ l, isOutChar c = true)
    (hne : l ≠ []) (hnl : nl = [] ∨ nl = ['\n']) :
    norm_textL (l ++ nl) = l := by
  unfold norm_textL
  rw [List.map_append, mapIdOn zen2han l (fun c hc => zen2han_outChar c (h c hc))]
  have hmapnl : nl.map zen2han = nl := by
    rcases hnl with h2 | h2 <;> (subst h2; decide)
  rw [hmapnl]
  rw [pyStrip_append_trim l nl hne
    (fun c hc => outChar_not_space c (h c (mem_of_head? l c hc)))
    (fun c hc => outChar_not_space c (h c (mem_of_getLast? l c hc)))]
  have : (nl.reverse.dropWhile isSpaceC).reverse = [] := by
    rcases hnl with h2 | h2 <;> (subst h2; decide)
  rw [this, List.append_nil]

theorem stripLeadKey_id_of (l : Str)
    (hh : ∀ x, l.head? = some x → isSpaceC x = false)
    (hcol : ∀ x, ((l.dropWhile isDigitC).dropWhile isSpaceC).head? = some x →
      ((x == ':') || (x == '：')) = false) :
    stripLeadKey l = l := by
  simp only [stripLeadKey]
  rw [dropWhile_eq_self_of_head isSpaceC l hh]
  by_cases hc : (decide ((l.takeWhile isDigitC).length = 1) ||
      decide ((l.takeWhile isDigitC).length = 2)) = true
  · rw [if_pos hc]
    rcases hm : (l.dropWhile isDigitC).dropWhile isSpaceC with _ | ⟨c, rest⟩
    · rfl
    · have hfc := hcol c (by rw [hm]; rfl)
      show (if (c == ':' || c == '：') = true then List.dropWhile isSpaceC rest else l) = l
      rw [hfc]
      rfl
  · rw [if_neg hc]

theorem stripParensF_id (l : Str)
    (h : ∀ c ∈ l, (c == '（') = false ∧ (c == '(') = false) :
    stripParensF l.length l = l := by
  induction l with
  | nil => rfl
  | cons c r ih =>
    show stripParensF (r.length + 1) (c :: r) = c :: r
    simp only [stripParensF]
    rw [(h c (List.mem_cons_self c r)).1, (h c (List.mem_cons_self c r)).2]
    simp only [Bool.false_eq_true, if_false]
    rw [ih (fun x hx => h x (List.mem_cons_of_mem c hx))]

theorem stripParens_id_of (l : Str)
    (h : ∀ c ∈ l, (c == '（') = false ∧ (c == '(') = false) :
    stripParens l = l := stripParensF_id l h

theorem stripParensF_append_free (P T : Str)
    (hP : ∀ c ∈ P, (c == '（') = false ∧ (c == '(') = false) :
    stripParensF (P.length + T.length) (P ++ T) = P ++ stripParensF T.length T := by
  induction P with
  | nil => simp
  | cons c r ih =>
    show stripParensF (r.length + 1 + T.length) (c :: (r ++ T)) = _
    have harith : r.length + 1 + T.length = (r.length + T.length) + 1 := by omega
    rw [harith]
    simp only [stripParensF]
    rw [(hP c (List.mem_cons_self c r)).1, (hP c (List.mem_cons_self c r)).2]
    simp only [Bool.false_eq_true, if_false]
    rw [ih (fun x hx => hP x (List.mem_cons_of_mem c hx))]
    rfl

theorem stripParens_append_free (P T : Str)
    (hP : ∀ c ∈ P, (c == '（') = false ∧ (c == '(') = false) :
    stripParens (P ++ T) = P ++ stripParens T := by
  unfold stripParens
  rw [List.length_append]
  exact stripParensF_append_free P T hP

theorem removeAllF_id (pat : Str) (p0 : Char) (hp : pat.head? = some p0) :
    ∀ (l : Str), p0 ∉ l → removeAllF pat l.length l = l := by
  intro l
  induction l with
  | nil => intro hx; rfl
  | cons c r ih =>
    intro hx
    show removeAllF pat (r.length + 1) (c :: r) = c :: r
    simp only [removeAllF]
    have hpre : pat.isPrefixOf (c :: r) = false := by
      cases pat with
      | nil => nomatch hp
      | cons q qs =>
        rw [List.head?_cons] at hp
        injection hp with hq
        rw [hq]
        simp only [List.isPrefixOf]
        have : (p0 == c) = false := by
          cases hb : p0 == c
          · rfl
          · exfalso
            have : p0 = c := by simpa using hb
            exact hx (by rw [this]; exact List.mem_cons_self c r)
        rw [this]
        rfl
    rw [hpre]
    simp only [Bool.and_false, Bool.false_eq_true, if_false]
    rw [ih (fun hmem => hx (List.mem_cons_of_mem c hmem))]

theorem removeAllL_id_of (pat : Str) (p0 : Char) (l : Str)
    (hp : pat.head? = some p0) (hx : p0 ∉ l) : removeAllL pat l = l :=
  removeAllF_id pat p0 hp l hx

theorem postCleanL_clean (l : Str) (h : ∀ c ∈ l, isOutChar c = true) :
    postCleanL l = l := by
  unfold postCleanL
  rw [norm_textL_clean l h]
  rw [removeAllL_id_of "教室".data '教' l rfl
    (fun hmem => absurd (h _ hmem) (by decide))]
  rw [removeAllL_id_of "室".data '室' l rfl
    (fun hmem => absurd (h _ hmem) (by decide))]
  rw [removeAllL_id_of "ルーム".data 'ル' l rfl
    (fun hmem => absurd (h _ hmem) (by decide))]
  rw [removeAllL_id_of "ル-ム".data 'ル' l rfl
    (fun hmem => absurd (h _ hmem) (by decide))]
  rw [removeAllL_id_of " ".data ' ' l rfl
    (fun hmem => absurd (h _ hmem) (by decide))]

theorem matchPCJa_none_head (l : Str)
    (h : ∀ x, (l.dropWhile isDigitC).head? = some x → x ≠ '号') :
    matchPCJa l = none := by
  simp only [matchPCJa]
  by_cases hb : (l.takeWhile isDigitC).isEmpty = true
  · rw [if_pos hb]
  · rw [if_neg hb]
    rcases hd : l.dropWhile isDigitC with _ | ⟨x, rest⟩
    · rfl
    · have hx := h x (by rw [hd]; rfl)
      split
      · rename_i heq
        injection heq with h1 _
        exact absurd h1 hx
      · rfl

theorem cleanPipe (core nl : Str) (hclean : ∀ c ∈ core, isOutChar c = true)
    (hne : core ≠ []) (hnl : nl = [] ∨ nl = ['\n']) :
    stripParens (stripLeadKey (norm_textL (core ++ nl))) = core := by
  rw [norm_textL_clean_nl core nl hclean hne hnl]
  rw [stripLeadKey_id_of core
    (fun x hx => outChar_not_space x (hclean x (mem_of_head? core x hx)))
    (fun x hx => by
      have hmem : x ∈ core :=
        mem_of_mem_dropWhile isDigitC core x
          (mem_of_mem_dropWhile isSpaceC _ x (mem_of_head? _ x hx))
      rw [outChar_beq_false x ':' (hclean x hmem) (by decide),
        outChar_beq_false x '：' (hclean x hmem) (by decide)]
      rfl)]
  exact stripParens_id_of core
    (fun c hc => ⟨outChar_beq_false c '（' (hclean c hc) (by decide),
      outChar_beq_false c '(' (hclean c hc) (by decide)⟩)

theorem cleanPipe0 (core : Str) (hclean : ∀ c ∈ core, isOutChar c = true)
    (hne : core ≠ []) :
    stripParens (stripLeadKey (norm_textL core)) = core := by
  have := cleanPipe core [] hclean hne (Or.inl rfl)
  rwa [List.append_nil] at this

/-- A clean fixed point of the cascade tail is a fixed point of the
whole of `norm_room`. -/
theorem normRoomL_fixed (out : Str) (hclean : ∀ c ∈ out, isOutChar c = true)
    (hne : out ≠ []) (hund : undetermined out = false)
    (htail : normRoomTail out = out) : normRoomL out = out := by
  simp only [normRoomL]
  rw [cleanPipe0 out hclean hne]
  have hcond : ¬ (undetermined out = true) := by
    rw [hund]
    exact fun h2 => Bool.noConfusion h2
  rw [if_neg hcond]
  rw [matchPCJa_none_head out (fun x hx heq => by
    have hmem : x ∈ out :=
      mem_of_mem_dropWhile isDigitC out x (mem_of_head? _ x hx)
    rw [heq] at hmem
    exact absurd (hclean _ hmem) (by decide))]
  rw [postCleanL_clean out hclean, htail]

/-! ### Substring containment and the undetermined test (claims C2, C8) -/

theorem containsSubL_cons (pat : Str) (c : Char) (rest : Str) :
    containsSubL pat (c :: rest) =
      (pat.isPrefixOf (c :: rest) || containsSubL pat rest) := rfl

theorem isPrefixOf_decomp (pat l : Str) (h : pat.isPrefixOf l = true) :
    ∃ v, l = pat ++ v := by
  rw [List.isPrefixOf_iff_prefix] at h
  obtain ⟨v, hv⟩ := h
  exact ⟨v, hv.symm⟩

theorem isPrefixOf_of_decomp (pat v : Str) : pat.isPrefixOf (pat ++ v) = true := by
  rw [List.isPrefixOf_iff_prefix]
  exact ⟨v, rfl⟩

theorem containsSub_decomp (pat : Str) :
    ∀ (l : Str), containsSubL pat l = true → ∃ u v, l = u ++ pat ++ v := by
  intro l
  induction l with
  | nil =>
    intro h
    have hp : pat = [] := by
      simpa [containsSubL, List.isEmpty_iff] using h
    exact ⟨[], [], by rw [hp]; rfl⟩
  | cons c r ih =>
    intro h
    rw [containsSubL_cons, Bool.or_eq_true] at h
    rcases h with h | h
    · obtain ⟨v, hv⟩ := isPrefixOf_decomp pat (c :: r) h
      exact ⟨[], v, by rw [hv]; rfl⟩
    · obtain ⟨u, v, huv⟩ := ih h
      exact ⟨c :: u, v, by rw [huv]; rfl⟩

theorem containsSub_append_right (pat A Y : Str) (h : containsSubL pat A = true) :
    containsSubL pat (A ++ Y) = true := by
  induction A with
  | nil =>
    have hp : pat = [] := by
      simpa [containsSubL, List.isEmpty_iff] using h
    subst hp
    cases Y with
    | nil => rfl
    | cons y r =>
      rw [List.nil_append, containsSubL_cons]
      have : ([] : Str).isPrefixOf (y :: r) = true := by
        rw [List.isPrefixOf_iff_prefix]
        exact ⟨y :: r, rfl⟩
      rw [this]
      rfl
  | cons c r ih =>
    rw [containsSubL_cons, Bool.or_eq_true] at h
    rw [List.cons_append, containsSubL_cons]
    rcases h with h | h
    · obtain ⟨v, hv⟩ := isPrefixOf_decomp pat (c :: r) h
      have hpre : pat.isPrefixOf (c :: (r ++ Y)) = true := by
        have he : c :: (r ++ Y) = pat ++ (v ++ Y) := by
          rw [← List.append_assoc, ← hv, List.cons_append]
        rw [he]
        exact isPrefixOf_of_decomp pat (v ++ Y)
      rw [hpre]
      rfl
    · rw [ih h, Bool.or_true]

theorem containsSub_mono (pat X A Y : Str) (h : containsSubL pat A = true) :
    containsSubL pat (X ++ A ++ Y) = true := by
  induction X with
  | nil =>
    rw [List.nil_append]
    exact containsSub_append_right pat A Y h
  | cons x r ih =>
    rw [List.cons_append, List.cons_append, containsSubL_cons, ih, Bool.or_true]

theorem hasThreeAlpha_cons_nonalpha (c : Char) (l : Str) (hc : isAlphaC c = false) :
    hasThreeAlpha (c :: l) = hasThreeAlpha l := by
  cases l with
  | nil => rfl
  | cons y r =>
    cases r with
    | nil => rfl
    | cons z s =>
      show ((isAlphaC c && isAlphaC y && isAlphaC z) || hasThreeAlpha (y :: z :: s))
        = hasThreeAlpha (y :: z :: s)
      rw [hc]
      rfl

theorem hasThreeAlpha_cons_of (c : Char) (l : Str) (h : hasThreeAlpha l = true) :
    hasThreeAlpha (c :: l) = true := by
  cases l with
  | nil => exact Bool.noConfusion h
  | cons y r =>
    cases r with
    | nil => exact Bool.noConfusion h
    | cons z s =>
      show ((isAlphaC c && isAlphaC y && isAlphaC z) || hasThreeAlpha (y :: z :: s)) = true
      rw [h, Bool.or_true]

theorem hasThreeAlpha_digits_run (b l : Str) (hb : ∀ x ∈ b, isDigitC x = true) :
    hasThreeAlpha (b ++ l) = hasThreeAlpha l := by
  induction b with
  | nil => rfl
  | cons c r ih =>
    rw [List.cons_append,
      hasThreeAlpha_cons_nonalpha c (r ++ l)
        (digit_not_alpha c (hb c (List.mem_cons_self c r))),
      ih (fun x hx => hb x (List.mem_cons_of_mem c hx))]

theorem hasThreeAlpha_false_of_nonalpha (l : Str) (h : ∀ c ∈ l, isAlphaC c = false) :
    hasThreeAlpha l = false := by
  induction l with
  | nil => rfl
  | cons c r ih =>
    rw [hasThreeAlpha_cons_nonalpha c r (h c (List.mem_cons_self c r))]
    exact ih (fun x hx => h x (List.mem_cons_of_mem c hx))

theorem containsTBD_hasThreeAlpha (l : Str)
    (h : containsSubL "TBD".data (l.map Char.toUpper) = true) :
    hasThreeAlpha l = true := by
  induction l with
  | nil => exact absurd h (by decide)
  | cons c r ih =>
    rw [List.map_cons, containsSubL_cons, Bool.or_eq_true] at h
    rcases h with h | h
    · obtain ⟨v, hv⟩ := isPrefixOf_decomp _ _ h
      have hv2 : Char.toUpper c :: r.map Char.toUpper = 'T' :: 'B' :: 'D' :: v := hv
      injection hv2 with hT hrest
      cases r with
      | nil => nomatch hrest
      | cons y r2 =>
        rw [List.map_cons] at hrest
        injection hrest with hB hrest2
        cases r2 with
        | nil => nomatch hrest2
        | cons z r3 =>
          rw [List.map_cons] at hrest2
          injection hrest2 with hD _
          have hca : isAlphaC c = true :=
            alpha_of_toUpper_alpha c (by rw [hT]; decide)
          have hya : isAlphaC y = true :=
            alpha_of_toUpper_alpha y (by rw [hB]; decide)
          have hza : isAlphaC z = true :=
            alpha_of_toUpper_alpha z (by rw [hD]; decide)
          show ((isAlphaC c && isAlphaC y && isAlphaC z) || hasThreeAlpha (y :: z :: r3))
            = true
          rw [hca, hya, hza]
          rfl
    · exact hasThreeAlpha_cons_of c r (ih h)

theorem containsTBD_zoneX (X A : Str) (hX : ∀ c ∈ X, isAlphaC c = false)
    (h : containsSubL "TBD".data ((X ++ A).map Char.toUpper) = true) :
    containsSubL "TBD".data (A.map Char.toUpper) = true := by
  induction X with
  | nil => simpa using h
  | cons x r ih =>
    rw [List.cons_append, List.map_cons, containsSubL_cons, Bool.or_eq_true] at h
    rcases h with h | h
    · exfalso
      obtain ⟨v, hv⟩ := isPrefixOf_decomp _ _ h
      have hv2 : Char.toUpper x :: (r ++ A).map Char.toUpper = 'T' :: 'B' :: 'D' :: v := hv
      injection hv2 with hT _
      have : isAlphaC x = true := alpha_of_toUpper_alpha x (by rw [hT]; decide)
      rw [hX x (List.mem_cons_self x r)] at this
      exact Bool.noConfusion this
    · exact ih (fun c hc => hX c (List.mem_cons_of_mem x hc)) h

theorem containsTBD_zoneY (Y : Str) (hY : ∀ c ∈ Y, isAlphaC c = false) :
    ∀ (A : Str), containsSubL "TBD".data ((A ++ Y).map Char.toUpper) = true →
      containsSubL "TBD".data (A.map Char.toUpper) = true := by
  intro A
  induction A with
  | nil =>
    intro h
    exfalso
    rw [List.nil_append] at h
    have h3 := containsTBD_hasThreeAlpha Y h
    rw [hasThreeAlpha_false_of_nonalpha Y hY] at h3
    exact Bool.noConfusion h3
  | cons a r ih =>
    intro h
    rw [List.cons_append, List.map_cons, containsSubL_cons, Bool.or_eq_true] at h
    rw [List.map_cons, containsSubL_cons]
    rcases h with h | h
    · obtain ⟨v, hv⟩ := isPrefixOf_decomp _ _ h
      have hv2 : Char.toUpper a :: (r ++ Y).map Char.toUpper = 'T' :: 'B' :: 'D' :: v := hv
      injection hv2 with hT hrest
      cases r with
      | nil =>
        exfalso
        rw [List.nil_append] at hrest
        cases Y with
        | nil => nomatch hrest
        | cons y ys =>
          rw [List.map_cons] at hrest
          injection hrest with hB _
          have : isAlphaC y = true := alpha_of_toUpper_alpha y (by rw [hB]; decide)
          rw [hY y (List.mem_cons_self y ys)] at this
          exact Bool.noConfusion this
      | cons r1 r2 =>
        rw [List.cons_append, List.map_cons] at hrest
        injection hrest with hB hrest2
        cases r2 with
        | nil =>
          exfalso
          rw [List.nil_append] at hrest2
          cases Y with
          | nil => nomatch hrest2
          | cons y ys =>
            rw [List.map_cons] at hrest2
            injection hrest2 with hD _
            have : isAlphaC y = true := alpha_of_toUpper_alpha y (by rw [hD]; decide)
            rw [hY y (List.mem_cons_self y ys)] at this
            exact Bool.noConfusion this
        | cons r2h r3 =>
          rw [List.cons_append, List.map_cons] at hrest2
          injection hrest2 with hD _
          have hpre : ("TBD".data).isPrefixOf
              (Char.toUpper a :: Char.toUpper r1 :: Char.toUpper r2h ::
                (r3.map Char.toUpper)) = true := by
            rw [hT, hB, hD]
            simp [List.isPrefixOf]
          rw [List.map_cons, List.map_cons, hpre]
          rfl
    · rw [ih h, Bool.or_true]

theorem undetermined_eq_false_iff (l : Str) :
    undetermined l = false ↔ containsSubL "未定".data l = false ∧ l.isEmpty = false ∧
      containsSubL "TBD".data (l.map Char.toUpper) = false := by
  simp only [undetermined, Bool.or_eq_false_iff]
  tauto

theorem mizutei_false_of_clean (l : Str) (h : ∀ c ∈ l, isOutChar c = true) :
    containsSubL "未定".data l = false := by
  cases hc : containsSubL "未定".data l
  · rfl
  · exfalso
    obtain ⟨u, v, huv⟩ := containsSub_decomp _ l hc
    have hmem : '未' ∈ l := by
      rw [huv]
      exact List.mem_append_left v (List.mem_append_right u (by decide))
    exact absurd (h '未' hmem) (by decide)

theorem isEmpty_false_of_ne (l : Str) (h : l ≠ []) : l.isEmpty = false := by
  cases l with
  | nil => exact absurd rfl h
  | cons c r => rfl

theorem undet_false_of_shape (l : Str) (hclean : ∀ c ∈ l, isOutChar c = true)
    (hne : l ≠ []) (h3 : hasThreeAlpha l = false) : undetermined l = false := by
  rw [undetermined_eq_false_iff]
  refine ⟨mizutei_false_of_clean l hclean, isEmpty_false_of_ne l hne, ?_⟩
  cases hc : containsSubL "TBD".data (l.map Char.toUpper)
  · rfl
  · exfalso
    have := containsTBD_hasThreeAlpha l hc
    rw [h3] at this
    exact Bool.noConfusion this

/-! ### Matcher soundness: every successful match decomposes the input
(claims C2, C8) -/

theorem atEnd_cases (l : Str) (h : atEnd l = true) : l = [] ∨ l = ['\n'] := by
  simp only [atEnd, Bool.or_eq_true, List.isEmpty_iff, beq_iff_eq] at h
  exact h

theorem ne_nil_of_not_isEmpty (l : Str) (h : ¬ l.isEmpty = true) : l ≠ [] := by
  intro he
  subst he
  exact h rfl

theorem matchShort3_sound (l : Str) (b d : Str) (suf : Option Char)
    (h : matchShort3 l = some (b, d, suf)) :
    (∀ x ∈ b, isDigitC x = true) ∧ b ≠ [] ∧ (∀ x ∈ d, isDigitC x = true) ∧
    d.length = 3 ∧ (∀ c, suf = some c → isAlphaC c = true) ∧
    ∃ nl, l = b ++ '-' :: d ++ suf.toList ++ nl ∧ (nl = [] ∨ nl = ['\n']) := by
  have hsplit := List.takeWhile_append_dropWhile isDigitC l
  simp only [matchShort3] at h
  split at h
  · exact absurd h (by simp)
  · rename_i hbne
    have hbd : ∀ x ∈ l.takeWhile isDigitC, isDigitC x = true :=
      fun x hx => List.mem_takeWhile_imp hx
    have hbn : l.takeWhile isDigitC ≠ [] := ne_nil_of_not_isEmpty _ hbne
    split at h
    · rename_i c1 c2 c3 rest heq
      split at h
      · rename_i hdig
        rw [Bool.and_eq_true, Bool.and_eq_true] at hdig
        obtain ⟨⟨hd1, hd2⟩, hd3⟩ := hdig
        have hmemd : ∀ x ∈ [c1, c2, c3], isDigitC x = true := by
          intro x hx
          simp only [List.mem_cons, List.not_mem_nil, or_false] at hx
          rcases hx with h4 | h4 | h4 <;> (subst h4; assumption)
        split at h
        · simp only [Option.some.injEq, Prod.mk.injEq] at h
          obtain ⟨h1, h2, h3⟩ := h
          subst h1; subst h2; subst h3
          have hl : l = List.takeWhile isDigitC l ++ ['-', c1, c2, c3] := by
            rw [← heq, hsplit]
          exact ⟨hbd, hbn, hmemd, rfl, fun c hc => Option.noConfusion hc,
            [], hl.trans (by simp), Or.inl rfl⟩
        · simp only [Option.some.injEq, Prod.mk.injEq] at h
          obtain ⟨h1, h2, h3⟩ := h
          subst h1; subst h2; subst h3
          have hl : l = List.takeWhile isDigitC l ++ ['-', c1, c2, c3, '\n'] := by
            rw [← heq, hsplit]
          exact ⟨hbd, hbn, hmemd, rfl, fun c hc => Option.noConfusion hc,
            ['\n'], hl.trans (by simp), Or.inr rfl⟩
        · rename_i ch tl hov
          split at h
          · rename_i hca
            rw [Bool.and_eq_true] at hca
            obtain ⟨hca1, hca2⟩ := hca
            simp only [Option.some.injEq, Prod.mk.injEq] at h
            obtain ⟨h1, h2, h3⟩ := h
            subst h1; subst h2; subst h3
            have hl : l = List.takeWhile isDigitC l ++
                '-' :: c1 :: c2 :: c3 :: ch :: tl := by
              rw [← heq, hsplit]
            refine ⟨hbd, hbn, hmemd, rfl, ?_, tl, hl.trans (by simp),
              atEnd_cases tl hca2⟩
            intro c hc
            injection hc with he
            rw [← he]
            exact hca1
          · exact absurd h (by simp)
      · exact absurd h (by simp)
    · exact absurd h (by simp)

theorem matchShort_sound (l : Str) (b n : Str)
    (h : matchShort l = some (b, n)) :
    (∀ x ∈ b, isDigitC x = true) ∧ b ≠ [] ∧ (∀ x ∈ n, isDigitC x = true) ∧
    (n.length = 1 ∨ n.length = 2) ∧
    ∃ nl, l = b ++ '-' :: n ++ nl ∧ (nl = [] ∨ nl = ['\n']) := by
  have hsplit := List.takeWhile_append_dropWhile isDigitC l
  simp only [matchShort] at h
  split at h
  · exact absurd h (by simp)
  · rename_i hbne
    have hbd : ∀ x ∈ l.takeWhile isDigitC, isDigitC x = true :=
      fun x hx => List.mem_takeWhile_imp hx
    have hbn : l.takeWhile isDigitC ≠ [] := ne_nil_of_not_isEmpty _ hbne
    split at h
    · rename_i r1 heq
      split at h
      · rename_i hc
        rw [Bool.and_eq_true] at hc
        obtain ⟨hlen, hend⟩ := hc
        simp only [Bool.or_eq_true, decide_eq_true_eq] at hlen
        simp only [Option.some.injEq, Prod.mk.injEq] at h
        obtain ⟨h1, h2⟩ := h
        subst h1; subst h2
        have hr1 := List.takeWhile_append_dropWhile isDigitC r1
        have hl : l = List.takeWhile isDigitC l ++ '-' ::
            (r1.takeWhile isDigitC ++ r1.dropWhile isDigitC) := by
          rw [hr1, ← heq, hsplit]
        refine ⟨hbd, hbn, fun x hx => List.mem_takeWhile_imp hx, hlen,
          r1.dropWhile isDigitC, hl.trans (by simp), atEnd_cases _ hend⟩
      · exact absurd h (by simp)
    · exact absurd h (by simp)

theorem matchPCEn_sound (l : Str) (b : Str) (c : Char)
    (h : matchPCEn l = some (b, c)) :
    (∀ x ∈ b, isDigitC x = true) ∧ b ≠ [] ∧ isAlphaC c = true ∧
    ∃ f nl, (∀ x ∈ f, isDigitC x = true) ∧ f ≠ [] ∧
      l = b ++ '-' :: f ++ ['F', '-', c] ++ nl ∧ (nl = [] ∨ nl = ['\n']) := by
  have hsplit := List.takeWhile_append_dropWhile isDigitC l
  simp only [matchPCEn] at h
  split at h
  · exact absurd h (by simp)
  · rename_i hbne
    have hbd : ∀ x ∈ l.takeWhile isDigitC, isDigitC x = true :=
      fun x hx => List.mem_takeWhile_imp hx
    have hbn : l.takeWhile isDigitC ≠ [] := ne_nil_of_not_isEmpty _ hbne
    split at h
    · rename_i r1 heq
      split at h
      · exact absurd h (by simp)
      · rename_i hfne
        split at h
        · rename_i ch rest heq2
          split at h
          · rename_i hca
            rw [Bool.and_eq_true] at hca
            obtain ⟨hca1, hca2⟩ := hca
            simp only [Option.some.injEq, Prod.mk.injEq] at h
            obtain ⟨h1, h2⟩ := h
            subst h1; subst h2
            have hr1 := List.takeWhile_append_dropWhile isDigitC r1
            have hl : l = List.takeWhile isDigitC l ++ '-' ::
                (r1.takeWhile isDigitC ++ ('F' :: '-' :: ch :: rest)) := by
              rw [← heq2, hr1, ← heq, hsplit]
            exact ⟨hbd, hbn, hca1, r1.takeWhile isDigitC, rest,
              fun x hx => List.mem_takeWhile_imp hx,
              ne_nil_of_not_isEmpty _ hfne, hl.trans (by simp),
              atEnd_cases rest hca2⟩
          · exact absurd h (by simp)
        · exact absurd h (by simp)
    · exact absurd h (by simp)

theorem matchCanon1_sound (l : Str) (h : matchCanon1 l = true) :
    ∃ b A c1 c2 c3 c4 nl, (∀ x ∈ b, isDigitC x = true) ∧ b ≠ [] ∧
      (∀ x ∈ A, isAlphaC x = true) ∧
      isDigitC c1 = true ∧ isDigitC c2 = true ∧ isDigitC c3 = true ∧
      isDigitC c4 = true ∧
      l = b ++ A ++ ['-', c1, c2, '-', c3, c4] ++ nl ∧ (nl = [] ∨ nl = ['\n']) := by
  have hsplit := List.takeWhile_append_dropWhile isDigitC l
  have hsplit2 := List.takeWhile_append_dropWhile isAlphaC (l.dropWhile isDigitC)
  simp only [matchCanon1] at h
  split at h
  · exact absurd h (by simp)
  · rename_i hbne
    split at h
    · rename_i x1 x2 x3 x4 rest heq
      rw [Bool.and_eq_true, Bool.and_eq_true, Bool.and_eq_true, Bool.and_eq_true] at h
      obtain ⟨⟨⟨⟨hd1, hd2⟩, hd3⟩, hd4⟩, hend⟩ := h
      have hl : l = List.takeWhile isDigitC l ++
          ((l.dropWhile isDigitC).takeWhile isAlphaC ++
            ('-' :: x1 :: x2 :: '-' :: x3 :: x4 :: rest)) := by
        rw [← heq, hsplit2, hsplit]
      exact ⟨l.takeWhile isDigitC, (l.dropWhile isDigitC).takeWhile isAlphaC,
        x1, x2, x3, x4, rest,
        fun x hx => List.mem_takeWhile_imp hx,
        ne_nil_of_not_isEmpty _ hbne,
        fun x hx => List.mem_takeWhile_imp hx,
        hd1, hd2, hd3, hd4, hl.trans (by simp), atEnd_cases rest hend⟩
    · exact absurd h (by simp)

theorem matchCanon2_sound (l : Str) (h : matchCanon2 l = true) :
    ∃ b c nl, (∀ x ∈ b, isDigitC x = true) ∧ b ≠ [] ∧ isAlphaC c = true ∧
      l = b ++ ['P', 'C', '-', c] ++ nl ∧ (nl = [] ∨ nl = ['\n']) := by
  have hsplit := List.takeWhile_append_dropWhile isDigitC l
  simp only [matchCanon2] at h
  split at h
  · exact absurd h (by simp)
  · rename_i hbne
    split at h
    · rename_i ch rest heq
      rw [Bool.and_eq_true] at h
      obtain ⟨hca, hend⟩ := h
      have hl : l = List.takeWhile isDigitC l ++ ('P' :: 'C' :: '-' :: ch :: rest) := by
        rw [← heq, hsplit]
      exact ⟨l.takeWhile isDigitC, ch, rest,
        fun x hx => List.mem_takeWhile_imp hx,
        ne_nil_of_not_isEmpty _ hbne, hca, hl.trans (by simp),
        atEnd_cases rest hend⟩
    · exact absurd h (by simp)

theorem matchCanon3_sound (l : Str) (h : matchCanon3 l = true) :
    ∃ b x1 x2 nl, (∀ x ∈ b, isDigitC x = true) ∧ b ≠ [] ∧
      isDigitC x1 = true ∧ isDigitC x2 = true ∧
      l = b ++ ['-', 'B', x1, x2] ++ nl ∧ (nl = [] ∨ nl = ['\n']) := by
  have hsplit := List.takeWhile_append_dropWhile isDigitC l
  simp only [matchCanon3] at h
  split at h
  · exact absurd h (by simp)
  · rename_i hbne
    split at h
    · rename_i x1 x2 rest heq
      rw [Bool.and_eq_true, Bool.and_eq_true] at h
      obtain ⟨⟨hd1, hd2⟩, hend⟩ := h
      have hl : l = List.takeWhile isDigitC l ++ ('-' :: 'B' :: x1 :: x2 :: rest) := by
        rw [← heq, hsplit]
      exact ⟨l.takeWhile isDigitC, x1, x2, rest,
        fun x hx => List.mem_takeWhile_imp hx,
        ne_nil_of_not_isEmpty _ hbne, hd1, hd2, hl.trans (by simp),
        atEnd_cases rest hend⟩
    · exact absurd h (by simp)

theorem matchFull_sound (l : Str) (bld f r : Str)
    (h : matchFull l = some (bld, f, r)) :
    ∃ b A nl, bld = b ++ A ∧ (∀ x ∈ b, isDigitC x = true) ∧ b ≠ [] ∧
      (∀ x ∈ A, isAlphaC x = true) ∧
      (∀ x ∈ f, isDigitC x = true) ∧ f ≠ [] ∧
      (∀ x ∈ r, isDigitC x = true) ∧ r ≠ [] ∧
      l = b ++ A ++ '-' :: f ++ '-' :: r ++ nl ∧ (nl = [] ∨ nl = ['\n']) := by
  have hsplit := List.takeWhile_append_dropWhile isDigitC l
  have hsplit2 := List.takeWhile_append_dropWhile isAlphaC (l.dropWhile isDigitC)
  simp only [matchFull] at h
  split at h
  · exact absurd h (by simp)
  · rename_i hbne
    split at h
    · rename_i r2 heq
      split at h
      · exact absurd h (by simp)
      · rename_i hfne
        split at h
        · rename_i r3 heq2
          split at h
          · rename_i hcond
            rw [Bool.and_eq_true] at hcond
            obtain ⟨hrne, hend⟩ := hcond
            rw [Bool.not_eq_true'] at hrne
            simp only [Option.some.injEq, Prod.mk.injEq] at h
            obtain ⟨h1, h2, h3⟩ := h
            subst h1; subst h2; subst h3
            have hr2 := List.takeWhile_append_dropWhile isDigitC r2
            have hr3 := List.takeWhile_append_dropWhile isDigitC r3
            have hl : l = List.takeWhile isDigitC l ++
                ((l.dropWhile isDigitC).takeWhile isAlphaC ++
                  ('-' :: (r2.takeWhile isDigitC ++
                    ('-' :: (r3.takeWhile isDigitC ++ r3.dropWhile isDigitC))))) := by
              rw [hr3, ← heq2, hr2, ← heq, hsplit2, hsplit]
            refine ⟨l.takeWhile isDigitC, (l.dropWhile isDigitC).takeWhile isAlphaC,
              r3.dropWhile isDigitC, rfl,
              fun x hx => List.mem_takeWhile_imp hx,
              ne_nil_of_not_isEmpty _ hbne,
              fun x hx => List.mem_takeWhile_imp hx,
              fun x hx => List.mem_takeWhile_imp hx,
              ne_nil_of_not_isEmpty _ hfne,
              fun x hx => List.mem_takeWhile_imp hx,
              ?_, hl.trans (by simp), atEnd_cases _ hend⟩
            intro hr
            rw [hr] at hrne
            exact absurd hrne (by simp)
          · exact absurd h (by simp)
        · exact absurd h (by simp)
    · exact absurd h (by simp)

theorem matchBase_sound (l : Str) (base : Str)
    (h : matchBase l = some base) :
    ∃ b A c1 c2 c3 c4 tail nl,
      base = b ++ A ++ ['-', c1, c2, '-', c3, c4] ∧
      (∀ x ∈ b, isDigitC x = true) ∧ b ≠ [] ∧
      (∀ x ∈ A, isAlphaC x = true) ∧
      isDigitC c1 = true ∧ isDigitC c2 = true ∧ isDigitC c3 = true ∧
      isDigitC c4 = true ∧
      l = (b ++ A ++ ['-', c1, c2, '-', c3, c4] ++ tail) ++ nl ∧
      (tail = [] ∨ ∃ nn, (∀ x ∈ nn, isDigitC x = true) ∧ nn ≠ [] ∧
        tail = '-' :: nn) ∧
      (nl = [] ∨ nl = ['\n']) := by
  have hsplit := List.takeWhile_append_dropWhile isDigitC l
  have hsplit2 := List.takeWhile_append_dropWhile isAlphaC (l.dropWhile isDigitC)
  simp only [matchBase] at h
  split at h
  · exact absurd h (by simp)
  · rename_i hbne
    split at h
    · rename_i x1 x2 x3 x4 rest heq
      split at h
      · rename_i hdig
        rw [Bool.and_eq_true, Bool.and_eq_true, Bool.and_eq_true] at hdig
        obtain ⟨⟨⟨hd1, hd2⟩, hd3⟩, hd4⟩ := hdig
        have hl : l = List.takeWhile isDigitC l ++
            ((l.dropWhile isDigitC).takeWhile isAlphaC ++
              ('-' :: x1 :: x2 :: '-' :: x3 :: x4 :: rest)) := by
          rw [← heq, hsplit2, hsplit]
        split at h
        · rename_i hend
          injection h with h1
          subst h1
          rcases atEnd_cases rest hend with he | he <;> subst he
          · exact ⟨l.takeWhile isDigitC, (l.dropWhile isDigitC).takeWhile isAlphaC,
              x1, x2, x3, x4, [], [], by simp,
              fun x hx => List.mem_takeWhile_imp hx,
              ne_nil_of_not_isEmpty _ hbne,
              fun x hx => List.mem_takeWhile_imp hx,
              hd1, hd2, hd3, hd4, hl.trans (by simp), Or.inl rfl, Or.inl rfl⟩
          · exact ⟨l.takeWhile isDigitC, (l.dropWhile isDigitC).takeWhile isAlphaC,
              x1, x2, x3, x4, [], ['\n'], by simp,
              fun x hx => List.mem_takeWhile_imp hx,
              ne_nil_of_not_isEmpty _ hbne,
              fun x hx => List.mem_takeWhile_imp hx,
              hd1, hd2, hd3, hd4, hl.trans (by simp), Or.inl rfl, Or.inr rfl⟩
        · split at h
          · rename_i r2 heq2
            split at h
            · rename_i hcond
              rw [Bool.and_eq_true] at hcond
              obtain ⟨hnne, hend2⟩ := hcond
              rw [Bool.not_eq_true'] at hnne
              injection h with h1
              subst h1
              have hr2 := List.takeWhile_append_dropWhile isDigitC r2
              refine ⟨l.takeWhile isDigitC, (l.dropWhile isDigitC).takeWhile isAlphaC,
                x1, x2, x3, x4, '-' :: r2.takeWhile isDigitC, r2.dropWhile isDigitC,
                by simp,
                fun x hx => List.mem_takeWhile_imp hx,
                ne_nil_of_not_isEmpty _ hbne,
                fun x hx => List.mem_takeWhile_imp hx,
                hd1, hd2, hd3, hd4, ?_,
                Or.inr ⟨r2.takeWhile isDigitC,
                  fun x hx => List.mem_takeWhile_imp hx, ?_, rfl⟩,
                atEnd_cases _ hend2⟩
              · have hl2 : l = List.takeWhile isDigitC l ++
                    ((l.dropWhile isDigitC).takeWhile isAlphaC ++
                      ('-' :: x1 :: x2 :: '-' :: x3 :: x4 :: '-' ::
                        (r2.takeWhile isDigitC ++ r2.dropWhile isDigitC))) := by
                  rw [hr2, ← heq, hsplit2, hsplit]
                exact hl2.trans (by simp)
              · intro hr
                rw [hr] at hnne
                exact absurd hnne (by simp)
            · exact absurd h (by simp)
          · exact absurd h (by simp)
      · exact absurd h (by simp)
    · exact absurd h (by simp)

theorem matchPCJa_sound (l : Str) (b : Str) (c : Char)
    (h : matchPCJa l = some (b, c)) :
    (∀ x ∈ b, isDigitC x = true) ∧ b ≠ [] ∧ isLetterJa c = true ∧
    ∃ ds mid, (∀ x ∈ ds, isDigitC x = true) ∧
      l = b ++ '号' :: '館' :: ds ++ mid ∧
      ((∃ t, mid = '階' :: '末' :: '端' :: '室' :: c :: t) ∨
       (∃ t, mid = '階' :: '末' :: '端' :: c :: t) ∨
       (∃ t, mid = '末' :: '端' :: '室' :: c :: t) ∨
       (∃ t, mid = '末' :: '端' :: c :: t)) := by
  have hsplit := List.takeWhile_append_dropWhile isDigitC l
  simp only [matchPCJa] at h
  split at h
  · exact absurd h (by simp)
  · rename_i hbne
    have hbd : ∀ x ∈ l.takeWhile isDigitC, isDigitC x = true :=
      fun x hx => List.mem_takeWhile_imp hx
    have hbn : l.takeWhile isDigitC ≠ [] := ne_nil_of_not_isEmpty _ hbne
    split at h
    · rename_i r2 heq
      have hr2 := List.takeWhile_append_dropWhile isDigitC r2
      have hl : l = List.takeWhile isDigitC l ++ '号' :: '館' ::
          (r2.takeWhile isDigitC ++ r2.dropWhile isDigitC) := by
        rw [hr2, ← heq, hsplit]
      have hds : ∀ x ∈ r2.takeWhile isDigitC, isDigitC x = true :=
        fun x hx => List.mem_takeWhile_imp hx
      split at h
      · rename_i r4v ch tl heq2
        split at h
        · rename_i hja
          simp only [Option.some.injEq, Prod.mk.injEq] at h
          obtain ⟨h1, h2⟩ := h
          subst h1; subst h2
          split at heq2
          · rename_i r3v t heq3
            subst heq2
            refine ⟨hbd, hbn, hja, r2.takeWhile isDigitC, r2.dropWhile isDigitC,
              hds, hl.trans (by simp), Or.inl ⟨tl, ?_⟩⟩
            rw [heq3]
          · rename_i r3v hov
            exact ⟨hbd, hbn, hja, r2.takeWhile isDigitC, r2.dropWhile isDigitC,
              hds, hl.trans (by simp), Or.inr (Or.inr (Or.inl ⟨tl, heq2⟩))⟩
        · split at h
          · rename_i hcond
            exact absurd hcond (by decide)
          · exact absurd h (by simp)
      · rename_i r4v ch tl hov0 heq2
        split at h
        · rename_i hja
          simp only [Option.some.injEq, Prod.mk.injEq] at h
          obtain ⟨h1, h2⟩ := h
          subst h1; subst h2
          split at heq2
          · rename_i r3v t heq3
            subst heq2
            refine ⟨hbd, hbn, hja, r2.takeWhile isDigitC, r2.dropWhile isDigitC,
              hds, hl.trans (by simp), Or.inr (Or.inl ⟨tl, ?_⟩)⟩
            rw [heq3]
          · rename_i r3v hov
            exact ⟨hbd, hbn, hja, r2.takeWhile isDigitC, r2.dropWhile isDigitC,
              hds, hl.trans (by simp), Or.inr (Or.inr (Or.inr ⟨tl, heq2⟩))⟩
        · exact absurd h (by simp)
      · exact absurd h (by simp)
    · exact absurd h (by simp)

/-! ### Cascade-step and matcher-core rewriting lemmas (claims C2, C8) -/

theorem bool_if_neg {α : Sort _} {c : Bool} (h : c = false) (x y : α) :
    (if c = true then x else y) = y := by
  rw [h]
  simp

theorem bool_if_pos {α : Sort _} {c : Bool} (h : c = true) (x y : α) :
    (if c = true then x else y) = x := by
  rw [h]
  simp

theorem list_beq_false (l1 l2 : Str) (h : l1 ≠ l2) : (l1 == l2) = false := by
  rw [beq_eq_false_iff_ne]
  exact h

theorem ne_of_mem_notmem (x : Char) (l1 l2 : Str) (h1 : x ∈ l1) (h2 : x ∉ l2) :
    l1 ≠ l2 := fun he => h2 (he ▸ h1)

theorem head_all_not (p : Char → Bool) (x : Char) (r : Str) (hx : p x = false) :
    ∀ y, ((x :: r) : Str).head? = some y → p y = false := by
  intro y hy
  injection hy with h2
  rw [← h2]
  exact hx

theorem head_append_alpha_not_digit (A : Str) (x : Char) (r : Str)
    (hA : ∀ y ∈ A, isAlphaC y = true) (hx : isDigitC x = false) :
    ∀ y, (A ++ x :: r).head? = some y → isDigitC y = false := by
  cases A with
  | nil => exact head_all_not isDigitC x r hx
  | cons a A2 =>
    intro y hy
    rw [List.cons_append, List.head?_cons] at hy
    injection hy with h2
    rw [← h2]
    exact alpha_not_digit a (hA a (List.mem_cons_self a A2))

theorem not_isEmpty_of_ne (l : Str) (h : l ≠ []) : ¬ (l.isEmpty = true) := by
  rw [isEmpty_false_of_ne l h]
  exact fun hc => Bool.noConfusion hc

theorem normRoomTail_to2 (s : Str) (h1 : s ≠ [])
    (h2 : (s == "61-102".data) = false) (h3 : matchPCEn s = none) :
    normRoomTail s = normRoomTail2 s := by
  simp only [normRoomTail]
  rw [bool_if_neg (isEmpty_false_of_ne s h1), bool_if_neg h2, h3]

theorem normRoomTail2_eq1 (s : Str) (hc1 : matchCanon1 s = true) :
    normRoomTail2 s = s := by
  simp only [normRoomTail2]
  rw [bool_if_pos hc1]

theorem normRoomTail2_eq2 (s : Str) (hc1 : matchCanon1 s = false)
    (hc2 : matchCanon2 s = true) : normRoomTail2 s = s := by
  simp only [normRoomTail2]
  rw [bool_if_neg hc1, bool_if_pos hc2]

theorem normRoomTail2_eq3 (s : Str) (hc1 : matchCanon1 s = false)
    (hc2 : matchCanon2 s = false) (hc3 : matchCanon3 s = true) :
    normRoomTail2 s = s := by
  simp only [normRoomTail2]
  rw [bool_if_neg hc1, bool_if_neg hc2, bool_if_pos hc3]

theorem normRoomTail2_to3 (s : Str) (hc1 : matchCanon1 s = false)
    (hc2 : matchCanon2 s = false) (hc3 : matchCanon3 s = false) :
    normRoomTail2 s = normRoomTail3 s := by
  simp only [normRoomTail2]
  rw [bool_if_neg hc1, bool_if_neg hc2, bool_if_neg hc3]

theorem normRoomTail3_full (s : Str) (bld f r : Str)
    (hf : matchFull s = some (bld, f, r)) :
    normRoomTail3 s = bld ++ '-' :: zfill2 f ++ '-' :: zfill2 r := by
  simp only [normRoomTail3]
  rw [hf]

theorem normRoomTail3_base (s : Str) (base : Str) (hf : matchFull s = none)
    (hb : matchBase s = some base) : normRoomTail3 s = base := by
  simp only [normRoomTail3]
  rw [hf, hb]

theorem normRoomTail3_short3 (s : Str) (b d : Str) (suf : Option Char)
    (hf : matchFull s = none) (hb : matchBase s = none)
    (hs : matchShort3 s = some (b, d, suf)) (h63 : (b == "63".data) = false) :
    normRoomTail3 s = b ++ '-' :: d ++ (suf.map Char.toUpper).toList := by
  simp only [normRoomTail3]
  rw [hf, hb, hs]
  rcases suf with _ | c
  · show (if (b == "63".data) = true then
        b ++ '-' :: zfill2 (d.take 1) ++ '-' :: d.drop 1
      else b ++ '-' :: d ++ []) = b ++ '-' :: d ++ (Option.map Char.toUpper none).toList
    rw [bool_if_neg h63]
    rfl
  · show (if (b == "63".data) = true then
        b ++ '-' :: zfill2 (d.take 1) ++ '-' :: d.drop 1
      else b ++ '-' :: d ++ [Char.toUpper c]) =
        b ++ '-' :: d ++ (Option.map Char.toUpper (some c)).toList
    rw [bool_if_neg h63]
    rfl

theorem normRoomTail3_short3_63 (s : Str) (d : Str) (suf : Option Char)
    (hf : matchFull s = none) (hb : matchBase s = none)
    (hs : matchShort3 s = some ("63".data, d, suf)) :
    normRoomTail3 s = "63".data ++ '-' :: zfill2 (d.take 1) ++ '-' :: d.drop 1 := by
  simp only [normRoomTail3]
  rw [hf, hb, hs]
  rfl

theorem normRoomTail3_short (s : Str) (b n : Str)
    (hf : matchFull s = none) (hb : matchBase s = none)
    (hs3 : matchShort3 s = none) (hs : matchShort s = some (b, n)) :
    normRoomTail3 s = b ++ '-' :: zfill2 n := by
  simp only [normRoomTail3]
  rw [hf, hb, hs3, hs]

theorem matchPCEn_none_head (s : Str)
    (h : ∀ x, (s.dropWhile isDigitC).head? = some x → x ≠ '-') :
    matchPCEn s = none := by
  simp only [matchPCEn]
  by_cases hb : (s.takeWhile isDigitC).isEmpty = true
  · rw [if_pos hb]
  · rw [if_neg hb]
    rcases hd : s.dropWhile isDigitC with _ | ⟨x, r⟩
    · rfl
    · have hx := h x (by rw [hd]; rfl)
      split
      · rename_i heq
        injection heq with h1 _
        exact absurd h1 hx
      · rfl

theorem matchPCEn_core2 (s T : Str) (hd : s.dropWhile isDigitC = T)
    (hbne : ¬ ((s.takeWhile isDigitC).isEmpty = true)) :
    matchPCEn s = pcEnBody (s.takeWhile isDigitC) T := by
  subst hd
  simp only [matchPCEn]
  rw [if_neg hbne]
  rfl

theorem matchCanon1_core (s T : Str)
    (hdd : (s.dropWhile isDigitC).dropWhile isAlphaC = T)
    (hbne : ¬ ((s.takeWhile isDigitC).isEmpty = true)) :
    matchCanon1 s = canon1Body T := by
  subst hdd
  simp only [matchCanon1]
  rw [if_neg hbne]
  rfl

theorem matchCanon2_core (s T : Str) (hd : s.dropWhile isDigitC = T)
    (hbne : ¬ ((s.takeWhile isDigitC).isEmpty = true)) :
    matchCanon2 s = canon2Body T := by
  subst hd
  simp only [matchCanon2]
  rw [if_neg hbne]
  rfl

theorem matchCanon3_core (s T : Str) (hd : s.dropWhile isDigitC = T)
    (hbne : ¬ ((s.takeWhile isDigitC).isEmpty = true)) :
    matchCanon3 s = canon3Body T := by
  subst hd
  simp only [matchCanon3]
  rw [if_neg hbne]
  rfl

theorem matchFull_core (s T : Str)
    (hdd : (s.dropWhile isDigitC).dropWhile isAlphaC = T)
    (hbne : ¬ ((s.takeWhile isDigitC).isEmpty = true)) :
    matchFull s =
      fullBody (s.takeWhile isDigitC ++ (s.dropWhile isDigitC).takeWhile isAlphaC) T := by
  subst hdd
  simp only [matchFull]
  rw [if_neg hbne]
  rfl

theorem matchBase_core (s T : Str)
    (hdd : (s.dropWhile isDigitC).dropWhile isAlphaC = T)
    (hbne : ¬ ((s.takeWhile isDigitC).isEmpty = true)) :
    matchBase s =
      baseBody (s.takeWhile isDigitC ++ (s.dropWhile isDigitC).takeWhile isAlphaC) T := by
  subst hdd
  simp only [matchBase]
  rw [if_neg hbne]
  rfl

theorem matchShort3_core (s T : Str) (hd : s.dropWhile isDigitC = T)
    (hbne : ¬ ((s.takeWhile isDigitC).isEmpty = true)) :
    matchShort3 s = short3Body (s.takeWhile isDigitC) T := by
  subst hd
  simp only [matchShort3]
  rw [if_neg hbne]
  rfl

theorem matchShort_core (s T : Str) (hd : s.dropWhile isDigitC = T)
    (hbne : ¬ ((s.takeWhile isDigitC).isEmpty = true)) :
    matchShort s = shortBody (s.takeWhile isDigitC) T := by
  subst hd
  simp only [matchShort]
  rw [if_neg hbne]
  rfl

/-! ### Idempotence infrastructure (claim C8): zfill2 algebra, the campus
alias, and the first normalisation pass on clean cores -/

theorem normRoomL_nil : normRoomL [] = [] := by decide

theorem takeWhile_all (p : Char → Bool) (l : Str) (h : ∀ x ∈ l, p x = true) :
    l.takeWhile p = l := by
  have := takeWhile_append_all p l [] h (fun x hx => nomatch hx)
  rwa [List.append_nil] at this

theorem dropWhile_all (p : Char → Bool) (l : Str) (h : ∀ x ∈ l, p x = true) :
    l.dropWhile p = [] := by
  have := dropWhile_append_all p l [] h (fun x hx => nomatch hx)
  rwa [List.append_nil] at this

theorem head_append_alpha_or (A : Str) (x : Char) (r : Str)
    (hA : ∀ y ∈ A, isAlphaC y = true) :
    ∀ y, (A ++ x :: r).head? = some y → isAlphaC y = true ∨ y = x := by
  cases A with
  | nil =>
    intro y hy
    injection hy with h2
    exact Or.inr h2.symm
  | cons a A2 =>
    intro y hy
    injection hy with h2
    exact Or.inl (h2 ▸ hA a (List.mem_cons_self a A2))

theorem zfill2_len2 (l : Str) (h : l.length = 2) : zfill2 l = l := by
  rw [zfill2, if_pos (le_of_eq h.symm)]

theorem zfill2_length (l : Str) : 2 ≤ (zfill2 l).length := by
  rw [zfill2]
  by_cases h : 2 ≤ l.length
  · rwa [if_pos h]
  · rw [if_neg h, List.length_append, List.length_replicate]
    omega

theorem zfill2_of_le (l : Str) (h : 2 ≤ l.length) : zfill2 l = l := by
  rw [zfill2, if_pos h]

theorem zfill2_idem (l : Str) : zfill2 (zfill2 l) = zfill2 l :=
  zfill2_of_le (zfill2 l) (zfill2_length l)

theorem zfill2_digits (l : Str) (h : ∀ x ∈ l, isDigitC x = true) :
    ∀ x ∈ zfill2 l, isDigitC x = true := by
  intro x hx
  rw [zfill2] at hx
  by_cases hc : 2 ≤ l.length
  · rw [if_pos hc] at hx
    exact h x hx
  · rw [if_neg hc] at hx
    rcases List.mem_append.mp hx with hm | hm
    · rw [List.eq_of_mem_replicate hm]
      decide
    · exact h x hm

theorem zfill2_ne (l : Str) : zfill2 l ≠ [] := by
  intro he
  have := zfill2_length l
  rw [he] at this
  exact absurd this (by decide)

theorem alias_chars_not_alpha : ∀ x ∈ ("61-102".data : Str), isAlphaC x = false := by
  decide

theorem eq_alias_decomp (b X : Str) (hb : ∀ x ∈ b, isDigitC x = true)
    (hX : ∀ x, X.head? = some x → isDigitC x = false)
    (he : b ++ X = "61-102".data) :
    b = ['6', '1'] ∧ X = ['-', '1', '0', '2'] := by
  have ht := congrArg (List.takeWhile isDigitC) he
  have hd := congrArg (List.dropWhile isDigitC) he
  rw [takeWhile_append_all isDigitC b X hb hX] at ht
  rw [dropWhile_append_all isDigitC b X hb hX] at hd
  exact ⟨ht.trans (by decide), hd.trans (by decide)⟩

theorem undet_false_clean_tbd (l : Str) (hclean : ∀ c ∈ l, isOutChar c = true)
    (hne : l ≠ [])
    (htbd : containsSubL "TBD".data (l.map Char.toUpper) = false) :
    undetermined l = false := by
  rw [undetermined_eq_false_iff]
  exact ⟨mizutei_false_of_clean l hclean, isEmpty_false_of_ne l hne, htbd⟩

theorem firstPass (core nl : Str) (hclean : ∀ c ∈ core, isOutChar c = true)
    (hne : core ≠ []) (hnl : nl = [] ∨ nl = ['\n'])
    (hund : undetermined core = false) (hpcja : matchPCJa core = none) :
    normRoomL (core ++ nl) = normRoomTail core := by
  simp only [normRoomL]
  rw [cleanPipe core nl hclean hne hnl]
  rw [if_neg (by rw [hund]; exact fun h2 => Bool.noConfusion h2)]
  rw [hpcja, postCleanL_clean core hclean]

theorem firstPass_und (core nl : Str) (hclean : ∀ c ∈ core, isOutChar c = true)
    (hne : core ≠ []) (hnl : nl = [] ∨ nl = ['\n'])
    (hund : undetermined core = true) :
    normRoomL (core ++ nl) = [] := by
  simp only [normRoomL]
  rw [cleanPipe core nl hclean hne hnl]
  rw [if_pos hund]

theorem pcja_none_shape (b X : Str) (hb : ∀ x ∈ b, isDigitC x = true)
    (hXd : ∀ x, X.head? = some x → isDigitC x = false)
    (hXg : ∀ x, X.head? = some x → x ≠ '号') :
    matchPCJa (b ++ X) = none := by
  apply matchPCJa_none_head
  rw [dropWhile_append_all isDigitC b X hb hXd]
  exact hXg

/-! ### Evaluating the matcher bodies on the recognised shapes (claim C8) -/

theorem atEnd_cons_false (c : Char) (u : Str) (h : c ≠ '\n') :
    atEnd (c :: u) = false := by
  simp [atEnd, h]

theorem canon1Body_eval (c1 c2 c3 c4 : Char) (rest : Str) :
    canon1Body ('-' :: c1 :: c2 :: '-' :: c3 :: c4 :: rest) =
      (isDigitC c1 && isDigitC c2 && isDigitC c3 && isDigitC c4 && atEnd rest) := rfl

theorem canon1Body_three (x1 x2 x3 : Char) (u : Str) (h3 : isDigitC x3 = true) :
    canon1Body ('-' :: x1 :: x2 :: x3 :: u) = false := by
  unfold canon1Body
  split
  · rename_i heq
    injection heq with e0 heq; injection heq with e1 heq; injection heq with e2 heq
    injection heq with e3 heq
    rw [e3] at h3
    exact absurd h3 (by decide)
  · rfl

theorem canon1Body_short1 (n0 : Char) : canon1Body ('-' :: n0 :: []) = false := rfl

theorem canon1Body_short2 (n0 n1 : Char) :
    canon1Body ('-' :: n0 :: n1 :: []) = false := rfl

theorem canon2Body_dash (u : Str) : canon2Body ('-' :: u) = false := rfl

theorem canon2Body_one (a : Char) (u : Str) : canon2Body (a :: '-' :: u) = false := by
  unfold canon2Body
  split
  · rename_i heq
    injection heq with e0 heq; injection heq with e1 heq
    exact absurd e1 (by decide)
  · rfl

theorem canon2Body_two (a b : Char) (u : Str)
    (hu : ∀ x, u.head? = some x → isDigitC x = true) :
    canon2Body (a :: b :: '-' :: u) = false := by
  unfold canon2Body
  split
  · rename_i c rest heq
    injection heq with e0 heq; injection heq with e1 heq; injection heq with e2 heq
    have hd : isDigitC c = true := hu c (by rw [heq]; rfl)
    rw [digit_not_alpha c hd]
    rfl
  · rfl

theorem canon2Body_A (A : Str) (u : Str) (hA : ∀ y ∈ A, isAlphaC y = true)
    (hu : ∀ x, u.head? = some x → isDigitC x = true) :
    canon2Body (A ++ '-' :: u) = false := by
  match A with
  | [] => exact canon2Body_dash u
  | [a] => exact canon2Body_one a u
  | [a, b] => exact canon2Body_two a b u hu
  | a :: b :: c :: A3 =>
    show canon2Body (a :: b :: c :: (A3 ++ '-' :: u)) = false
    unfold canon2Body
    split
    · rename_i heq
      injection heq with e0 heq; injection heq with e1 heq; injection heq with e2 heq
      have hc : isAlphaC c = true :=
        hA c (List.mem_cons_of_mem a (List.mem_cons_of_mem b (List.mem_cons_self c A3)))
      rw [e2] at hc
      exact absurd hc (by decide)
    · rfl

theorem canon3Body_eval (x1 x2 : Char) (rest : Str) :
    canon3Body ('-' :: 'B' :: x1 :: x2 :: rest) =
      (isDigitC x1 && isDigitC x2 && atEnd rest) := rfl

theorem canon3Body_dash_nil : canon3Body ('-' :: []) = false := rfl

theorem canon3Body_digit (x : Char) (u : Str) (hx : isDigitC x = true) :
    canon3Body ('-' :: x :: u) = false := by
  unfold canon3Body
  split
  · rename_i heq
    injection heq with e0 heq; injection heq with e1 heq
    rw [e1] at hx
    exact absurd hx (by decide)
  · rfl

theorem canon3Body_A (a : Char) (A : Str) (u : Str) (ha : isAlphaC a = true) :
    canon3Body ((a :: A) ++ '-' :: u) = false := by
  show canon3Body (a :: (A ++ '-' :: u)) = false
  unfold canon3Body
  split
  · rename_i heq
    injection heq with e0 heq
    rw [e0] at ha
    exact absurd ha (by decide)
  · rfl

theorem pcEnTail_nil (b : Str) : pcEnTail b [] = none := rfl

theorem pcEnTail_dash (b : Str) (u : Str) : pcEnTail b ('-' :: u) = none := rfl

theorem pcEnTail_single (b : Str) (c : Char) (hc : isAlphaC c = true) :
    pcEnTail b [c] = none := by
  unfold pcEnTail
  split
  · rename_i heq
    injection heq with e0 heq
    exact absurd heq (by simp)
  · rfl

theorem pcEnTail_eval (b : Str) (c : Char) (rest : Str) :
    pcEnTail b ('F' :: '-' :: c :: rest) =
      (if isAlphaC c && atEnd rest then some (b, c) else none) := rfl

theorem pcEnBody_step (b r1 : Str) :
    pcEnBody b ('-' :: r1) =
      (if (r1.takeWhile isDigitC).isEmpty then none
       else pcEnTail b (r1.dropWhile isDigitC)) := rfl

theorem pcEnBody_B (b : Str) (u : Str) : pcEnBody b ('-' :: 'B' :: u) = none := rfl

theorem fullTail_nil (bld f : Str) : fullTail bld f [] = none := rfl

theorem fullTail_single (bld f : Str) (c : Char) (hc : isAlphaC c = true) :
    fullTail bld f [c] = none := by
  unfold fullTail
  split
  · rename_i heq
    injection heq with e0 heq
    rw [e0] at hc
    exact absurd hc (by decide)
  · rfl

theorem fullTail_step (bld f r3 : Str) :
    fullTail bld f ('-' :: r3) =
      (if !(r3.takeWhile isDigitC).isEmpty && atEnd (r3.dropWhile isDigitC) then
        some (bld, f, r3.takeWhile isDigitC)
      else none) := rfl

theorem fullBody_step (bld r2 : Str) :
    fullBody bld ('-' :: r2) =
      (if (r2.takeWhile isDigitC).isEmpty then none
       else fullTail bld (r2.takeWhile isDigitC) (r2.dropWhile isDigitC)) := rfl

theorem baseTail_step (base r2 : Str) :
    baseTail base ('-' :: r2) =
      (if !(r2.takeWhile isDigitC).isEmpty && atEnd (r2.dropWhile isDigitC) then
        some base
      else none) := rfl

theorem baseBody_eval (pre : Str) (c1 c2 c3 c4 : Char) (rest : Str) :
    baseBody pre ('-' :: c1 :: c2 :: '-' :: c3 :: c4 :: rest) =
      (if isDigitC c1 && isDigitC c2 && isDigitC c3 && isDigitC c4 then
        if atEnd rest then some (pre ++ '-' :: c1 :: c2 :: '-' :: c3 :: c4 :: [])
        else baseTail (pre ++ '-' :: c1 :: c2 :: '-' :: c3 :: c4 :: []) rest
      else none) := rfl

theorem baseBody_three (pre : Str) (x1 x2 x3 : Char) (u : Str)
    (h3 : isDigitC x3 = true) :
    baseBody pre ('-' :: x1 :: x2 :: x3 :: u) = none := by
  unfold baseBody
  split
  · rename_i heq
    injection heq with e0 heq; injection heq with e1 heq; injection heq with e2 heq
    injection heq with e3 heq
    rw [e3] at h3
    exact absurd h3 (by decide)
  · rfl

theorem baseBody_short1 (pre : Str) (n0 : Char) :
    baseBody pre ('-' :: n0 :: []) = none := rfl

theorem baseBody_short2 (pre : Str) (n0 n1 : Char) :
    baseBody pre ('-' :: n0 :: n1 :: []) = none := rfl

theorem short3Tail_nil (b d : Str) : short3Tail b d [] = some (b, d, none) := rfl

theorem short3Tail_single (b d : Str) (c : Char) (hc : isAlphaC c = true) :
    short3Tail b d [c] = some (b, d, some c) := by
  unfold short3Tail
  split
  · rename_i heq
    exact absurd heq (by simp)
  · rename_i heq
    injection heq with e0 heq
    rw [e0] at hc
    exact absurd hc (by decide)
  · rename_i c2 rest2 hov heq
    injection heq with e0 e1
    subst e0
    subst e1
    rw [bool_if_pos (by rw [hc]; rfl)]

theorem short3Body_eval (b : Str) (c1 c2 c3 : Char) (rest : Str) :
    short3Body b ('-' :: c1 :: c2 :: c3 :: rest) =
      (if isDigitC c1 && isDigitC c2 && isDigitC c3 then
        short3Tail b [c1, c2, c3] rest
      else none) := rfl

theorem short3Body_short1 (b : Str) (n0 : Char) :
    short3Body b ('-' :: n0 :: []) = none := rfl

theorem short3Body_short2 (b : Str) (n0 n1 : Char) :
    short3Body b ('-' :: n0 :: n1 :: []) = none := rfl

theorem shortBody_step (b r1 : Str) :
    shortBody b ('-' :: r1) =
      (if ((r1.takeWhile isDigitC).length = 1 || (r1.takeWhile isDigitC).length = 2)
          && atEnd (r1.dropWhile isDigitC) then
        some (b, r1.takeWhile isDigitC)
      else none) := rfl

/-! ### Clean-character and head-shape helpers for the cascade shapes -/

theorem clean_append (A B : Str) (hA : ∀ c ∈ A, isOutChar c = true)
    (hB : ∀ c ∈ B, isOutChar c = true) : ∀ c ∈ A ++ B, isOutChar c = true := by
  intro c hc
  rcases List.mem_append.mp hc with h | h
  · exact hA c h
  · exact hB c h

theorem clean_cons (x : Char) (A : Str) (hx : isOutChar x = true)
    (hA : ∀ c ∈ A, isOutChar c = true) : ∀ c ∈ x :: A, isOutChar c = true := by
  intro c hc
  rcases List.mem_cons.mp hc with h | h
  · exact h ▸ hx
  · exact hA c h

theorem clean_digits (A : Str) (h : ∀ x ∈ A, isDigitC x = true) :
    ∀ c ∈ A, isOutChar c = true := fun c hc => outChar_of_digit c (h c hc)

theorem clean_alphas (A : Str) (h : ∀ x ∈ A, isAlphaC x = true) :
    ∀ c ∈ A, isOutChar c = true := fun c hc => outChar_of_alpha c (h c hc)

theorem clean_nil : ∀ c ∈ ([] : Str), isOutChar c = true := fun c hc => nomatch hc

theorem append_ne_nil (A B : Str) (h : A ≠ []) : A ++ B ≠ [] := fun he =>
  h (List.append_eq_nil.mp he).1

theorem head_nondigit_alpha_dash (A r : Str) (hA : ∀ y ∈ A, isAlphaC y = true) :
    ∀ y, (A ++ '-' :: r).head? = some y → isDigitC y = false := by
  intro y hy
  rcases head_append_alpha_or A '-' r hA y hy with h | h
  · exact alpha_not_digit y h
  · subst h
    decide

theorem head_ne_kj_alpha_dash (A r : Str) (hA : ∀ y ∈ A, isAlphaC y = true) :
    ∀ y, (A ++ '-' :: r).head? = some y → y ≠ '号' := by
  intro y hy
  rcases head_append_alpha_or A '-' r hA y hy with h | h
  · intro he
    rw [he] at h
    exact absurd h (by decide)
  · subst h
    decide

theorem head_ne_dash_alpha (A : Str) (x : Char) (r : Str)
    (hA : ∀ y ∈ A, isAlphaC y = true) (hane : A ≠ []) :
    ∀ y, (A ++ x :: r).head? = some y → y ≠ '-' := by
  cases A with
  | nil => exact absurd rfl hane
  | cons a A2 =>
    intro y hy
    injection hy with h2
    intro he
    have ha := hA a (List.mem_cons_self a A2)
    rw [h2, he] at ha
    exact absurd ha (by decide)

theorem alias_beq_false_of_len (b X : Str) (hb : ∀ x ∈ b, isDigitC x = true)
    (hX : ∀ x, X.head? = some x → isDigitC x = false) (hlen : X.length ≠ 4) :
    ((b ++ X) == "61-102".data) = false := by
  apply list_beq_false
  intro he
  have h2 := (eq_alias_decomp b X hb hX he).2
  rw [h2] at hlen
  exact hlen rfl

theorem alias_beq_false_of_alpha_mem (L : Str) (c : Char) (hc : isAlphaC c = true)
    (hm : c ∈ L) : (L == "61-102".data) = false := by
  apply list_beq_false
  intro he
  rw [he] at hm
  rw [alias_chars_not_alpha c hm] at hc
  exact Bool.noConfusion hc

/-! ### The canonical output forms are fixed points of the cascade tail -/

theorem canon2Body_eval (c : Char) (rest : Str) :
    canon2Body ('P' :: 'C' :: '-' :: c :: rest) = (isAlphaC c && atEnd rest) := rfl

theorem pcform_tail (s b : Str) (C : Char) (hs : s = b ++ ('P' :: 'C' :: '-' :: C :: []))
    (hb : ∀ x ∈ b, isDigitC x = true) (hbne : b ≠ []) (hC : isAlphaC C = true) :
    normRoomTail s = s := by
  subst hs
  have hhead : ∀ y, (('P' :: 'C' :: '-' :: C :: []) : Str).head? = some y →
      isDigitC y = false := head_all_not isDigitC 'P' _ (by decide)
  have hdrop : (b ++ ('P' :: 'C' :: '-' :: C :: [])).dropWhile isDigitC =
      'P' :: 'C' :: '-' :: C :: [] := dropWhile_append_all isDigitC b _ hb hhead
  have htake : (b ++ ('P' :: 'C' :: '-' :: C :: [])).takeWhile isDigitC = b :=
    takeWhile_append_all isDigitC b _ hb hhead
  have hbne2 : ¬ (((b ++ ('P' :: 'C' :: '-' :: C :: [])).takeWhile isDigitC).isEmpty
      = true) := by
    rw [htake]
    exact not_isEmpty_of_ne b hbne
  have hne : b ++ ('P' :: 'C' :: '-' :: C :: []) ≠ [] := append_ne_nil b _ hbne
  have halias : ((b ++ ('P' :: 'C' :: '-' :: C :: [])) == "61-102".data) = false :=
    alias_beq_false_of_alpha_mem _ 'P' (by decide)
      (List.mem_append_right b (List.mem_cons_self 'P' _))
  have hpcen : matchPCEn (b ++ ('P' :: 'C' :: '-' :: C :: [])) = none := by
    apply matchPCEn_none_head
    rw [hdrop]
    intro x hx
    injection hx with h2
    rw [← h2]
    decide
  have hc1 : matchCanon1 (b ++ ('P' :: 'C' :: '-' :: C :: [])) = false := by
    rw [matchCanon1_core _ ('-' :: C :: [])
      (by rw [hdrop, List.dropWhile_cons, if_pos (by decide : isAlphaC 'P' = true),
        List.dropWhile_cons, if_pos (by decide : isAlphaC 'C' = true),
        List.dropWhile_cons, if_neg (by decide : ¬ (isAlphaC '-' = true))]) hbne2]
    exact canon1Body_short1 C
  have hc2 : matchCanon2 (b ++ ('P' :: 'C' :: '-' :: C :: [])) = true := by
    rw [matchCanon2_core _ _ hdrop hbne2, canon2Body_eval, hC]
    rfl
  rw [normRoomTail_to2 _ hne halias hpcen, normRoomTail2_eq2 _ hc1 hc2]

theorem pcform_clean (b : Str) (C : Char) (hb : ∀ x ∈ b, isDigitC x = true)
    (hC : isAlphaC C = true) :
    ∀ c ∈ b ++ ('P' :: 'C' :: '-' :: C :: []), isOutChar c = true :=
  clean_append b _ (clean_digits b hb)
    (clean_cons 'P' _ (by decide) (clean_cons 'C' _ (by decide)
      (clean_cons '-' _ (by decide)
        (clean_cons C _ (outChar_of_alpha C hC) clean_nil))))

theorem pcform_fixed (s b : Str) (C : Char)
    (hs : s = b ++ ('P' :: 'C' :: '-' :: C :: []))
    (hb : ∀ x ∈ b, isDigitC x = true) (hbne : b ≠ []) (hC : isAlphaC C = true)
    (hund : undetermined s = false) : normRoomL s = s := by
  subst hs
  exact normRoomL_fixed _ (pcform_clean b C hb hC) (append_ne_nil b _ hbne) hund
    (pcform_tail _ b C rfl hb hbne hC)

theorem pcform_hasThree (b : Str) (C : Char) (hb : ∀ x ∈ b, isDigitC x = true) :
    hasThreeAlpha (b ++ ('P' :: 'C' :: '-' :: C :: [])) = false := by
  rw [hasThreeAlpha_digits_run b _ hb]
  have h1 : isAlphaC '-' = false := by decide
  simp [hasThreeAlpha, h1]

theorem pcform_und_false (b : Str) (C : Char) (hb : ∀ x ∈ b, isDigitC x = true)
    (hbne : b ≠ []) (hC : isAlphaC C = true) :
    undetermined (b ++ ('P' :: 'C' :: '-' :: C :: [])) = false :=
  undet_false_of_shape _ (pcform_clean b C hb hC) (append_ne_nil b _ hbne)
    (pcform_hasThree b C hb)

theorem canon1form_tail (s b A : Str) (c1 c2 c3 c4 : Char)
    (hs : s = b ++ (A ++ ('-' :: c1 :: c2 :: '-' :: c3 :: c4 :: [])))
    (hb : ∀ x ∈ b, isDigitC x = true) (hbne : b ≠ [])
    (hA : ∀ x ∈ A, isAlphaC x = true)
    (h1 : isDigitC c1 = true) (h2 : isDigitC c2 = true)
    (h3 : isDigitC c3 = true) (h4 : isDigitC c4 = true) :
    normRoomTail s = s := by
  subst hs
  have hhead : ∀ y, ((A ++ ('-' :: c1 :: c2 :: '-' :: c3 :: c4 :: [])) : Str).head? =
      some y → isDigitC y = false := head_nondigit_alpha_dash A _ hA
  have hdrop : (b ++ (A ++ ('-' :: c1 :: c2 :: '-' :: c3 :: c4 :: []))).dropWhile
      isDigitC = A ++ ('-' :: c1 :: c2 :: '-' :: c3 :: c4 :: []) :=
    dropWhile_append_all isDigitC b _ hb hhead
  have htake : (b ++ (A ++ ('-' :: c1 :: c2 :: '-' :: c3 :: c4 :: []))).takeWhile
      isDigitC = b := takeWhile_append_all isDigitC b _ hb hhead
  have hbne2 : ¬ (((b ++ (A ++ ('-' :: c1 :: c2 :: '-' :: c3 :: c4 ::
      []))).takeWhile isDigitC).isEmpty = true) := by
    rw [htake]
    exact not_isEmpty_of_ne b hbne
  have hne : b ++ (A ++ ('-' :: c1 :: c2 :: '-' :: c3 :: c4 :: [])) ≠ [] :=
    append_ne_nil b _ hbne
  have halias : ((b ++ (A ++ ('-' :: c1 :: c2 :: '-' :: c3 :: c4 :: []))) ==
      "61-102".data) = false := by
    apply alias_beq_false_of_len b _ hb hhead
    rw [List.length_append]
    simp
  have hpcen : matchPCEn (b ++ (A ++ ('-' :: c1 :: c2 :: '-' :: c3 :: c4 :: []))) =
      none := by
    cases A with
    | cons a A2 =>
      apply matchPCEn_none_head
      rw [hdrop]
      exact head_ne_dash_alpha (a :: A2) '-' _ hA (fun hc => List.noConfusion hc)
    | nil =>
      rw [matchPCEn_core2 _ ('-' :: c1 :: c2 :: '-' :: c3 :: c4 :: [])
        (by rw [hdrop]; simp) hbne2, pcEnBody_step]
      have ht2 : List.takeWhile isDigitC (c1 :: c2 :: '-' :: c3 :: c4 :: []) =
          [c1, c2] := by
        have h := takeWhile_append_all isDigitC [c1, c2] ('-' :: c3 :: c4 :: [])
          (by intro x hx
              rcases List.mem_cons.mp hx with h | h
              · exact h ▸ h1
              · rw [List.mem_singleton.mp h]
                exact h2)
          (head_all_not isDigitC '-' _ (by decide))
        exact h
      have hd2 : List.dropWhile isDigitC (c1 :: c2 :: '-' :: c3 :: c4 :: []) =
          '-' :: c3 :: c4 :: [] := by
        have h := dropWhile_append_all isDigitC [c1, c2] ('-' :: c3 :: c4 :: [])
          (by intro x hx
              rcases List.mem_cons.mp hx with h | h
              · exact h ▸ h1
              · rw [List.mem_singleton.mp h]
                exact h2)
          (head_all_not isDigitC '-' _ (by decide))
        exact h
      rw [ht2, hd2, pcEnTail_dash]
      simp
  have hdd : ((b ++ (A ++ ('-' :: c1 :: c2 :: '-' :: c3 :: c4 :: []))).dropWhile
      isDigitC).dropWhile isAlphaC = '-' :: c1 :: c2 :: '-' :: c3 :: c4 :: [] := by
    rw [hdrop]
    exact dropWhile_append_all isAlphaC A _ hA (head_all_not isAlphaC '-' _ (by decide))
  have hc1 : matchCanon1 (b ++ (A ++ ('-' :: c1 :: c2 :: '-' :: c3 :: c4 :: []))) =
      true := by
    rw [matchCanon1_core _ _ hdd hbne2, canon1Body_eval, h1, h2, h3, h4]
    rfl
  rw [normRoomTail_to2 _ hne halias hpcen, normRoomTail2_eq1 _ hc1]

theorem canon1form_clean (b A : Str) (c1 c2 c3 c4 : Char)
    (hb : ∀ x ∈ b, isDigitC x = true) (hA : ∀ x ∈ A, isAlphaC x = true)
    (h1 : isDigitC c1 = true) (h2 : isDigitC c2 = true)
    (h3 : isDigitC c3 = true) (h4 : isDigitC c4 = true) :
    ∀ c ∈ b ++ (A ++ ('-' :: c1 :: c2 :: '-' :: c3 :: c4 :: [])),
      isOutChar c = true :=
  clean_append b _ (clean_digits b hb)
    (clean_append A _ (clean_alphas A hA)
      (clean_cons '-' _ (by decide)
        (clean_cons c1 _ (outChar_of_digit c1 h1)
          (clean_cons c2 _ (outChar_of_digit c2 h2)
            (clean_cons '-' _ (by decide)
              (clean_cons c3 _ (outChar_of_digit c3 h3)
                (clean_cons c4 _ (outChar_of_digit c4 h4) clean_nil)))))))

theorem canon1form_fixed (s b A : Str) (c1 c2 c3 c4 : Char)
    (hs : s = b ++ (A ++ ('-' :: c1 :: c2 :: '-' :: c3 :: c4 :: [])))
    (hb : ∀ x ∈ b, isDigitC x = true) (hbne : b ≠ [])
    (hA : ∀ x ∈ A, isAlphaC x = true)
    (h1 : isDigitC c1 = true) (h2 : isDigitC c2 = true)
    (h3 : isDigitC c3 = true) (h4 : isDigitC c4 = true)
    (hund : undetermined s = false) : normRoomL s = s := by
  subst hs
  exact normRoomL_fixed _ (canon1form_clean b A c1 c2 c3 c4 hb hA h1 h2 h3 h4)
    (append_ne_nil b _ hbne) hund
    (canon1form_tail _ b A c1 c2 c3 c4 rfl hb hbne hA h1 h2 h3 h4)

theorem canon3form_tail (s b : Str) (x1 x2 : Char)
    (hs : s = b ++ ('-' :: 'B' :: x1 :: x2 :: []))
    (hb : ∀ x ∈ b, isDigitC x = true) (hbne : b ≠ [])
    (hx1 : isDigitC x1 = true) (hx2 : isDigitC x2 = true) :
    normRoomTail s = s := by
  subst hs
  have hhead : ∀ y, (('-' :: 'B' :: x1 :: x2 :: []) : Str).head? = some y →
      isDigitC y = false := head_all_not isDigitC '-' _ (by decide)
  have hdrop : (b ++ ('-' :: 'B' :: x1 :: x2 :: [])).dropWhile isDigitC =
      '-' :: 'B' :: x1 :: x2 :: [] := dropWhile_append_all isDigitC b _ hb hhead
  have htake : (b ++ ('-' :: 'B' :: x1 :: x2 :: [])).takeWhile isDigitC = b :=
    takeWhile_append_all isDigitC b _ hb hhead
  have hbne2 : ¬ (((b ++ ('-' :: 'B' :: x1 :: x2 :: [])).takeWhile
      isDigitC).isEmpty = true) := by
    rw [htake]
    exact not_isEmpty_of_ne b hbne
  have hne : b ++ ('-' :: 'B' :: x1 :: x2 :: []) ≠ [] := append_ne_nil b _ hbne
  have halias : ((b ++ ('-' :: 'B' :: x1 :: x2 :: [])) == "61-102".data) = false := by
    apply list_beq_false
    intro he
    have h2 := (eq_alias_decomp b _ hb hhead he).2
    injection h2 with e0 h2
    injection h2 with e1 h2
    exact absurd e1 (by decide)
  have hpcen : matchPCEn (b ++ ('-' :: 'B' :: x1 :: x2 :: [])) = none := by
    rw [matchPCEn_core2 _ _ hdrop hbne2]
    exact pcEnBody_B b _
  have hdd : ((b ++ ('-' :: 'B' :: x1 :: x2 :: [])).dropWhile isDigitC).dropWhile
      isAlphaC = '-' :: 'B' :: x1 :: x2 :: [] := by
    rw [hdrop, List.dropWhile_cons, if_neg (by decide : ¬ (isAlphaC '-' = true))]
  have hc1 : matchCanon1 (b ++ ('-' :: 'B' :: x1 :: x2 :: [])) = false := by
    rw [matchCanon1_core _ _ hdd hbne2]
    exact canon1Body_three 'B' x1 x2 [] hx2
  have hc2 : matchCanon2 (b ++ ('-' :: 'B' :: x1 :: x2 :: [])) = false := by
    rw [matchCanon2_core _ _ hdrop hbne2]
    exact canon2Body_dash _
  have hc3 : matchCanon3 (b ++ ('-' :: 'B' :: x1 :: x2 :: [])) = true := by
    rw [matchCanon3_core _ _ hdrop hbne2, canon3Body_eval, hx1, hx2]
    rfl
  rw [normRoomTail_to2 _ hne halias hpcen, normRoomTail2_eq3 _ hc1 hc2 hc3]

theorem canon3form_clean (b : Str) (x1 x2 : Char)
    (hb : ∀ x ∈ b, isDigitC x = true)
    (hx1 : isDigitC x1 = true) (hx2 : isDigitC x2 = true) :
    ∀ c ∈ b ++ ('-' :: 'B' :: x1 :: x2 :: []), isOutChar c = true :=
  clean_append b _ (clean_digits b hb)
    (clean_cons '-' _ (by decide)
      (clean_cons 'B' _ (by decide)
        (clean_cons x1 _ (outChar_of_digit x1 hx1)
          (clean_cons x2 _ (outChar_of_digit x2 hx2) clean_nil))))

theorem canon3form_fixed (s b : Str) (x1 x2 : Char)
    (hs : s = b ++ ('-' :: 'B' :: x1 :: x2 :: []))
    (hb : ∀ x ∈ b, isDigitC x = true) (hbne : b ≠ [])
    (hx1 : isDigitC x1 = true) (hx2 : isDigitC x2 = true)
    (hund : undetermined s = false) : normRoomL s = s := by
  subst hs
  exact normRoomL_fixed _ (canon3form_clean b x1 x2 hb hx1 hx2)
    (append_ne_nil b _ hbne) hund
    (canon3form_tail _ b x1 x2 rfl hb hbne hx1 hx2)

theorem head_digits (f X : Str) (hf : ∀ x ∈ f, isDigitC x = true) (hfne : f ≠ []) :
    ∀ x, (f ++ X).head? = some x → isDigitC x = true := by
  cases f with
  | nil => exact absurd rfl hfne
  | cons f0 f2 =>
    intro x hx
    injection hx with h2
    exact h2 ▸ hf f0 (List.mem_cons_self f0 f2)

theorem canon23_false (s b A u : Str) (hs : s = b ++ (A ++ '-' :: u))
    (hb : ∀ x ∈ b, isDigitC x = true) (hbne : b ≠ [])
    (hA : ∀ x ∈ A, isAlphaC x = true)
    (hu : ∀ x, u.head? = some x → isDigitC x = true) :
    matchCanon2 s = false ∧ matchCanon3 s = false := by
  subst hs
  have hhead := head_nondigit_alpha_dash A u hA
  have hdrop : (b ++ (A ++ '-' :: u)).dropWhile isDigitC = A ++ '-' :: u :=
    dropWhile_append_all isDigitC b _ hb hhead
  have htake : (b ++ (A ++ '-' :: u)).takeWhile isDigitC = b :=
    takeWhile_append_all isDigitC b _ hb hhead
  have hbne2 : ¬ (((b ++ (A ++ '-' :: u)).takeWhile isDigitC).isEmpty = true) := by
    rw [htake]
    exact not_isEmpty_of_ne b hbne
  refine ⟨?_, ?_⟩
  · rw [matchCanon2_core _ _ hdrop hbne2]
    exact canon2Body_A A u hA hu
  · rw [matchCanon3_core _ _ hdrop hbne2]
    cases A with
    | nil =>
      show canon3Body ('-' :: u) = false
      cases u with
      | nil => exact canon3Body_dash_nil
      | cons u0 u2 => exact canon3Body_digit u0 u2 (hu u0 rfl)
    | cons a A2 => exact canon3Body_A a A2 u (hA a (List.mem_cons_self a A2))

theorem tbd_transfer (b A u v : Str) (hbna : ∀ c ∈ b, isAlphaC c = false)
    (hvna : ∀ c ∈ v, isAlphaC c = false)
    (h : containsSubL "TBD".data ((b ++ (A ++ u)).map Char.toUpper) = false) :
    containsSubL "TBD".data ((b ++ (A ++ v)).map Char.toUpper) = false := by
  cases hc : containsSubL "TBD".data ((b ++ (A ++ v)).map Char.toUpper)
  · rfl
  · exfalso
    have h1 := containsTBD_zoneX b (A ++ v) hbna hc
    have h2 := containsTBD_zoneY v hvna A h1
    have h3 : containsSubL "TBD".data ((b ++ (A ++ u)).map Char.toUpper) = true := by
      rw [List.map_append, List.map_append]
      have h4 := containsSub_mono "TBD".data (b.map Char.toUpper)
        (A.map Char.toUpper) (u.map Char.toUpper) h2
      simpa [List.append_assoc] using h4
    rw [h3] at h
    exact Bool.noConfusion h

theorem full_clean (b A f r : Str)
    (hb : ∀ x ∈ b, isDigitC x = true) (hA : ∀ x ∈ A, isAlphaC x = true)
    (hf : ∀ x ∈ f, isDigitC x = true) (hr : ∀ x ∈ r, isDigitC x = true) :
    ∀ c ∈ b ++ (A ++ ('-' :: (f ++ '-' :: r))), isOutChar c = true :=
  clean_append b _ (clean_digits b hb)
    (clean_append A _ (clean_alphas A hA)
      (clean_cons '-' _ (by decide)
        (clean_append f _ (clean_digits f hf)
          (clean_cons '-' _ (by decide) (clean_digits r hr)))))

theorem full_tail_eval (s b A f r : Str)
    (hs : s = b ++ (A ++ ('-' :: (f ++ '-' :: r))))
    (hb : ∀ x ∈ b, isDigitC x = true) (hbne : b ≠ [])
    (hA : ∀ x ∈ A, isAlphaC x = true)
    (hf : ∀ x ∈ f, isDigitC x = true) (hfne : f ≠ [])
    (hr : ∀ x ∈ r, isDigitC x = true) (hrne : r ≠ []) :
    normRoomTail s = b ++ (A ++ ('-' :: (zfill2 f ++ '-' :: zfill2 r))) := by
  have hu : ∀ x, (f ++ '-' :: r).head? = some x → isDigitC x = true :=
    head_digits f _ hf hfne
  have hhead := head_nondigit_alpha_dash A (f ++ '-' :: r) hA
  have hdrop : s.dropWhile isDigitC = A ++ ('-' :: (f ++ '-' :: r)) := by
    rw [hs]
    exact dropWhile_append_all isDigitC b _ hb hhead
  have htake : s.takeWhile isDigitC = b := by
    rw [hs]
    exact takeWhile_append_all isDigitC b _ hb hhead
  have hbne2 : ¬ ((s.takeWhile isDigitC).isEmpty = true) := by
    rw [htake]
    exact not_isEmpty_of_ne b hbne
  have hne : s ≠ [] := by
    rw [hs]
    exact append_ne_nil b _ hbne
  have halias : (s == "61-102".data) = false := by
    rw [hs]
    apply list_beq_false
    intro he
    have h2 := (eq_alias_decomp b _ hb hhead he).2
    have h3 := congrArg (List.takeWhile isAlphaC) h2
    rw [takeWhile_append_all isAlphaC A _ hA
      (head_all_not isAlphaC '-' _ (by decide))] at h3
    have h4 := congrArg (List.dropWhile isAlphaC) h2
    rw [dropWhile_append_all isAlphaC A _ hA
      (head_all_not isAlphaC '-' _ (by decide))] at h4
    have h5 : f ++ '-' :: r = ['1', '0', '2'] := by
      have h6 : ('-' :: (f ++ '-' :: r) : Str) = '-' :: ['1', '0', '2'] :=
        h4.trans (by decide)
      injection h6 with _ h7
    have h8 := congrArg (List.dropWhile isDigitC) h5
    rw [dropWhile_append_all isDigitC f _ hf
      (head_all_not isDigitC '-' _ (by decide))] at h8
    have h9 : ('-' :: r : Str) = [] := h8.trans (by decide)
    exact List.noConfusion h9
  have hpcen : matchPCEn s = none := by
    cases A with
    | cons a A2 =>
      apply matchPCEn_none_head
      rw [hdrop]
      exact head_ne_dash_alpha (a :: A2) '-' _ hA (fun hc => List.noConfusion hc)
    | nil =>
      rw [matchPCEn_core2 _ ('-' :: (f ++ '-' :: r)) (by rw [hdrop]; simp) hbne2,
        pcEnBody_step]
      rw [takeWhile_append_all isDigitC f ('-' :: r) hf
        (head_all_not isDigitC '-' _ (by decide))]
      rw [dropWhile_append_all isDigitC f ('-' :: r) hf
        (head_all_not isDigitC '-' _ (by decide))]
      rw [pcEnTail_dash]
      rw [if_neg (by rw [List.isEmpty_iff]; exact hfne)]
  by_cases hc1 : matchCanon1 s = true
  · obtain ⟨b2, A2, d1, d2, d3, d4, nl2, hb2, hb2ne, hA2, hd1, hd2, hd3, hd4, hseq,
      hnl2⟩ := matchCanon1_sound s hc1
    have hclean : ∀ c ∈ s, isOutChar c = true := by
      rw [hs]
      exact full_clean b A f r hb hA hf hr
    have hnl2e : nl2 = [] := by
      rcases hnl2 with h | h
      · exact h
      · exfalso
        have hmem : '\n' ∈ s := by
          rw [hseq, h]
          simp
        have := hclean '\n' hmem
        exact absurd this (by decide)
    rw [hnl2e, List.append_nil] at hseq
    have hhead2 : ∀ y, ((A2 ++ ['-', d1, d2, '-', d3, d4]) : Str).head? = some y →
        isDigitC y = false := head_nondigit_alpha_dash A2 _ hA2
    have htake2 : s.takeWhile isDigitC = b2 := by
      rw [hseq, List.append_assoc]
      exact takeWhile_append_all isDigitC b2 _ hb2 hhead2
    have hdrop2 : s.dropWhile isDigitC = A2 ++ ['-', d1, d2, '-', d3, d4] := by
      rw [hseq, List.append_assoc]
      exact dropWhile_append_all isDigitC b2 _ hb2 hhead2
    have hXeq : A ++ ('-' :: (f ++ '-' :: r)) = A2 ++ ['-', d1, d2, '-', d3, d4] :=
      hdrop.symm.trans hdrop2
    have hAeq : A = A2 := by
      have h3 := congrArg (List.takeWhile isAlphaC) hXeq
      rw [takeWhile_append_all isAlphaC A _ hA
        (head_all_not isAlphaC '-' _ (by decide)),
        takeWhile_append_all isAlphaC A2 _ hA2
        (head_all_not isAlphaC '-' _ (by decide))] at h3
      exact h3
    have hrest : ('-' :: (f ++ '-' :: r) : Str) = ['-', d1, d2, '-', d3, d4] := by
      have h3 := congrArg (List.dropWhile isAlphaC) hXeq
      rw [dropWhile_append_all isAlphaC A _ hA
        (head_all_not isAlphaC '-' _ (by decide)),
        dropWhile_append_all isAlphaC A2 _ hA2
        (head_all_not isAlphaC '-' _ (by decide))] at h3
      exact h3
    have hfr : f ++ '-' :: r = [d1, d2, '-', d3, d4] := by
      injection hrest with _ h3
    have hfeq : f = [d1, d2] := by
      have h3 := congrArg (List.takeWhile isDigitC) hfr
      rw [takeWhile_append_all isDigitC f _ hf
        (head_all_not isDigitC '-' _ (by decide))] at h3
      rw [h3]
      have h4 : List.takeWhile isDigitC [d1, d2, '-', d3, d4] =
          List.takeWhile isDigitC ([d1, d2] ++ '-' :: [d3, d4]) := rfl
      rw [h4, takeWhile_append_all isDigitC [d1, d2] _
        (by intro x hx
            rcases List.mem_cons.mp hx with h | h
            · exact h ▸ hd1
            · rw [List.mem_singleton.mp h]
              exact hd2)
        (head_all_not isDigitC '-' _ (by decide))]
    have hreq : r = [d3, d4] := by
      have h3 := congrArg (List.dropWhile isDigitC) hfr
      rw [dropWhile_append_all isDigitC f _ hf
        (head_all_not isDigitC '-' _ (by decide))] at h3
      have h4 : List.dropWhile isDigitC [d1, d2, '-', d3, d4] =
          List.dropWhile isDigitC ([d1, d2] ++ '-' :: [d3, d4]) := rfl
      rw [h4, dropWhile_append_all isDigitC [d1, d2] _
        (by intro x hx
            rcases List.mem_cons.mp hx with h | h
            · exact h ▸ hd1
            · rw [List.mem_singleton.mp h]
              exact hd2)
        (head_all_not isDigitC '-' _ (by decide))] at h3
      injection h3 with _ h5
    rw [normRoomTail_to2 s hne halias hpcen, normRoomTail2_eq1 s hc1]
    rw [zfill2_len2 f (by rw [hfeq]; rfl), zfill2_len2 r (by rw [hreq]; rfl)]
    exact hs
  · rw [Bool.not_eq_true] at hc1
    obtain ⟨hc2, hc3⟩ := canon23_false s b A (f ++ '-' :: r) hs hb hbne hA hu
    have hdd : (s.dropWhile isDigitC).dropWhile isAlphaC = '-' :: (f ++ '-' :: r) := by
      rw [hdrop]
      exact dropWhile_append_all isAlphaC A _ hA
        (head_all_not isAlphaC '-' _ (by decide))
    have hfull : matchFull s = some (b ++ A, f, r) := by
      rw [matchFull_core _ _ hdd hbne2, fullBody_step]
      rw [takeWhile_append_all isDigitC f ('-' :: r) hf
        (head_all_not isDigitC '-' _ (by decide))]
      rw [dropWhile_append_all isDigitC f ('-' :: r) hf
        (head_all_not isDigitC '-' _ (by decide))]
      rw [if_neg (not_isEmpty_of_ne f hfne)]
      rw [fullTail_step]
      rw [takeWhile_all isDigitC r hr, dropWhile_all isDigitC r hr]
      rw [if_pos (by rw [isEmpty_false_of_ne r hrne]; rfl)]
      rw [htake, hdrop]
      rw [takeWhile_append_all isAlphaC A _ hA
        (head_all_not isAlphaC '-' _ (by decide))]
    rw [normRoomTail_to2 s hne halias hpcen, normRoomTail2_to3 s hc1 hc2 hc3,
      normRoomTail3_full s _ _ _ hfull]
    simp [List.append_assoc]

theorem base_tail_eval (s b A : Str) (c1 c2 c3 c4 : Char) (nn : Str)
    (hs : s = b ++ (A ++ ('-' :: c1 :: c2 :: '-' :: c3 :: c4 :: ('-' :: nn))))
    (hb : ∀ x ∈ b, isDigitC x = true) (hbne : b ≠ [])
    (hA : ∀ x ∈ A, isAlphaC x = true)
    (h1 : isDigitC c1 = true) (h2 : isDigitC c2 = true)
    (h3 : isDigitC c3 = true) (h4 : isDigitC c4 = true)
    (hnn : ∀ x ∈ nn, isDigitC x = true) (hnnne : nn ≠ []) :
    normRoomTail s = b ++ (A ++ ('-' :: c1 :: c2 :: '-' :: c3 :: c4 :: [])) := by
  have hu12 : ∀ x ∈ ([c1, c2] : Str), isDigitC x = true := by
    intro x hx
    rcases List.mem_cons.mp hx with h | h
    · exact h ▸ h1
    · rw [List.mem_singleton.mp h]
      exact h2
  have hu34 : ∀ x ∈ ([c3, c4] : Str), isDigitC x = true := by
    intro x hx
    rcases List.mem_cons.mp hx with h | h
    · exact h ▸ h3
    · rw [List.mem_singleton.mp h]
      exact h4
  have hhead := head_nondigit_alpha_dash A (c1 :: c2 :: '-' :: c3 :: c4 :: '-' :: nn) hA
  have hdrop : s.dropWhile isDigitC =
      A ++ ('-' :: c1 :: c2 :: '-' :: c3 :: c4 :: ('-' :: nn)) := by
    rw [hs]
    exact dropWhile_append_all isDigitC b _ hb hhead
  have htake : s.takeWhile isDigitC = b := by
    rw [hs]
    exact takeWhile_append_all isDigitC b _ hb hhead
  have hbne2 : ¬ ((s.takeWhile isDigitC).isEmpty = true) := by
    rw [htake]
    exact not_isEmpty_of_ne b hbne
  have hne : s ≠ [] := by
    rw [hs]
    exact append_ne_nil b _ hbne
  have halias : (s == "61-102".data) = false := by
    rw [hs]
    apply alias_beq_false_of_len b _ hb hhead
    simp
    omega
  have hpcen : matchPCEn s = none := by
    cases A with
    | cons a A2 =>
      apply matchPCEn_none_head
      rw [hdrop]
      exact head_ne_dash_alpha (a :: A2) '-' _ hA (fun hc => List.noConfusion hc)
    | nil =>
      rw [matchPCEn_core2 _ ('-' :: c1 :: c2 :: '-' :: c3 :: c4 :: ('-' :: nn))
        (by rw [hdrop]; simp) hbne2, pcEnBody_step]
      have ht2 : List.takeWhile isDigitC (c1 :: c2 :: '-' :: c3 :: c4 :: '-' :: nn) =
          [c1, c2] := takeWhile_append_all isDigitC [c1, c2] _ hu12
        (head_all_not isDigitC '-' _ (by decide))
      have hd2 : List.dropWhile isDigitC (c1 :: c2 :: '-' :: c3 :: c4 :: '-' :: nn) =
          '-' :: c3 :: c4 :: '-' :: nn := dropWhile_append_all isDigitC [c1, c2] _ hu12
        (head_all_not isDigitC '-' _ (by decide))
      rw [ht2, hd2, pcEnTail_dash]
      rw [if_neg (not_isEmpty_of_ne [c1, c2] (by simp))]
  have hdd : (s.dropWhile isDigitC).dropWhile isAlphaC =
      '-' :: c1 :: c2 :: '-' :: c3 :: c4 :: ('-' :: nn) := by
    rw [hdrop]
    exact dropWhile_append_all isAlphaC A _ hA
      (head_all_not isAlphaC '-' _ (by decide))
  have hc1 : matchCanon1 s = false := by
    rw [matchCanon1_core _ _ hdd hbne2, canon1Body_eval, h1, h2, h3, h4,
      atEnd_cons_false '-' nn (by decide)]
    rfl
  obtain ⟨hc2, hc3⟩ := canon23_false s b A (c1 :: c2 :: '-' :: c3 :: c4 :: ('-' :: nn))
    (by rw [hs]) hb hbne hA (by intro x hx; injection hx with h5; exact h5 ▸ h1)
  have hfull : matchFull s = none := by
    rw [matchFull_core _ _ hdd hbne2, fullBody_step]
    have ht2 : List.takeWhile isDigitC (c1 :: c2 :: '-' :: c3 :: c4 :: '-' :: nn) =
        [c1, c2] := takeWhile_append_all isDigitC [c1, c2] _ hu12
      (head_all_not isDigitC '-' _ (by decide))
    have hd2 : List.dropWhile isDigitC (c1 :: c2 :: '-' :: c3 :: c4 :: '-' :: nn) =
        '-' :: c3 :: c4 :: '-' :: nn := dropWhile_append_all isDigitC [c1, c2] _ hu12
      (head_all_not isDigitC '-' _ (by decide))
    rw [ht2, hd2, if_neg (not_isEmpty_of_ne [c1, c2] (by simp)), fullTail_step]
    have ht3 : List.takeWhile isDigitC (c3 :: c4 :: '-' :: nn) = [c3, c4] :=
      takeWhile_append_all isDigitC [c3, c4] _ hu34
        (head_all_not isDigitC '-' _ (by decide))
    have hd3 : List.dropWhile isDigitC (c3 :: c4 :: '-' :: nn) = '-' :: nn :=
      dropWhile_append_all isDigitC [c3, c4] _ hu34
        (head_all_not isDigitC '-' _ (by decide))
    rw [ht3, hd3, atEnd_cons_false '-' nn (by decide)]
    rw [if_neg (by rw [Bool.and_false]; exact fun hcc => Bool.noConfusion hcc)]
  have hbase : matchBase s =
      some (b ++ A ++ '-' :: c1 :: c2 :: '-' :: c3 :: c4 :: []) := by
    rw [matchBase_core _ _ hdd hbne2, baseBody_eval]
    rw [bool_if_pos (by rw [h1, h2, h3, h4]; rfl)]
    rw [bool_if_neg (atEnd_cons_false '-' nn (by decide))]
    rw [baseTail_step]
    rw [takeWhile_all isDigitC nn hnn, dropWhile_all isDigitC nn hnn]
    rw [if_pos (by rw [isEmpty_false_of_ne nn hnnne]; rfl)]
    rw [htake, hdrop]
    rw [takeWhile_append_all isAlphaC A _ hA
      (head_all_not isAlphaC '-' _ (by decide))]
  rw [normRoomTail_to2 s hne halias hpcen, normRoomTail2_to3 s hc1 hc2 hc3,
    normRoomTail3_base s _ hfull hbase]
  simp [List.append_assoc]

theorem short3_tail_eval (s b : Str) (d0 d1 d2 : Char) (suf : Option Char)
    (hs : s = b ++ ('-' :: d0 :: d1 :: d2 :: suf.toList))
    (hb : ∀ x ∈ b, isDigitC x = true) (hbne : b ≠ [])
    (h0 : isDigitC d0 = true) (h1 : isDigitC d1 = true) (h2 : isDigitC d2 = true)
    (hsuf : ∀ c, suf = some c → isAlphaC c = true)
    (halias : (s == "61-102".data) = false) (hb63 : (b == "63".data) = false) :
    normRoomTail s = b ++ ('-' :: d0 :: d1 :: d2 :: (suf.map Char.toUpper).toList) := by
  have hd3 : ∀ x ∈ ([d0, d1, d2] : Str), isDigitC x = true := by
    intro x hx
    rcases List.mem_cons.mp hx with h | hx
    · exact h ▸ h0
    rcases List.mem_cons.mp hx with h | hx
    · exact h ▸ h1
    · rw [List.mem_singleton.mp hx]
      exact h2
  have hhead : ∀ y, (('-' :: d0 :: d1 :: d2 :: suf.toList) : Str).head? = some y →
      isDigitC y = false := head_all_not isDigitC '-' _ (by decide)
  have hdrop : s.dropWhile isDigitC = '-' :: d0 :: d1 :: d2 :: suf.toList := by
    rw [hs]
    exact dropWhile_append_all isDigitC b _ hb hhead
  have htake : s.takeWhile isDigitC = b := by
    rw [hs]
    exact takeWhile_append_all isDigitC b _ hb hhead
  have hbne2 : ¬ ((s.takeWhile isDigitC).isEmpty = true) := by
    rw [htake]
    exact not_isEmpty_of_ne b hbne
  have hne : s ≠ [] := by
    rw [hs]
    exact append_ne_nil b _ hbne
  have hpcen : matchPCEn s = none := by
    rw [matchPCEn_core2 _ _ hdrop hbne2, pcEnBody_step]
    rcases hsc : suf with _ | c
    · simp only [Option.toList]
      rw [takeWhile_all isDigitC [d0, d1, d2] hd3,
        dropWhile_all isDigitC [d0, d1, d2] hd3, pcEnTail_nil]
      rw [if_neg (not_isEmpty_of_ne [d0, d1, d2] (by simp))]
    · simp only [Option.toList]
      have hc := hsuf c hsc
      have ht2 : List.takeWhile isDigitC (d0 :: d1 :: d2 :: [c]) = [d0, d1, d2] :=
        takeWhile_append_all isDigitC [d0, d1, d2] [c] hd3
          (head_all_not isDigitC c _ (alpha_not_digit c hc))
      have hd2 : List.dropWhile isDigitC (d0 :: d1 :: d2 :: [c]) = [c] :=
        dropWhile_append_all isDigitC [d0, d1, d2] [c] hd3
          (head_all_not isDigitC c _ (alpha_not_digit c hc))
      rw [ht2, hd2, pcEnTail_single _ c hc]
      rw [if_neg (not_isEmpty_of_ne [d0, d1, d2] (by simp))]
  have hdd : (s.dropWhile isDigitC).dropWhile isAlphaC =
      '-' :: d0 :: d1 :: d2 :: suf.toList := by
    rw [hdrop, List.dropWhile_cons, if_neg (by decide : ¬ (isAlphaC '-' = true))]
  have hc1 : matchCanon1 s = false := by
    rw [matchCanon1_core _ _ hdd hbne2]
    exact canon1Body_three d0 d1 d2 suf.toList h2
  obtain ⟨hc2, hc3⟩ := canon23_false s b [] (d0 :: d1 :: d2 :: suf.toList)
    (by rw [hs]; simp) hb hbne (fun x hx => nomatch hx)
    (by intro x hx; injection hx with h5; exact h5 ▸ h0)
  have hfull : matchFull s = none := by
    rw [matchFull_core _ _ hdd hbne2, fullBody_step]
    rcases hsc : suf with _ | c
    · simp only [Option.toList]
      rw [takeWhile_all isDigitC [d0, d1, d2] hd3,
        dropWhile_all isDigitC [d0, d1, d2] hd3, fullTail_nil]
      rw [if_neg (not_isEmpty_of_ne [d0, d1, d2] (by simp))]
    · simp only [Option.toList]
      have hc := hsuf c hsc
      have ht2 : List.takeWhile isDigitC (d0 :: d1 :: d2 :: [c]) = [d0, d1, d2] :=
        takeWhile_append_all isDigitC [d0, d1, d2] [c] hd3
          (head_all_not isDigitC c _ (alpha_not_digit c hc))
      have hd2 : List.dropWhile isDigitC (d0 :: d1 :: d2 :: [c]) = [c] :=
        dropWhile_append_all isDigitC [d0, d1, d2] [c] hd3
          (head_all_not isDigitC c _ (alpha_not_digit c hc))
      rw [ht2, hd2, fullTail_single _ _ c hc]
      rw [if_neg (not_isEmpty_of_ne [d0, d1, d2] (by simp))]
  have hbase : matchBase s = none := by
    rw [matchBase_core _ _ hdd hbne2]
    exact baseBody_three _ d0 d1 d2 suf.toList h2
  have hshort3 : matchShort3 s = some (b, [d0, d1, d2], suf) := by
    rw [matchShort3_core _ _ hdrop hbne2, short3Body_eval]
    rw [bool_if_pos (by rw [h0, h1, h2]; rfl)]
    rcases hsc : suf with _ | c
    · simp only [Option.toList]
      rw [htake, short3Tail_nil]
    · simp only [Option.toList]
      rw [htake, short3Tail_single b [d0, d1, d2] c (hsuf c hsc)]
  rw [normRoomTail_to2 s hne halias hpcen, normRoomTail2_to3 s hc1 hc2 hc3,
    normRoomTail3_short3 s _ _ _ hfull hbase hshort3 hb63]
  simp [List.append_assoc]

theorem short3_63_tail_eval (s : Str) (d0 d1 d2 : Char) (suf : Option Char)
    (hs : s = "63".data ++ ('-' :: d0 :: d1 :: d2 :: suf.toList))
    (h0 : isDigitC d0 = true) (h1 : isDigitC d1 = true) (h2 : isDigitC d2 = true)
    (hsuf : ∀ c, suf = some c → isAlphaC c = true) :
    normRoomTail s = '6' :: '3' :: '-' :: '0' :: d0 :: '-' :: d1 :: d2 :: [] := by
  have hb : ∀ x ∈ ("63".data : Str), isDigitC x = true := by decide
  have hbne : ("63".data : Str) ≠ [] := by decide
  have hd3 : ∀ x ∈ ([d0, d1, d2] : Str), isDigitC x = true := by
    intro x hx
    rcases List.mem_cons.mp hx with h | hx
    · exact h ▸ h0
    rcases List.mem_cons.mp hx with h | hx
    · exact h ▸ h1
    · rw [List.mem_singleton.mp hx]
      exact h2
  have hhead : ∀ y, (('-' :: d0 :: d1 :: d2 :: suf.toList) : Str).head? = some y →
      isDigitC y = false := head_all_not isDigitC '-' _ (by decide)
  have hdrop : s.dropWhile isDigitC = '-' :: d0 :: d1 :: d2 :: suf.toList := by
    rw [hs]
    exact dropWhile_append_all isDigitC _ _ hb hhead
  have htake : s.takeWhile isDigitC = "63".data := by
    rw [hs]
    exact takeWhile_append_all isDigitC _ _ hb hhead
  have hbne2 : ¬ ((s.takeWhile isDigitC).isEmpty = true) := by
    rw [htake]
    exact not_isEmpty_of_ne _ hbne
  have hne : s ≠ [] := by
    rw [hs]
    exact append_ne_nil _ _ hbne
  have halias : (s == "61-102".data) = false := by
    apply list_beq_false
    intro he
    rw [hs] at he
    injection he with e0 he
    injection he with e1 he
    exact absurd e1 (by decide)
  have hpcen : matchPCEn s = none := by
    rw [matchPCEn_core2 _ _ hdrop hbne2, pcEnBody_step]
    rcases hsc : suf with _ | c
    · simp only [Option.toList]
      rw [takeWhile_all isDigitC [d0, d1, d2] hd3,
        dropWhile_all isDigitC [d0, d1, d2] hd3, pcEnTail_nil]
      rw [if_neg (not_isEmpty_of_ne [d0, d1, d2] (by simp))]
    · simp only [Option.toList]
      have hc := hsuf c hsc
      have ht2 : List.takeWhile isDigitC (d0 :: d1 :: d2 :: [c]) = [d0, d1, d2] :=
        takeWhile_append_all isDigitC [d0, d1, d2] [c] hd3
          (head_all_not isDigitC c _ (alpha_not_digit c hc))
      have hd2 : List.dropWhile isDigitC (d0 :: d1 :: d2 :: [c]) = [c] :=
        dropWhile_append_all isDigitC [d0, d1, d2] [c] hd3
          (head_all_not isDigitC c _ (alpha_not_digit c hc))
      rw [ht2, hd2, pcEnTail_single _ c hc]
      rw [if_neg (not_isEmpty_of_ne [d0, d1, d2] (by simp))]
  have hdd : (s.dropWhile isDigitC).dropWhile isAlphaC =
      '-' :: d0 :: d1 :: d2 :: suf.toList := by
    rw [hdrop, List.dropWhile_cons, if_neg (by decide : ¬ (isAlphaC '-' = true))]
  have hc1 : matchCanon1 s = false := by
    rw [matchCanon1_core _ _ hdd hbne2]
    exact canon1Body_three d0 d1 d2 suf.toList h2
  obtain ⟨hc2, hc3⟩ := canon23_false s "63".data [] (d0 :: d1 :: d2 :: suf.toList)
    (by rw [hs]; simp) hb hbne (fun x hx => nomatch hx)
    (by intro x hx; injection hx with h5; exact h5 ▸ h0)
  have hfull : matchFull s = none := by
    rw [matchFull_core _ _ hdd hbne2, fullBody_step]
    rcases hsc : suf with _ | c
    · simp only [Option.toList]
      rw [takeWhile_all isDigitC [d0, d1, d2] hd3,
        dropWhile_all isDigitC [d0, d1, d2] hd3, fullTail_nil]
      rw [if_neg (not_isEmpty_of_ne [d0, d1, d2] (by simp))]
    · simp only [Option.toList]
      have hc := hsuf c hsc
      have ht2 : List.takeWhile isDigitC (d0 :: d1 :: d2 :: [c]) = [d0, d1, d2] :=
        takeWhile_append_all isDigitC [d0, d1, d2] [c] hd3
          (head_all_not isDigitC c _ (alpha_not_digit c hc))
      have hd2 : List.dropWhile isDigitC (d0 :: d1 :: d2 :: [c]) = [c] :=
        dropWhile_append_all isDigitC [d0, d1, d2] [c] hd3
          (head_all_not isDigitC c _ (alpha_not_digit c hc))
      rw [ht2, hd2, fullTail_single _ _ c hc]
      rw [if_neg (not_isEmpty_of_ne [d0, d1, d2] (by simp))]
  have hbase : matchBase s = none := by
    rw [matchBase_core _ _ hdd hbne2]
    exact baseBody_three _ d0 d1 d2 suf.toList h2
  have hshort3 : matchShort3 s = some ("63".data, [d0, d1, d2], suf) := by
    rw [matchShort3_core _ _ hdrop hbne2, short3Body_eval]
    rw [bool_if_pos (by rw [h0, h1, h2]; rfl)]
    rcases hsc : suf with _ | c
    · simp only [Option.toList]
      rw [htake, short3Tail_nil]
    · simp only [Option.toList]
      rw [htake, short3Tail_single _ [d0, d1, d2] c (hsuf c hsc)]
  rw [normRoomTail_to2 s hne halias hpcen, normRoomTail2_to3 s hc1 hc2 hc3,
    normRoomTail3_short3_63 s _ _ hfull hbase hshort3]
  rfl

theorem short_tail_eval (s b n : Str) (hs : s = b ++ ('-' :: n))
    (hb : ∀ x ∈ b, isDigitC x = true) (hbne : b ≠ [])
    (hn : ∀ x ∈ n, isDigitC x = true) (hlen : n.length = 1 ∨ n.length = 2) :
    normRoomTail s = b ++ ('-' :: zfill2 n) := by
  have hnne : n ≠ [] := by
    intro he
    rw [he] at hlen
    rcases hlen with h | h <;> exact absurd h (by decide)
  have hhead : ∀ y, (('-' :: n) : Str).head? = some y → isDigitC y = false :=
    head_all_not isDigitC '-' _ (by decide)
  have hdrop : s.dropWhile isDigitC = '-' :: n := by
    rw [hs]
    exact dropWhile_append_all isDigitC b _ hb hhead
  have htake : s.takeWhile isDigitC = b := by
    rw [hs]
    exact takeWhile_append_all isDigitC b _ hb hhead
  have hbne2 : ¬ ((s.takeWhile isDigitC).isEmpty = true) := by
    rw [htake]
    exact not_isEmpty_of_ne b hbne
  have hne : s ≠ [] := by
    rw [hs]
    exact append_ne_nil b _ hbne
  have halias : (s == "61-102".data) = false := by
    rw [hs]
    apply list_beq_false
    intro he
    have h2 := (eq_alias_decomp b _ hb hhead he).2
    injection h2 with _ h3
    rw [h3] at hlen
    rcases hlen with h | h <;> exact absurd h (by decide)
  have hpcen : matchPCEn s = none := by
    rw [matchPCEn_core2 _ _ hdrop hbne2, pcEnBody_step]
    rw [takeWhile_all isDigitC n hn, dropWhile_all isDigitC n hn, pcEnTail_nil]
    rw [if_neg (not_isEmpty_of_ne n hnne)]
  have hdd : (s.dropWhile isDigitC).dropWhile isAlphaC = '-' :: n := by
    rw [hdrop, List.dropWhile_cons, if_neg (by decide : ¬ (isAlphaC '-' = true))]
  have hc1 : matchCanon1 s = false := by
    rw [matchCanon1_core _ _ hdd hbne2]
    rcases hlen with h | h
    · obtain ⟨n0, hn0⟩ := List.length_eq_one.mp h
      rw [hn0]
      exact canon1Body_short1 n0
    · obtain ⟨n0, n1, hn0⟩ := List.length_eq_two.mp h
      rw [hn0]
      exact canon1Body_short2 n0 n1
  obtain ⟨hc2, hc3⟩ := canon23_false s b [] n (by rw [hs]; simp) hb hbne
    (fun x hx => nomatch hx) (fun x hx => hn x (mem_of_head? n x hx))
  have hfull : matchFull s = none := by
    rw [matchFull_core _ _ hdd hbne2, fullBody_step]
    rw [takeWhile_all isDigitC n hn, dropWhile_all isDigitC n hn, fullTail_nil]
    rw [if_neg (not_isEmpty_of_ne n hnne)]
  have hbase : matchBase s = none := by
    rw [matchBase_core _ _ hdd hbne2]
    rcases hlen with h | h
    · obtain ⟨n0, hn0⟩ := List.length_eq_one.mp h
      rw [hn0]
      exact baseBody_short1 _ n0
    · obtain ⟨n0, n1, hn0⟩ := List.length_eq_two.mp h
      rw [hn0]
      exact baseBody_short2 _ n0 n1
  have hshort3 : matchShort3 s = none := by
    rw [matchShort3_core _ _ hdrop hbne2]
    rcases hlen with h | h
    · obtain ⟨n0, hn0⟩ := List.length_eq_one.mp h
      rw [hn0]
      exact short3Body_short1 _ n0
    · obtain ⟨n0, n1, hn0⟩ := List.length_eq_two.mp h
      rw [hn0]
      exact short3Body_short2 _ n0 n1
  have hshort : matchShort s = some (b, n) := by
    rw [matchShort_core _ _ hdrop hbne2, shortBody_step]
    rw [takeWhile_all isDigitC n hn, dropWhile_all isDigitC n hn]
    rw [if_pos (by rcases hlen with h | h <;> rw [h] <;> rfl)]
    rw [htake]
  rw [normRoomTail_to2 s hne halias hpcen, normRoomTail2_to3 s hc1 hc2 hc3,
    normRoomTail3_short s _ _ hfull hbase hshort3 hshort]

theorem pcen_tail_eval (s b f : Str) (c : Char)
    (hs : s = b ++ ('-' :: (f ++ 'F' :: '-' :: c :: [])))
    (hb : ∀ x ∈ b, isDigitC x = true) (hbne : b ≠ [])
    (hf : ∀ x ∈ f, isDigitC x = true) (hfne : f ≠ [])
    (hc : isAlphaC c = true) :
    normRoomTail s = b ++ ('P' :: 'C' :: '-' :: Char.toUpper c :: []) := by
  have hhead : ∀ y, (('-' :: (f ++ 'F' :: '-' :: c :: [])) : Str).head? = some y →
      isDigitC y = false := head_all_not isDigitC '-' _ (by decide)
  have hdrop : s.dropWhile isDigitC = '-' :: (f ++ 'F' :: '-' :: c :: []) := by
    rw [hs]
    exact dropWhile_append_all isDigitC b _ hb hhead
  have htake : s.takeWhile isDigitC = b := by
    rw [hs]
    exact takeWhile_append_all isDigitC b _ hb hhead
  have hbne2 : ¬ ((s.takeWhile isDigitC).isEmpty = true) := by
    rw [htake]
    exact not_isEmpty_of_ne b hbne
  have hne : s ≠ [] := by
    rw [hs]
    exact append_ne_nil b _ hbne
  have halias : (s == "61-102".data) = false := by
    apply alias_beq_false_of_alpha_mem s 'F' (by decide)
    rw [hs]
    simp
  have hpcen : matchPCEn s = some (b, c) := by
    rw [matchPCEn_core2 _ _ hdrop hbne2, pcEnBody_step]
    rw [takeWhile_append_all isDigitC f ('F' :: '-' :: c :: []) hf
        (head_all_not isDigitC 'F' _ (by decide)),
      dropWhile_append_all isDigitC f ('F' :: '-' :: c :: []) hf
        (head_all_not isDigitC 'F' _ (by decide))]
    rw [if_neg (not_isEmpty_of_ne f hfne), pcEnTail_eval]
    rw [if_pos (by rw [hc]; rfl), htake]
  simp only [normRoomTail]
  rw [bool_if_neg (isEmpty_false_of_ne s hne), bool_if_neg halias, hpcen]
  simp [List.append_assoc]

theorem letterJa_of_alpha (c : Char) (h : isAlphaC c = true) :
    isLetterJa c = true := by
  simp [isLetterJa, h]

theorem norm_textL_singleton_alpha (c : Char) (hc : isAlphaC c = true) :
    norm_textL [c] = [c] := by
  unfold norm_textL
  rw [List.map_cons, List.map_nil, zen2han_outChar c (outChar_of_alpha c hc)]
  exact pyStrip_id_of [c]
    (fun x hx => by
      injection hx with h2
      rw [← h2]
      exact outChar_not_space c (outChar_of_alpha c hc))
    (fun x hx => by
      have : x ∈ ([c] : Str) := mem_of_getLast? _ x hx
      rw [List.mem_singleton.mp this]
      exact outChar_not_space c (outChar_of_alpha c hc))

theorem normRoomL_und_eval (l S : Str)
    (hpipe : stripParens (stripLeadKey (norm_textL l)) = S)
    (hund : undetermined S = true) : normRoomL l = [] := by
  simp only [normRoomL]
  rw [hpipe, if_pos hund]

theorem normRoomL_pcja_eval (l S b2 : Str) (c2 : Char)
    (hpipe : stripParens (stripLeadKey (norm_textL l)) = S)
    (hund : undetermined S = false) (hm : matchPCJa S = some (b2, c2)) :
    normRoomL l = norm_textL b2 ++ "PC-".data ++ (norm_textL [c2]).map Char.toUpper := by
  simp only [normRoomL]
  rw [hpipe, if_neg (by rw [hund]; exact fun h2 => Bool.noConfusion h2), hm]

theorem matchPCJa_core (s T : Str) (hd : s.dropWhile isDigitC = T)
    (hbne : ¬ ((s.takeWhile isDigitC).isEmpty = true)) :
    matchPCJa s = pcJaBody (s.takeWhile isDigitC) T := by
  subst hd
  simp only [matchPCJa]
  rw [if_neg hbne]
  rfl

theorem pcJaBody_eval2 (b R r3 : Str) (h : R.dropWhile isDigitC = r3) :
    pcJaBody b ('号' :: '館' :: R) = pcJaTail b (kaiStrip r3) := by
  subst h
  rfl

theorem kaiStrip_kai (u : Str) : kaiStrip ('階' :: u) = u := rfl

theorem kaiStrip_matsu (u : Str) : kaiStrip ('末' :: u) = '末' :: u := rfl

theorem pcJaTail_shitsu (b : Str) (zc : Char) (t : Str) (hja : isLetterJa zc = true) :
    pcJaTail b ('末' :: '端' :: '室' :: zc :: t) = some (b, zc) := by
  show (if isLetterJa zc then some (b, zc)
    else if isLetterJa '室' then some (b, '室') else none) = some (b, zc)
  rw [bool_if_pos hja]

theorem pcJaTail_noshitsu (b : Str) (zc : Char) (t : Str)
    (hzc : isAlphaC zc = true) (hja : isLetterJa zc = true) :
    pcJaTail b ('末' :: '端' :: zc :: t) = some (b, zc) := by
  unfold pcJaTail
  split
  · rename_i heq
    injection heq with e0 heq
    injection heq with e1 heq
    injection heq with e2 heq
    rw [e2] at hzc
    exact absurd hzc (by decide)
  · rename_i heq
    injection heq with e0 heq
    injection heq with e1 heq
    injection heq with e2 heq
    rw [← e2]
    rw [bool_if_pos hja]
  · rename_i hov1 hov2
    exact absurd rfl (hov2 zc t)

theorem matchPCJa_constructor (b ds kai shitsu : Str) (zc : Char) (t2 : Str)
    (hb : ∀ x ∈ b, isDigitC x = true) (hbne : b ≠ [])
    (hds : ∀ x ∈ ds, isDigitC x = true)
    (hkai : kai = [] ∨ kai = ['階']) (hshitsu : shitsu = [] ∨ shitsu = ['室'])
    (hzc : isAlphaC zc = true) :
    matchPCJa (b ++ ('号' :: '館' :: (ds ++ (kai ++ '末' :: '端' ::
      (shitsu ++ zc :: t2))))) = some (b, zc) := by
  have hja : isLetterJa zc = true := letterJa_of_alpha zc hzc
  have hhead : ∀ y, (('号' :: '館' :: (ds ++ (kai ++ '末' :: '端' ::
      (shitsu ++ zc :: t2)))) : Str).head? = some y → isDigitC y = false :=
    head_all_not isDigitC '号' _ (by decide)
  have htake := takeWhile_append_all isDigitC b _ hb hhead
  have hdrop := dropWhile_append_all isDigitC b _ hb hhead
  have hKhead : ∀ x, ((kai ++ '末' :: '端' :: (shitsu ++ zc :: t2)) : Str).head? =
      some x → isDigitC x = false := by
    rcases hkai with h | h <;> subst h
    · exact head_all_not isDigitC '末' _ (by decide)
    · exact head_all_not isDigitC '階' _ (by decide)
  have hdrop2 := dropWhile_append_all isDigitC ds _ hds hKhead
  rw [matchPCJa_core _ ('号' :: '館' :: (ds ++ (kai ++ '末' :: '端' ::
    (shitsu ++ zc :: t2)))) hdrop
    (by rw [htake]; exact not_isEmpty_of_ne b hbne)]
  rw [htake]
  rw [pcJaBody_eval2 b _ _ hdrop2]
  rcases hkai with h | h
  · subst h
    rcases hshitsu with h2 | h2
    · subst h2
      rw [show (([] : Str) ++ '末' :: '端' :: (([] : Str) ++ zc :: t2)) =
        '末' :: '端' :: zc :: t2 from rfl]
      rw [kaiStrip_matsu]
      exact pcJaTail_noshitsu b zc t2 hzc hja
    · subst h2
      rw [show (([] : Str) ++ '末' :: '端' :: ((['室'] : Str) ++ zc :: t2)) =
        '末' :: '端' :: '室' :: zc :: t2 from rfl]
      rw [kaiStrip_matsu]
      exact pcJaTail_shitsu b zc t2 hja
  · subst h
    rcases hshitsu with h2 | h2
    · subst h2
      rw [show ((['階'] : Str) ++ '末' :: '端' :: (([] : Str) ++ zc :: t2)) =
        '階' :: '末' :: '端' :: zc :: t2 from rfl]
      rw [kaiStrip_kai]
      exact pcJaTail_noshitsu b zc t2 hzc hja
    · subst h2
      rw [show ((['階'] : Str) ++ '末' :: '端' :: ((['室'] : Str) ++ zc :: t2)) =
        '階' :: '末' :: '端' :: '室' :: zc :: t2 from rfl]
      rw [kaiStrip_kai]
      exact pcJaTail_shitsu b zc t2 hja

theorem zfix_append (A B : Str) (hA : ∀ c ∈ A, zen2han c = c)
    (hB : ∀ c ∈ B, zen2han c = c) : ∀ c ∈ A ++ B, zen2han c = c := by
  intro c hc
  rcases List.mem_append.mp hc with h | h
  · exact hA c h
  · exact hB c h

theorem zfix_cons (x : Char) (A : Str) (hx : zen2han x = x)
    (hA : ∀ c ∈ A, zen2han c = c) : ∀ c ∈ x :: A, zen2han c = c := by
  intro c hc
  rcases List.mem_cons.mp hc with h | h
  · exact h ▸ hx
  · exact hA c h

theorem zfix_nil : ∀ c ∈ ([] : Str), zen2han c = c := fun c hc => nomatch hc

theorem pfree_append (A B : Str)
    (hA : ∀ c ∈ A, (c == '（') = false ∧ (c == '(') = false)
    (hB : ∀ c ∈ B, (c == '（') = false ∧ (c == '(') = false) :
    ∀ c ∈ A ++ B, (c == '（') = false ∧ (c == '(') = false := by
  intro c hc
  rcases List.mem_append.mp hc with h | h
  · exact hA c h
  · exact hB c h

theorem pfree_cons (x : Char) (A : Str)
    (hx : (x == '（') = false ∧ (x == '(') = false)
    (hA : ∀ c ∈ A, (c == '（') = false ∧ (c == '(') = false) :
    ∀ c ∈ x :: A, (c == '（') = false ∧ (c == '(') = false := by
  intro c hc
  rcases List.mem_cons.mp hc with h | h
  · exact h ▸ hx
  · exact hA c h

theorem pfree_nil : ∀ c ∈ ([] : Str), (c == '（') = false ∧ (c == '(') = false :=
  fun c hc => nomatch hc

theorem letterJa_not_space (c : Char) (h : isLetterJa c = true) :
    isSpaceC c = false := by
  simp only [isLetterJa, Bool.or_eq_true, Bool.and_eq_true, decide_eq_true_eq] at h
  rcases h with (h | ⟨h1, h2⟩) | ⟨h1, h2⟩
  · exact outChar_not_space c (outChar_of_alpha c h)
  · have hb1 := char_le_toNat _ _ h1
    have e1 : ('Ａ' : Char).toNat = 65313 := by decide
    rw [e1] at hb1
    cases hs : isSpaceC c
    · rfl
    · exfalso
      simp only [isSpaceC, Bool.or_eq_true, beq_iff_eq] at hs
      rcases hs with ((((h2 | h2) | h2) | h2) | h2) | h2 <;>
        (rw [h2] at hb1; exact absurd hb1 (by decide))
  · have hb1 := char_le_toNat _ _ h1
    have e1 : ('ａ' : Char).toNat = 65345 := by decide
    rw [e1] at hb1
    cases hs : isSpaceC c
    · rfl
    · exfalso
      simp only [isSpaceC, Bool.or_eq_true, beq_iff_eq] at hs
      rcases hs with ((((h2 | h2) | h2) | h2) | h2) | h2 <;>
        (rw [h2] at hb1; exact absurd hb1 (by decide))

theorem paren_free_out (x : Char) (h : isOutChar x = true) :
    (x == '（') = false ∧ (x == '(') = false :=
  ⟨outChar_beq_false x '（' h (by decide), outChar_beq_false x '(' h (by decide)⟩

theorem pcja_pipeline (l b ds kai shitsu : Str) (craw : Char) (t : Str)
    (hl : l = b ++ ('号' :: '館' :: (ds ++ (kai ++ '末' :: '端' ::
      (shitsu ++ craw :: t)))))
    (hb : ∀ x ∈ b, isDigitC x = true) (hbne : b ≠ [])
    (hds : ∀ x ∈ ds, isDigitC x = true)
    (hkai : kai = [] ∨ kai = ['階']) (hshitsu : shitsu = [] ∨ shitsu = ['室'])
    (hc : isLetterJa craw = true) :
    ∃ t2, stripParens (stripLeadKey (norm_textL l)) =
      b ++ ('号' :: '館' :: (ds ++ (kai ++ '末' :: '端' ::
        (shitsu ++ zen2han craw :: t2)))) := by
  have hzca : isAlphaC (zen2han craw) = true := letterJa_zen2han_alpha craw hc
  have hkaifix : ∀ c ∈ kai, zen2han c = c := by
    rcases hkai with h | h <;> subst h
    · exact zfix_nil
    · exact zfix_cons _ _ (by decide) zfix_nil
  have hshitsufix : ∀ c ∈ shitsu, zen2han c = c := by
    rcases hshitsu with h | h <;> subst h
    · exact zfix_nil
    · exact zfix_cons _ _ (by decide) zfix_nil
  have hQfix : ∀ c ∈ b ++ ('号' :: '館' :: (ds ++ (kai ++ '末' :: '端' :: shitsu))),
      zen2han c = c :=
    zfix_append _ _ (fun c hc2 => zen2han_outChar c (outChar_of_digit c (hb c hc2)))
      (zfix_cons _ _ (by decide)
        (zfix_cons _ _ (by decide)
          (zfix_append _ _
            (fun c hc2 => zen2han_outChar c (outChar_of_digit c (hds c hc2)))
            (zfix_append _ _ hkaifix
              (zfix_cons _ _ (by decide)
                (zfix_cons _ _ (by decide) hshitsufix))))))
  have hl0 : l = (b ++ ('号' :: '館' :: (ds ++ (kai ++ '末' :: '端' :: shitsu))) ++
      [craw]) ++ t := by
    rw [hl]
    simp [List.append_assoc]
  have hmap0 : ((b ++ ('号' :: '館' :: (ds ++ (kai ++ '末' :: '端' :: shitsu))) ++
      [craw])).map zen2han =
      b ++ ('号' :: '館' :: (ds ++ (kai ++ '末' :: '端' :: shitsu))) ++
        [zen2han craw] := by
    rw [List.map_append, mapIdOn zen2han _ hQfix]
    rfl
  have hPne : b ++ ('号' :: '館' :: (ds ++ (kai ++ '末' :: '端' :: shitsu))) ++
      [zen2han craw] ≠ [] := by
    apply append_ne_nil
    exact append_ne_nil b _ hbne
  have hPhh : ∀ x, (b ++ ('号' :: '館' :: (ds ++ (kai ++ '末' :: '端' :: shitsu))) ++
      [zen2han craw]).head? = some x → isSpaceC x = false := by
    rw [List.append_assoc]
    intro x hx
    exact outChar_not_space x (outChar_of_digit x (head_digits b _ hb hbne x hx))
  have hPhl : ∀ x, (b ++ ('号' :: '館' :: (ds ++ (kai ++ '末' :: '端' :: shitsu))) ++
      [zen2han craw]).getLast? = some x → isSpaceC x = false := by
    intro x hx
    rw [List.getLast?_concat] at hx
    injection hx with h2
    rw [← h2]
    exact outChar_not_space _ (outChar_of_alpha _ hzca)
  have hstep1 : norm_textL l =
      b ++ ('号' :: '館' :: (ds ++ (kai ++ '末' :: '端' :: shitsu))) ++
        [zen2han craw] ++
        ((t.map zen2han).reverse.dropWhile isSpaceC).reverse := by
    unfold norm_textL
    rw [hl0, List.map_append, hmap0]
    exact pyStrip_append_trim _ _ hPne hPhh hPhl
  have hform : b ++ ('号' :: '館' :: (ds ++ (kai ++ '末' :: '端' :: shitsu))) ++
      [zen2han craw] ++ ((t.map zen2han).reverse.dropWhile isSpaceC).reverse =
      b ++ ('号' :: '館' :: (ds ++ (kai ++ '末' :: '端' ::
        (shitsu ++ zen2han craw ::
          ((t.map zen2han).reverse.dropWhile isSpaceC).reverse)))) := by
    simp [List.append_assoc]
  have hstep2 : stripLeadKey (norm_textL l) = norm_textL l := by
    rw [hstep1, hform]
    apply stripLeadKey_id_of
    · intro x hx
      exact outChar_not_space x (outChar_of_digit x (head_digits b _ hb hbne x hx))
    · rw [dropWhile_append_all isDigitC b _ hb
        (head_all_not isDigitC '号' _ (by decide))]
      rw [List.dropWhile_cons, if_neg (by decide : ¬ (isSpaceC '号' = true))]
      intro x hx
      injection hx with h2
      rw [← h2]
      decide
  have hkaip : ∀ c ∈ kai, (c == '（') = false ∧ (c == '(') = false := by
    rcases hkai with h | h <;> subst h
    · exact pfree_nil
    · exact pfree_cons _ _ (by decide) pfree_nil
  have hshitsup : ∀ c ∈ shitsu, (c == '（') = false ∧ (c == '(') = false := by
    rcases hshitsu with h | h <;> subst h
    · exact pfree_nil
    · exact pfree_cons _ _ (by decide) pfree_nil
  have hQparen : ∀ c ∈ b ++ ('号' :: '館' :: (ds ++ (kai ++ '末' :: '端' ::
      shitsu))) ++ [zen2han craw],
      (c == '（') = false ∧ (c == '(') = false :=
    pfree_append _ _
      (pfree_append _ _
        (fun c hc2 => paren_free_out c (outChar_of_digit c (hb c hc2)))
        (pfree_cons _ _ (by decide)
          (pfree_cons _ _ (by decide)
            (pfree_append _ _
              (fun c hc2 => paren_free_out c (outChar_of_digit c (hds c hc2)))
              (pfree_append _ _ hkaip
                (pfree_cons _ _ (by decide)
                  (pfree_cons _ _ (by decide) hshitsup)))))))
      (pfree_cons _ _ (paren_free_out _ (outChar_of_alpha _ hzca)) pfree_nil)
  refine ⟨stripParens (((t.map zen2han).reverse.dropWhile isSpaceC).reverse), ?_⟩
  rw [hstep2, hstep1]
  rw [stripParens_append_free _ _ hQparen]
  simp [List.append_assoc]

/-! ### Idempotence of the full cascade on each recognised shape (claim C8) -/

theorem idem_of_empty_first (l : Str) (h : normRoomL l = []) :
    normRoomL (normRoomL l) = normRoomL l := by
  rw [h, normRoomL_nil]

theorem pc_dash_data : ("PC-".data : Str) = ['P', 'C', '-'] := rfl

theorem idem_pcja (l : Str) (b : Str) (craw : Char)
    (h : matchPCJa l = some (b, craw)) :
    normRoomL (normRoomL l) = normRoomL l := by
  obtain ⟨hb, hbne, hja, ds, mid, hds, hl, hmid⟩ := matchPCJa_sound l b craw h
  have hzca : isAlphaC (zen2han craw) = true := letterJa_zen2han_alpha craw hja
  have main : ∀ kai shitsu : Str, ∀ t : Str,
      kai = [] ∨ kai = ['階'] → shitsu = [] ∨ shitsu = ['室'] →
      l = b ++ ('号' :: '館' :: (ds ++ (kai ++ '末' :: '端' ::
        (shitsu ++ craw :: t)))) →
      normRoomL (normRoomL l) = normRoomL l := by
    intro kai shitsu t hkai hshitsu hl2
    obtain ⟨t2, hpipe⟩ :=
      pcja_pipeline l b ds kai shitsu craw t hl2 hb hbne hds hkai hshitsu hja
    by_cases hund : undetermined (b ++ ('号' :: '館' :: (ds ++ (kai ++ '末' :: '端' ::
        (shitsu ++ zen2han craw :: t2))))) = true
    · exact idem_of_empty_first l (normRoomL_und_eval l _ hpipe hund)
    · rw [Bool.not_eq_true] at hund
      have hm := matchPCJa_constructor b ds kai shitsu (zen2han craw) t2
        hb hbne hds hkai hshitsu hzca
      have h1 : normRoomL l =
          b ++ ('P' :: 'C' :: '-' :: Char.toUpper (zen2han craw) :: []) := by
        rw [normRoomL_pcja_eval l _ b (zen2han craw) hpipe hund hm]
        rw [norm_textL_clean b (clean_digits b hb)]
        rw [norm_textL_singleton_alpha _ hzca]
        rw [pc_dash_data]
        simp [List.append_assoc]
      have h2 := pcform_fixed _ b (Char.toUpper (zen2han craw)) rfl hb hbne
        (toUpper_alpha _ hzca)
        (pcform_und_false b _ hb hbne (toUpper_alpha _ hzca))
      rw [h1]
      exact h2
  rcases hmid with ⟨t, ht⟩ | ⟨t, ht⟩ | ⟨t, ht⟩ | ⟨t, ht⟩
  · exact main ['階'] ['室'] t (Or.inr rfl) (Or.inr rfl) (by rw [hl, ht]; simp)
  · exact main ['階'] [] t (Or.inr rfl) (Or.inl rfl) (by rw [hl, ht]; simp)
  · exact main [] ['室'] t (Or.inl rfl) (Or.inr rfl) (by rw [hl, ht]; simp)
  · exact main [] [] t (Or.inl rfl) (Or.inl rfl) (by rw [hl, ht]; simp)

theorem idem_alias (l : Str) (h : (l == "61-102".data) = true) :
    normRoomL (normRoomL l) = normRoomL l := by
  have he : l = "61-102".data := by simpa using h
  subst he
  decide

theorem idem_pcen (l : Str) (b : Str) (c : Char) (h : matchPCEn l = some (b, c)) :
    normRoomL (normRoomL l) = normRoomL l := by
  obtain ⟨hb, hbne, hca, f, nl, hf, hfne, hl, hnl⟩ := matchPCEn_sound l b c h
  have hcore : l = (b ++ ('-' :: (f ++ 'F' :: '-' :: c :: []))) ++ nl := by
    rw [hl]
    simp [List.append_assoc]
  have hclean : ∀ x ∈ b ++ ('-' :: (f ++ 'F' :: '-' :: c :: [])), isOutChar x = true :=
    clean_append b _ (clean_digits b hb)
      (clean_cons '-' _ (by decide)
        (clean_append f _ (clean_digits f hf)
          (clean_cons 'F' _ (by decide)
            (clean_cons '-' _ (by decide)
              (clean_cons c _ (outChar_of_alpha c hca) clean_nil)))))
  have hcne : b ++ ('-' :: (f ++ 'F' :: '-' :: c :: [])) ≠ [] := append_ne_nil b _ hbne
  by_cases hund : undetermined (b ++ ('-' :: (f ++ 'F' :: '-' :: c :: []))) = true
  · apply idem_of_empty_first l
    rw [hcore]
    exact firstPass_und _ nl hclean hcne hnl hund
  · rw [Bool.not_eq_true] at hund
    have hpcja : matchPCJa (b ++ ('-' :: (f ++ 'F' :: '-' :: c :: []))) = none :=
      pcja_none_shape b _ hb (head_all_not isDigitC '-' _ (by decide))
        (fun x hx => by
          injection hx with h2
          rw [← h2]
          decide)
    have h1 : normRoomL l = normRoomTail (b ++ ('-' :: (f ++ 'F' :: '-' :: c :: []))) := by
      rw [hcore]
      exact firstPass _ nl hclean hcne hnl hund hpcja
    have h2 := pcen_tail_eval _ b f c rfl hb hbne hf hfne hca
    have h3 := pcform_fixed _ b (Char.toUpper c) rfl hb hbne (toUpper_alpha c hca)
      (pcform_und_false b _ hb hbne (toUpper_alpha c hca))
    rw [h1, h2]
    exact h3

theorem idem_canon2 (l : Str) (h : matchCanon2 l = true) :
    normRoomL (normRoomL l) = normRoomL l := by
  obtain ⟨b, c, nl, hb, hbne, hca, hl, hnl⟩ := matchCanon2_sound l h
  have hcore : l = (b ++ ('P' :: 'C' :: '-' :: c :: [])) ++ nl := by
    rw [hl]
  have hclean := pcform_clean b c hb hca
  have hcne : b ++ ('P' :: 'C' :: '-' :: c :: []) ≠ [] := append_ne_nil b _ hbne
  by_cases hund : undetermined (b ++ ('P' :: 'C' :: '-' :: c :: [])) = true
  · apply idem_of_empty_first l
    rw [hcore]
    exact firstPass_und _ nl hclean hcne hnl hund
  · rw [Bool.not_eq_true] at hund
    have hpcja : matchPCJa (b ++ ('P' :: 'C' :: '-' :: c :: [])) = none :=
      pcja_none_shape b _ hb (head_all_not isDigitC 'P' _ (by decide))
        (fun x hx => by
          injection hx with h2
          rw [← h2]
          decide)
    have h1 : normRoomL l = normRoomTail (b ++ ('P' :: 'C' :: '-' :: c :: [])) := by
      rw [hcore]
      exact firstPass _ nl hclean hcne hnl hund hpcja
    have h2 := pcform_tail _ b c rfl hb hbne hca
    have h3 := pcform_fixed _ b c rfl hb hbne hca hund
    rw [h1, h2]
    exact h3

theorem idem_canon1 (l : Str) (h : matchCanon1 l = true) :
    normRoomL (normRoomL l) = normRoomL l := by
  obtain ⟨b, A, c1, c2, c3, c4, nl, hb, hbne, hA, h1, h2, h3, h4, hl, hnl⟩ :=
    matchCanon1_sound l h
  have hcore : l = (b ++ (A ++ ('-' :: c1 :: c2 :: '-' :: c3 :: c4 :: []))) ++ nl := by
    rw [hl]
    simp [List.append_assoc]
  have hclean := canon1form_clean b A c1 c2 c3 c4 hb hA h1 h2 h3 h4
  have hcne : b ++ (A ++ ('-' :: c1 :: c2 :: '-' :: c3 :: c4 :: [])) ≠ [] :=
    append_ne_nil b _ hbne
  by_cases hund : undetermined (b ++ (A ++ ('-' :: c1 :: c2 :: '-' :: c3 :: c4 ::
      []))) = true
  · apply idem_of_empty_first l
    rw [hcore]
    exact firstPass_und _ nl hclean hcne hnl hund
  · rw [Bool.not_eq_true] at hund
    have hpcja : matchPCJa (b ++ (A ++ ('-' :: c1 :: c2 :: '-' :: c3 :: c4 ::
        []))) = none :=
      pcja_none_shape b _ hb (head_nondigit_alpha_dash A _ hA)
        (head_ne_kj_alpha_dash A _ hA)
    have hfp : normRoomL l =
        normRoomTail (b ++ (A ++ ('-' :: c1 :: c2 :: '-' :: c3 :: c4 :: []))) := by
      rw [hcore]
      exact firstPass _ nl hclean hcne hnl hund hpcja
    have htl := canon1form_tail _ b A c1 c2 c3 c4 rfl hb hbne hA h1 h2 h3 h4
    have hfx := canon1form_fixed _ b A c1 c2 c3 c4 rfl hb hbne hA h1 h2 h3 h4 hund
    rw [hfp, htl]
    exact hfx

theorem idem_canon3 (l : Str) (h : matchCanon3 l = true) :
    normRoomL (normRoomL l) = normRoomL l := by
  obtain ⟨b, x1, x2, nl, hb, hbne, hx1, hx2, hl, hnl⟩ := matchCanon3_sound l h
  have hcore : l = (b ++ ('-' :: 'B' :: x1 :: x2 :: [])) ++ nl := by
    rw [hl]
  have hclean := canon3form_clean b x1 x2 hb hx1 hx2
  have hcne : b ++ ('-' :: 'B' :: x1 :: x2 :: []) ≠ [] := append_ne_nil b _ hbne
  by_cases hund : undetermined (b ++ ('-' :: 'B' :: x1 :: x2 :: [])) = true
  · apply idem_of_empty_first l
    rw [hcore]
    exact firstPass_und _ nl hclean hcne hnl hund
  · rw [Bool.not_eq_true] at hund
    have hpcja : matchPCJa (b ++ ('-' :: 'B' :: x1 :: x2 :: [])) = none :=
      pcja_none_shape b _ hb (head_all_not isDigitC '-' _ (by decide))
        (fun x hx => by
          injection hx with h2
          rw [← h2]
          decide)
    have hfp : normRoomL l = normRoomTail (b ++ ('-' :: 'B' :: x1 :: x2 :: [])) := by
      rw [hcore]
      exact firstPass _ nl hclean hcne hnl hund hpcja
    have htl := canon3form_tail _ b x1 x2 rfl hb hbne hx1 hx2
    have hfx := canon3form_fixed _ b x1 x2 rfl hb hbne hx1 hx2 hund
    rw [hfp, htl]
    exact hfx

theorem idem_full (l : Str) (bld f r : Str) (h : matchFull l = some (bld, f, r)) :
    normRoomL (normRoomL l) = normRoomL l := by
  obtain ⟨b, A, nl, hbld, hb, hbne, hA, hf, hfne, hr, hrne, hl, hnl⟩ :=
    matchFull_sound l bld f r h
  have hcore : l = (b ++ (A ++ ('-' :: (f ++ '-' :: r)))) ++ nl := by
    rw [hl]
    simp [List.append_assoc]
  have hclean := full_clean b A f r hb hA hf hr
  have hcne : b ++ (A ++ ('-' :: (f ++ '-' :: r))) ≠ [] := append_ne_nil b _ hbne
  by_cases hund : undetermined (b ++ (A ++ ('-' :: (f ++ '-' :: r)))) = true
  · apply idem_of_empty_first l
    rw [hcore]
    exact firstPass_und _ nl hclean hcne hnl hund
  · rw [Bool.not_eq_true] at hund
    have hpcja : matchPCJa (b ++ (A ++ ('-' :: (f ++ '-' :: r)))) = none :=
      pcja_none_shape b _ hb (head_nondigit_alpha_dash A _ hA)
        (head_ne_kj_alpha_dash A _ hA)
    have hfp : normRoomL l = normRoomTail (b ++ (A ++ ('-' :: (f ++ '-' :: r)))) := by
      rw [hcore]
      exact firstPass _ nl hclean hcne hnl hund hpcja
    have htl := full_tail_eval _ b A f r rfl hb hbne hA hf hfne hr hrne
    have hcleanO := full_clean b A (zfill2 f) (zfill2 r) hb hA
      (zfill2_digits f hf) (zfill2_digits r hr)
    have hneO : b ++ (A ++ ('-' :: (zfill2 f ++ '-' :: zfill2 r))) ≠ [] :=
      append_ne_nil b _ hbne
    have hvna : ∀ c ∈ ('-' :: (zfill2 f ++ '-' :: zfill2 r) : Str),
        isAlphaC c = false := by
      intro c hc
      rcases List.mem_cons.mp hc with h2 | h2
      · rw [h2]
        decide
      rcases List.mem_append.mp h2 with h3 | h3
      · exact digit_not_alpha c (zfill2_digits f hf c h3)
      rcases List.mem_cons.mp h3 with h4 | h4
      · rw [h4]
        decide
      · exact digit_not_alpha c (zfill2_digits r hr c h4)
    have htbd := tbd_transfer b A ('-' :: (f ++ '-' :: r))
      ('-' :: (zfill2 f ++ '-' :: zfill2 r))
      (fun c hc => digit_not_alpha c (hb c hc)) hvna
      ((undetermined_eq_false_iff _).mp hund).2.2
    have hundO : undetermined (b ++ (A ++ ('-' :: (zfill2 f ++ '-' :: zfill2 r)))) =
        false := undet_false_clean_tbd _ hcleanO hneO htbd
    have htlO := full_tail_eval _ b A (zfill2 f) (zfill2 r) rfl hb hbne hA
      (zfill2_digits f hf) (zfill2_ne f) (zfill2_digits r hr) (zfill2_ne r)
    rw [zfill2_idem f, zfill2_idem r] at htlO
    have hfx := normRoomL_fixed _ hcleanO hneO hundO htlO
    rw [hfp, htl]
    exact hfx

theorem idem_base (l : Str) (base : Str) (h : matchBase l = some base) :
    normRoomL (normRoomL l) = normRoomL l := by
  obtain ⟨b, A, c1, c2, c3, c4, tail, nl, hbase, hb, hbne, hA, h1, h2, h3, h4, hl,
    htail, hnl⟩ := matchBase_sound l base h
  rcases htail with htail | ⟨nn, hnn, hnnne, htail⟩
  · subst htail
    have hcore : l = (b ++ (A ++ ('-' :: c1 :: c2 :: '-' :: c3 :: c4 :: []))) ++ nl := by
      rw [hl]
      simp [List.append_assoc]
    have hclean := canon1form_clean b A c1 c2 c3 c4 hb hA h1 h2 h3 h4
    have hcne : b ++ (A ++ ('-' :: c1 :: c2 :: '-' :: c3 :: c4 :: [])) ≠ [] :=
      append_ne_nil b _ hbne
    by_cases hund : undetermined (b ++ (A ++ ('-' :: c1 :: c2 :: '-' :: c3 :: c4 ::
        []))) = true
    · apply idem_of_empty_first l
      rw [hcore]
      exact firstPass_und _ nl hclean hcne hnl hund
    · rw [Bool.not_eq_true] at hund
      have hpcja : matchPCJa (b ++ (A ++ ('-' :: c1 :: c2 :: '-' :: c3 :: c4 ::
          []))) = none :=
        pcja_none_shape b _ hb (head_nondigit_alpha_dash A _ hA)
          (head_ne_kj_alpha_dash A _ hA)
      have hfp : normRoomL l =
          normRoomTail (b ++ (A ++ ('-' :: c1 :: c2 :: '-' :: c3 :: c4 :: []))) := by
        rw [hcore]
        exact firstPass _ nl hclean hcne hnl hund hpcja
      have htl := canon1form_tail _ b A c1 c2 c3 c4 rfl hb hbne hA h1 h2 h3 h4
      have hfx := canon1form_fixed _ b A c1 c2 c3 c4 rfl hb hbne hA h1 h2 h3 h4 hund
      rw [hfp, htl]
      exact hfx
  · subst htail
    have hcore : l = (b ++ (A ++ ('-' :: c1 :: c2 :: '-' :: c3 :: c4 ::
        ('-' :: nn)))) ++ nl := by
      rw [hl]
      simp [List.append_assoc]
    have hclean : ∀ c ∈ b ++ (A ++ ('-' :: c1 :: c2 :: '-' :: c3 :: c4 ::
        ('-' :: nn))), isOutChar c = true :=
      clean_append b _ (clean_digits b hb)
        (clean_append A _ (clean_alphas A hA)
          (clean_cons '-' _ (by decide)
            (clean_cons c1 _ (outChar_of_digit c1 h1)
              (clean_cons c2 _ (outChar_of_digit c2 h2)
                (clean_cons '-' _ (by decide)
                  (clean_cons c3 _ (outChar_of_digit c3 h3)
                    (clean_cons c4 _ (outChar_of_digit c4 h4)
                      (clean_cons '-' _ (by decide) (clean_digits nn hnn)))))))))
    have hcne : b ++ (A ++ ('-' :: c1 :: c2 :: '-' :: c3 :: c4 :: ('-' :: nn))) ≠
        [] := append_ne_nil b _ hbne
    by_cases hund : undetermined (b ++ (A ++ ('-' :: c1 :: c2 :: '-' :: c3 :: c4 ::
        ('-' :: nn)))) = true
    · apply idem_of_empty_first l
      rw [hcore]
      exact firstPass_und _ nl hclean hcne hnl hund
    · rw [Bool.not_eq_true] at hund
      have hpcja : matchPCJa (b ++ (A ++ ('-' :: c1 :: c2 :: '-' :: c3 :: c4 ::
          ('-' :: nn)))) = none :=
        pcja_none_shape b _ hb (head_nondigit_alpha_dash A _ hA)
          (head_ne_kj_alpha_dash A _ hA)
      have hfp : normRoomL l = normRoomTail (b ++ (A ++ ('-' :: c1 :: c2 :: '-' ::
          c3 :: c4 :: ('-' :: nn)))) := by
        rw [hcore]
        exact firstPass _ nl hclean hcne hnl hund hpcja
      have htl := base_tail_eval _ b A c1 c2 c3 c4 nn rfl hb hbne hA h1 h2 h3 h4
        hnn hnnne
      have hcleanO := canon1form_clean b A c1 c2 c3 c4 hb hA h1 h2 h3 h4
      have hneO : b ++ (A ++ ('-' :: c1 :: c2 :: '-' :: c3 :: c4 :: [])) ≠ [] :=
        append_ne_nil b _ hbne
      have hvna : ∀ c ∈ ('-' :: c1 :: c2 :: '-' :: c3 :: c4 :: [] : Str),
          isAlphaC c = false := by
        intro c hc
        rcases List.mem_cons.mp hc with hx | hx
        · rw [hx]; decide
        rcases List.mem_cons.mp hx with hy | hx
        · exact hy ▸ digit_not_alpha c1 h1
        rcases List.mem_cons.mp hx with hy | hx
        · exact hy ▸ digit_not_alpha c2 h2
        rcases List.mem_cons.mp hx with hy | hx
        · rw [hy]; decide
        rcases List.mem_cons.mp hx with hy | hx
        · exact hy ▸ digit_not_alpha c3 h3
        rcases List.mem_cons.mp hx with hy | hx
        · exact hy ▸ digit_not_alpha c4 h4
        · exact absurd hx (List.not_mem_nil c)
      have htbd := tbd_transfer b A ('-' :: c1 :: c2 :: '-' :: c3 :: c4 :: ('-' :: nn))
        ('-' :: c1 :: c2 :: '-' :: c3 :: c4 :: []) (fun c hc => digit_not_alpha c (hb c hc))
        hvna ((undetermined_eq_false_iff _).mp hund).2.2
      have hundO : undetermined (b ++ (A ++ ('-' :: c1 :: c2 :: '-' :: c3 :: c4 ::
          []))) = false := undet_false_clean_tbd _ hcleanO hneO htbd
      have hfx := canon1form_fixed _ b A c1 c2 c3 c4 rfl hb hbne hA h1 h2 h3 h4 hundO
      rw [hfp, htl]
      exact hfx

theorem zfill2_length_small (l : Str) (h : l.length ≤ 2) : (zfill2 l).length = 2 := by
  rw [zfill2]
  by_cases hc : 2 ≤ l.length
  · rw [if_pos hc]
    omega
  · rw [if_neg hc, List.length_append, List.length_replicate]
    omega

theorem idem_short (l : Str) (b n : Str) (h : matchShort l = some (b, n)) :
    normRoomL (normRoomL l) = normRoomL l := by
  obtain ⟨hb, hbne, hn, hlen, nl, hl, hnl⟩ := matchShort_sound l b n h
  have hcore : l = (b ++ ('-' :: n)) ++ nl := by
    rw [hl]
  have hclean : ∀ c ∈ b ++ ('-' :: n), isOutChar c = true :=
    clean_append b _ (clean_digits b hb)
      (clean_cons '-' _ (by decide) (clean_digits n hn))
  have hcne : b ++ ('-' :: n) ≠ [] := append_ne_nil b _ hbne
  by_cases hund : undetermined (b ++ ('-' :: n)) = true
  · apply idem_of_empty_first l
    rw [hcore]
    exact firstPass_und _ nl hclean hcne hnl hund
  · rw [Bool.not_eq_true] at hund
    have hpcja : matchPCJa (b ++ ('-' :: n)) = none :=
      pcja_none_shape b _ hb (head_all_not isDigitC '-' _ (by decide))
        (fun x hx => by
          injection hx with hx2
          rw [← hx2]
          decide)
    have hfp : normRoomL l = normRoomTail (b ++ ('-' :: n)) := by
      rw [hcore]
      exact firstPass _ nl hclean hcne hnl hund hpcja
    have htl := short_tail_eval _ b n rfl hb hbne hn hlen
    have hcleanO : ∀ c ∈ b ++ ('-' :: zfill2 n), isOutChar c = true :=
      clean_append b _ (clean_digits b hb)
        (clean_cons '-' _ (by decide) (clean_digits _ (zfill2_digits n hn)))
    have hneO : b ++ ('-' :: zfill2 n) ≠ [] := append_ne_nil b _ hbne
    have h3a : hasThreeAlpha (b ++ ('-' :: zfill2 n)) = false := by
      rw [hasThreeAlpha_digits_run b _ hb,
        hasThreeAlpha_cons_nonalpha '-' _ (by decide)]
      exact hasThreeAlpha_false_of_nonalpha _
        (fun c hc => digit_not_alpha c (zfill2_digits n hn c hc))
    have hundO := undet_false_of_shape _ hcleanO hneO h3a
    have hlen2 : (zfill2 n).length = 2 :=
      zfill2_length_small n (by rcases hlen with hq | hq <;> omega)
    have htlO := short_tail_eval _ b (zfill2 n) rfl hb hbne (zfill2_digits n hn)
      (Or.inr hlen2)
    rw [zfill2_idem n] at htlO
    have hfx := normRoomL_fixed _ hcleanO hneO hundO htlO
    rw [hfp, htl]
    exact hfx

theorem idem_short3 (l : Str) (b d : Str) (suf : Option Char)
    (h : matchShort3 l = some (b, d, suf)) :
    normRoomL (normRoomL l) = normRoomL l := by
  obtain ⟨hb, hbne, hd, hdlen, hsufa, nl, hl, hnl⟩ := matchShort3_sound l b d suf h
  obtain ⟨d0, d1, d2, hd0⟩ := List.length_eq_three.mp hdlen
  subst hd0
  have h0 : isDigitC d0 = true := hd d0 (by simp)
  have h1 : isDigitC d1 = true := hd d1 (by simp)
  have h2 : isDigitC d2 = true := hd d2 (by simp)
  have hcore : l = (b ++ ('-' :: d0 :: d1 :: d2 :: suf.toList)) ++ nl := by
    rw [hl]
    simp [List.append_assoc]
  have hsufclean : ∀ c ∈ (suf.toList : Str), isOutChar c = true := by
    rcases hsc : suf with _ | c
    · intro x hx
      simp at hx
    · intro x hx
      simp only [Option.toList] at hx
      rw [List.mem_singleton.mp hx]
      exact outChar_of_alpha c (hsufa c hsc)
  have hclean : ∀ c ∈ b ++ ('-' :: d0 :: d1 :: d2 :: suf.toList), isOutChar c = true :=
    clean_append b _ (clean_digits b hb)
      (clean_cons '-' _ (by decide)
        (clean_cons d0 _ (outChar_of_digit d0 h0)
          (clean_cons d1 _ (outChar_of_digit d1 h1)
            (clean_cons d2 _ (outChar_of_digit d2 h2) hsufclean))))
  have hcne : b ++ ('-' :: d0 :: d1 :: d2 :: suf.toList) ≠ [] := append_ne_nil b _ hbne
  by_cases hund : undetermined (b ++ ('-' :: d0 :: d1 :: d2 :: suf.toList)) = true
  · apply idem_of_empty_first l
    rw [hcore]
    exact firstPass_und _ nl hclean hcne hnl hund
  · rw [Bool.not_eq_true] at hund
    have hpcja : matchPCJa (b ++ ('-' :: d0 :: d1 :: d2 :: suf.toList)) = none :=
      pcja_none_shape b _ hb (head_all_not isDigitC '-' _ (by decide))
        (fun x hx => by
          injection hx with hx2
          rw [← hx2]
          decide)
    have hfp : normRoomL l =
        normRoomTail (b ++ ('-' :: d0 :: d1 :: d2 :: suf.toList)) := by
      rw [hcore]
      exact firstPass _ nl hclean hcne hnl hund hpcja
    by_cases hb63 : (b == "63".data) = true
    · have hb63e : b = "63".data := by simpa using hb63
      subst hb63e
      have htl := short3_63_tail_eval _ d0 d1 d2 suf rfl h0 h1 h2 hsufa
      have hcleanO : ∀ c ∈ ('6' :: '3' :: '-' :: '0' :: d0 :: '-' :: d1 :: d2 ::
          [] : Str), isOutChar c = true :=
        clean_cons '6' _ (by decide)
          (clean_cons '3' _ (by decide)
            (clean_cons '-' _ (by decide)
              (clean_cons '0' _ (by decide)
                (clean_cons d0 _ (outChar_of_digit d0 h0)
                  (clean_cons '-' _ (by decide)
                    (clean_cons d1 _ (outChar_of_digit d1 h1)
                      (clean_cons d2 _ (outChar_of_digit d2 h2) clean_nil)))))))
      have hneO : ('6' :: '3' :: '-' :: '0' :: d0 :: '-' :: d1 :: d2 :: [] : Str) ≠
          [] := fun he => List.noConfusion he
      have h3a : hasThreeAlpha ('6' :: '3' :: '-' :: '0' :: d0 :: '-' :: d1 :: d2 ::
          [] : Str) = false := by
        apply hasThreeAlpha_false_of_nonalpha
        intro c hc
        rcases List.mem_cons.mp hc with hx | hc
        · rw [hx]; decide
        rcases List.mem_cons.mp hc with hx | hc
        · rw [hx]; decide
        rcases List.mem_cons.mp hc with hx | hc
        · rw [hx]; decide
        rcases List.mem_cons.mp hc with hx | hc
        · rw [hx]; decide
        rcases List.mem_cons.mp hc with hx | hc
        · exact hx ▸ digit_not_alpha d0 h0
        rcases List.mem_cons.mp hc with hx | hc
        · rw [hx]; decide
        rcases List.mem_cons.mp hc with hx | hc
        · exact hx ▸ digit_not_alpha d1 h1
        rcases List.mem_cons.mp hc with hx | hc
        · exact hx ▸ digit_not_alpha d2 h2
        · exact absurd hc (List.not_mem_nil c)
      have hundO := undet_false_of_shape _ hcleanO hneO h3a
      have hfx := canon1form_fixed _ ['6', '3'] [] '0' d0 d1 d2 rfl (by decide)
        (fun he => List.noConfusion he) (fun c hc => by simp at hc) (by decide)
        h0 h1 h2 hundO
      rw [hfp, htl]
      exact hfx
    · have hb63f : (b == "63".data) = false := by
        rw [Bool.not_eq_true] at hb63
        exact hb63
      by_cases hali : b ++ ('-' :: d0 :: d1 :: d2 :: suf.toList) = "61-102".data
      · rw [hcore, hali]
        rcases hnl with hq | hq <;> subst hq <;> decide
      · have halif := list_beq_false _ _ hali
        have htl := short3_tail_eval _ b d0 d1 d2 suf rfl hb hbne h0 h1 h2 hsufa
          halif hb63f
        have hsufa2 : ∀ c, suf.map Char.toUpper = some c → isAlphaC c = true := by
          intro c hc
          rcases hsc : suf with _ | c0
          · rw [hsc] at hc
            exact absurd hc (by simp)
          · rw [hsc] at hc
            have hc0 := hsufa c0 hsc
            have hc2 : some (Char.toUpper c0) = some c := hc
            injection hc2 with hc3
            rw [← hc3]
            exact toUpper_alpha c0 hc0
        have hsufclean2 : ∀ c ∈ ((suf.map Char.toUpper).toList : Str),
            isOutChar c = true := by
          rcases hsc : suf with _ | c0
          · intro x hx
            simp at hx
          · intro x hx
            simp only [Option.map, Option.toList] at hx
            rw [List.mem_singleton.mp hx]
            exact outChar_of_alpha _ (toUpper_alpha c0 (hsufa c0 hsc))
        have hcleanO : ∀ c ∈ b ++ ('-' :: d0 :: d1 :: d2 ::
            (suf.map Char.toUpper).toList), isOutChar c = true :=
          clean_append b _ (clean_digits b hb)
            (clean_cons '-' _ (by decide)
              (clean_cons d0 _ (outChar_of_digit d0 h0)
                (clean_cons d1 _ (outChar_of_digit d1 h1)
                  (clean_cons d2 _ (outChar_of_digit d2 h2) hsufclean2))))
        have hneO : b ++ ('-' :: d0 :: d1 :: d2 ::
            (suf.map Char.toUpper).toList) ≠ [] := append_ne_nil b _ hbne
        have h3a : hasThreeAlpha (b ++ ('-' :: d0 :: d1 :: d2 ::
            (suf.map Char.toUpper).toList)) = false := by
          rw [hasThreeAlpha_digits_run b _ hb,
            hasThreeAlpha_cons_nonalpha '-' _ (by decide),
            hasThreeAlpha_cons_nonalpha d0 _ (digit_not_alpha d0 h0),
            hasThreeAlpha_cons_nonalpha d1 _ (digit_not_alpha d1 h1),
            hasThreeAlpha_cons_nonalpha d2 _ (digit_not_alpha d2 h2)]
          rcases suf with _ | c <;> rfl
        have hundO := undet_false_of_shape _ hcleanO hneO h3a
        have haliO : ((b ++ ('-' :: d0 :: d1 :: d2 ::
            (suf.map Char.toUpper).toList)) == "61-102".data) = false := by
          rcases hsc : suf with _ | c
          · rw [hsc] at halif
            exact halif
          · exact alias_beq_false_of_alpha_mem _ (Char.toUpper c)
              (toUpper_alpha c (hsufa c hsc)) (by simp)
        have htlO := short3_tail_eval _ b d0 d1 d2 (suf.map Char.toUpper) rfl hb hbne
          h0 h1 h2 hsufa2 haliO hb63f
        have hmapmap : (suf.map Char.toUpper).map Char.toUpper =
            suf.map Char.toUpper := by
          rcases suf with _ | c
          · rfl
          · simp [toUpper_toUpper]
        rw [hmapmap] at htlO
        have hfx := normRoomL_fixed _ hcleanO hneO hundO htlO
        rw [hfp, htl]
        exact hfx

/-- C2 (amended): for every three-digit short-form room string
`"<building>-<three digits><letter>"` whose building is a digit run other
than `"63"`, `norm_room` keeps the short form and keeps the trailing
letter, upper-cased — it is not dropped. -/
theorem claim2_short3_keeps_letter (b : Str) (d1 d2 d3 c : Char)
    (hb : ∀ x ∈ b, isDigitC x = true) (hbne : b ≠ []) (hb63 : b ≠ "63".data)
    (h1 : isDigitC d1 = true) (h2 : isDigitC d2 = true) (h3 : isDigitC d3 = true)
    (hc : isAlphaC c = true) :
    norm_room ⟨b ++ ('-' :: d1 :: d2 :: d3 :: c :: [])⟩ =
      ⟨b ++ ('-' :: d1 :: d2 :: d3 :: Char.toUpper c :: [])⟩ := by
  have hclean : ∀ x ∈ b ++ ('-' :: d1 :: d2 :: d3 :: c :: []), isOutChar x = true :=
    clean_append b _ (clean_digits b hb)
      (clean_cons '-' _ (by decide)
        (clean_cons d1 _ (outChar_of_digit d1 h1)
          (clean_cons d2 _ (outChar_of_digit d2 h2)
            (clean_cons d3 _ (outChar_of_digit d3 h3)
              (clean_cons c _ (outChar_of_alpha c hc) clean_nil)))))
  have hcne := append_ne_nil b ('-' :: d1 :: d2 :: d3 :: c :: []) hbne
  have h3a : hasThreeAlpha (b ++ ('-' :: d1 :: d2 :: d3 :: c :: [])) = false := by
    rw [hasThreeAlpha_digits_run b _ hb,
      hasThreeAlpha_cons_nonalpha '-' _ (by decide),
      hasThreeAlpha_cons_nonalpha d1 _ (digit_not_alpha d1 h1),
      hasThreeAlpha_cons_nonalpha d2 _ (digit_not_alpha d2 h2),
      hasThreeAlpha_cons_nonalpha d3 _ (digit_not_alpha d3 h3)]
    rfl
  have hund := undet_false_of_shape _ hclean hcne h3a
  have hpcja : matchPCJa (b ++ ('-' :: d1 :: d2 :: d3 :: c :: [])) = none :=
    pcja_none_shape b _ hb (head_all_not isDigitC '-' _ (by decide))
      (fun x hx => by
        injection hx with hx2
        rw [← hx2]
        decide)
  have hfp := firstPass (b ++ ('-' :: d1 :: d2 :: d3 :: c :: [])) [] hclean hcne
    (Or.inl rfl) hund hpcja
  rw [List.append_nil] at hfp
  have halif : ((b ++ ('-' :: d1 :: d2 :: d3 :: c :: [])) == "61-102".data) =
      false := alias_beq_false_of_alpha_mem _ c hc (by simp)
  have htl : normRoomTail (b ++ ('-' :: d1 :: d2 :: d3 :: c :: [])) =
      b ++ ('-' :: d1 :: d2 :: d3 :: Char.toUpper c :: []) := by
    have h := short3_tail_eval (b ++ ('-' :: d1 :: d2 :: d3 :: c :: []))
      b d1 d2 d3 (some c) rfl hb hbne h1 h2 h3
      (fun c0 hc0 => by
        injection hc0 with hc1
        rw [← hc1]
        exact hc)
      halif (list_beq_false b _ hb63)
    exact h
  show (⟨normRoomL (b ++ ('-' :: d1 :: d2 :: d3 :: c :: []))⟩ : String) = _
  rw [hfp, htl]

theorem claim2_witness : norm_room "52-201a" = "52-201A" := by
  have h := claim2_short3_keeps_letter "52".data '2' '0' '1' 'a' (by decide)
    (by decide) (by decide) (by decide) (by decide) (by decide) (by decide)
  exact h

/-- C8: room canonicalisation is idempotent on the recognised shapes:
for every input string `x` matching one of the cascade's recognised
room-string shapes (`RecognizedRoomShape`),
`norm_room (norm_room x) = norm_room x`. -/
theorem claim8_norm_room_idempotent (x : String) (h : RecognizedRoomShape x = true) :
    norm_room (norm_room x) = norm_room x := by
  have hL : normRoomL (normRoomL x.data) = normRoomL x.data := by
    unfold RecognizedRoomShape recognizedShape at h
    simp only [Bool.or_eq_true] at h
    rcases h with ((((((((h | h) | h) | h) | h) | h) | h) | h) | h) | h
    · obtain ⟨⟨b, c⟩, hm⟩ := Option.isSome_iff_exists.mp h
      exact idem_pcja x.data b c hm
    · exact idem_alias x.data h
    · obtain ⟨⟨b, c⟩, hm⟩ := Option.isSome_iff_exists.mp h
      exact idem_pcen x.data b c hm
    · exact idem_canon1 x.data h
    · exact idem_canon2 x.data h
    · exact idem_canon3 x.data h
    · obtain ⟨⟨bld, f, r⟩, hm⟩ := Option.isSome_iff_exists.mp h
      exact idem_full x.data bld f r hm
    · obtain ⟨base, hm⟩ := Option.isSome_iff_exists.mp h
      exact idem_base x.data base hm
    · obtain ⟨⟨b, d, suf⟩, hm⟩ := Option.isSome_iff_exists.mp h
      exact idem_short3 x.data b d suf hm
    · obtain ⟨⟨b, n⟩, hm⟩ := Option.isSome_iff_exists.mp h
      exact idem_short x.data b n hm
  unfold norm_room
  exact congrArg String.mk hL

theorem claim8_witness :
    RecognizedRoomShape "52-201" = true ∧
      norm_room (norm_room "52-201") = norm_room "52-201" :=
  ⟨by decide, claim8_norm_room_idempotent "52-201" (by decide)⟩

end Collect
